import Mathlib

/-!
# Order book matching engine

A shallow embedding of the `OrderBook` class of `OrderbookTest/test.cpp`
(the variant of `Orderbook.cpp` that carries the `activeOrders` index and
`cancelOrder`), followed by theorems about it.

Modelling conventions.

* `std::string` is `String`; `int` is `Int`, and the two subtractions on
  quantities wrap around as 32-bit two's-complement numbers (`wrap32`; signed
  overflow, undefined in the source, can only occur with a negative quantity);
  `double` prices are only used as ordered map keys and are modelled by `Int`
  (a total order, no NaN); a `time_point` is an integer number of clock ticks.
* `std::queue<Order>` is a `List Order`, front first.
* `std::map<double, std::queue<Order>, Cmp>` is an association list kept in
  iteration order (`begin()` is the head); `desc = true` stands for
  `std::greater<double>` (the bid side), `desc = false` for the default
  `std::less<double>` (the ask side).
* `std::unordered_map<std::string, Order>` is an association list.
* Every `while` loop of the source is a `Step`-function iterated by `iterate`
  with explicit fuel.  Running out of fuel and calling `front()` on an empty
  queue (undefined behaviour in the source) are reported as a `Fault`.
* Every "Matched ..." console line is recorded as a `Fill`.
* Each public member function is one atomic transition.  The functions
  `addOrder`, `cancelOrder`, `removeExpiredOrders` and `matchOrders` leave the
  mutex out: `matchOrders` is taken to run inside `addOrder` without locking
  `mtx` a second time.  The `lock_guard`s are modelled separately, in
  `addOrderLocked` and its companions, which carry the state of `mtx` for the
  calling thread.  A call of `addOrder` that throws leaves the book as it is at
  the `throw`.
-/

namespace Orderbook

/-! ## Data model -/

/-- The `Order` struct.  `timestamp` is set by the constructor from the system
clock; the book never changes it. -/
structure Order where
  orderId : String
  type : String
  side : String
  price : Int
  quantity : Int
  timestamp : Int
deriving DecidableEq, Repr

/-- One side of the book: price levels in map iteration order. -/
abbrev PriceMap := List (Int × List Order)

/-- The `activeOrders` index. -/
abbrev Index := List (String × Order)

/-- The three data members of `OrderBook`. -/
structure OrderBook where
  buyOrders : PriceMap
  sellOrders : PriceMap
  activeOrders : Index
deriving DecidableEq, Repr

/-- A default-constructed `OrderBook`. -/
def emptyBook : OrderBook := ⟨[], [], []⟩

/-- Which of the three "Matched" messages a fill was printed with. -/
inductive FillKind where
  | cross
  | marketBuy
  | marketSell
deriving DecidableEq, Repr

/-- One "Matched q units at price p" line.  The line of a market fill prints
only the market order's id; the id of the resting order it was computed from is
recorded here as well. -/
structure Fill where
  kind : FillKind
  quantity : Int
  price : Int
  buyId : String
  sellId : String
deriving DecidableEq, Repr

/-- Why a run of the model stops without a result. -/
inductive Fault where
  | outOfFuel
  | emptyFront
deriving DecidableEq, Repr

/-! ## Machine integers and the clock -/

/-- Two's-complement reduction of an integer to the range of a 32-bit `int`. -/
def wrap32 (x : Int) : Int := (x + 2147483648) % 4294967296 - 2147483648

/-- The values of a 32-bit `int`. -/
def IsInt32 (x : Int) : Prop := -2147483648 ≤ x ∧ x < 2147483648

instance (x : Int) : Decidable (IsInt32 x) := by unfold IsInt32; infer_instance

/-- Ticks of `std::chrono::system_clock` per second (nanosecond resolution). -/
def ticksPerSecond : Int := 1000000000

/-- The value of `duration_cast<seconds>(now - timestamp).count()`: whole seconds, rounded
towards zero. -/
def ageSeconds (now timestamp : Int) : Int := Int.tdiv (now - timestamp) ticksPerSecond

/-- The expiry test of `removeExpiredOrders`: age in whole seconds `> 60`. -/
def expired (now : Int) (o : Order) : Bool := decide (ageSeconds now o.timestamp > 60)

/-! ## `std::map` and `std::unordered_map` operations -/

/-- The map comparator: `keyBefore desc a b` when key `a` is iterated before
key `b`. -/
def keyBefore (desc : Bool) (a b : Int) : Bool :=
  if desc then decide (b < a) else decide (a < b)

/-- The queue stored under key `p`, or the empty queue that `operator[]`
default-constructs when the key is absent. -/
def mapGet (p : Int) : PriceMap → List Order
  | [] => []
  | (k, q) :: rest => if k = p then q else mapGet p rest

/-- The assignment `m[p] = q`: overwrite the level, or insert it at its place in
iteration order. -/
def mapSet (desc : Bool) (p : Int) (q : List Order) : PriceMap → PriceMap
  | [] => [(p, q)]
  | (k, q0) :: rest =>
    if k = p then (k, q) :: rest
    else if keyBefore desc p k then (p, q) :: (k, q0) :: rest
    else (k, q0) :: mapSet desc p q rest

/-- The call `m.erase(p)`. -/
def mapErase (p : Int) (m : PriceMap) : PriceMap :=
  m.filter (fun l => decide (l.1 ≠ p))

/-- The statement `m[order.price].push(order)`. -/
def pushOrder (desc : Bool) (o : Order) (m : PriceMap) : PriceMap :=
  mapSet desc o.price (mapGet o.price m ++ [o]) m

/-- The call `activeOrders.find(id)`, `none` standing for `end()`. -/
def indexFind (id : String) : Index → Option Order
  | [] => none
  | (k, o) :: rest => if k = id then some o else indexFind id rest

/-- The call `activeOrders.erase(id)`. -/
def indexErase (id : String) (idx : Index) : Index :=
  idx.filter (fun e => decide (e.1 ≠ id))

/-- The assignment `activeOrders[id] = o`. -/
def indexSet (id : String) (o : Order) (idx : Index) : Index :=
  (id, o) :: indexErase id idx

/-- Whether `id` is a key of the index. -/
def indexHas (id : String) (idx : Index) : Bool := (indexFind id idx).isSome

/-! ## Loops -/

/-- The outcome of one evaluation of a loop's guard and body. -/
inductive Step (σ : Type) where
  | exit
  | next (s : σ) (f : Fill)
  | undefined

/-- A `while` loop: evaluate guard and body until the loop exits, collecting
the fills.  Each evaluation costs one unit of fuel. -/
def iterate {σ : Type} (step : σ → Step σ) : Nat → σ → Except Fault (σ × List Fill)
  | 0, _ => .error .outOfFuel
  | fuel + 1, s =>
    match step s with
    | .exit => .ok (s, [])
    | .undefined => .error .emptyFront
    | .next s1 f =>
      match iterate step fuel s1 with
      | .ok (s2, fs) => .ok (s2, f :: fs)
      | .error e => .error e

/-- All orders resting on one side, best level first, each level front first. -/
def sideOrders : PriceMap → List Order
  | [] => []
  | (_, q) :: rest => q ++ sideOrders rest

/-- All orders resting in the book. -/
def restingOrders (b : OrderBook) : List Order :=
  sideOrders b.buyOrders ++ sideOrders b.sellOrders

/-- After the front order of the first level has been given the quantity `nq`:
the `if (order.quantity == 0) { queue.pop(); if (queue.empty()) erase(level) }`
block, applied to a side whose first level is `(k, o :: q)`. -/
def settleFront (nq : Int) : PriceMap → PriceMap
  | (k, o :: q) :: rest =>
    if nq = 0 then (if q = [] then rest else (k, q) :: rest)
    else (k, { o with quantity := nq } :: q) :: rest
  | m => m

/-- The `activeOrders.erase(order.orderId)` that goes with `settleFront`. -/
def settleIndex (nq : Int) (id : String) (idx : Index) : Index :=
  if nq = 0 then indexErase id idx else idx

/-- The block `if (buyOrder.quantity == 0) { activeOrders.erase(buyOrder.orderId);
queue.pop(); if (queue.empty()) buyOrders.erase(buy); }`, for the front bid `id`
whose quantity has become `nq`. -/
def settleBuy (nq : Int) (id : String) (b : OrderBook) : OrderBook :=
  { buyOrders := settleFront nq b.buyOrders
    sellOrders := b.sellOrders
    activeOrders := settleIndex nq id b.activeOrders }

/-- The same block for the front ask. -/
def settleSell (nq : Int) (id : String) (b : OrderBook) : OrderBook :=
  { buyOrders := b.buyOrders
    sellOrders := settleFront nq b.sellOrders
    activeOrders := settleIndex nq id b.activeOrders }

/-- One evaluation of the `while` loop of `matchOrders`. -/
def matchStep (b : OrderBook) : Step OrderBook :=
  match b.buyOrders, b.sellOrders with
  | (bp, bq) :: _, (sp, sq) :: _ =>
    if sp ≤ bp then
      match bq, sq with
      | buyOrder :: _, sellOrder :: _ =>
        let matchedQuantity := min buyOrder.quantity sellOrder.quantity
        let bnq := wrap32 (buyOrder.quantity - matchedQuantity)
        let snq := wrap32 (sellOrder.quantity - matchedQuantity)
        .next
          (settleSell snq sellOrder.orderId (settleBuy bnq buyOrder.orderId b))
          ⟨.cross, matchedQuantity, sp, buyOrder.orderId, sellOrder.orderId⟩
      | _, _ => .undefined
    else .exit
  | _, _ => .exit

/-- The member function `matchOrders`. -/
def matchOrders (b : OrderBook) : Except Fault (OrderBook × List Fill) :=
  iterate matchStep ((restingOrders b).length + 1) b

/-- One evaluation of the market-buy sweep loop of `addOrder`; the state is the
book and the incoming order's remaining quantity. -/
def marketBuyStep (id : String) (s : OrderBook × Int) : Step (OrderBook × Int) :=
  match s.1.sellOrders with
  | [] => .exit
  | (sp, sq) :: _ =>
    if 0 < s.2 then
      match sq with
      | sellOrder :: _ =>
        let matchedQuantity := min s.2 sellOrder.quantity
        let snq := wrap32 (sellOrder.quantity - matchedQuantity)
        .next (settleSell snq sellOrder.orderId s.1, wrap32 (s.2 - matchedQuantity))
          ⟨.marketBuy, matchedQuantity, sp, id, sellOrder.orderId⟩
      | [] => .undefined
    else .exit

/-- One evaluation of the market-sell sweep loop of `addOrder`. -/
def marketSellStep (id : String) (s : OrderBook × Int) : Step (OrderBook × Int) :=
  match s.1.buyOrders with
  | [] => .exit
  | (bp, bq) :: _ =>
    if 0 < s.2 then
      match bq with
      | buyOrder :: _ =>
        let matchedQuantity := min s.2 buyOrder.quantity
        let bnq := wrap32 (buyOrder.quantity - matchedQuantity)
        .next (settleBuy bnq buyOrder.orderId s.1, wrap32 (s.2 - matchedQuantity))
          ⟨.marketSell, matchedQuantity, bp, buyOrder.orderId, id⟩
      | [] => .undefined
    else .exit

/-! ## `addOrder` -/

/-- How a call of `addOrder` ends: normally, by the early return of the
duplicate check, or by one of the two `std::invalid_argument` throws. -/
inductive AddStatus where
  | done
  | duplicate
  | invalidSide
  | invalidType
deriving DecidableEq, Repr

/-- The book and the fills at the point where `addOrder` is left. -/
structure AddResult where
  status : AddStatus
  book : OrderBook
  fills : List Fill
deriving DecidableEq, Repr

/-- The tail of `addOrder`: the call of `matchOrders`, after the fills `pre` of
a market sweep. -/
def finishAdd (b : OrderBook) (pre : List Fill) : Except Fault AddResult :=
  match matchOrders b with
  | .ok (b1, fs) => .ok ⟨.done, b1, pre ++ fs⟩
  | .error e => .error e

/-- A market sweep (one of the two inner `while` loops) followed by the tail of
`addOrder`. -/
def sweepAdd (step : OrderBook × Int → Step (OrderBook × Int)) (b : OrderBook)
    (order : Order) (opposite : PriceMap) : Except Fault AddResult :=
  match iterate step ((sideOrders opposite).length + 2) (b, order.quantity) with
  | .ok (s, pre) => finishAdd s.1 pre
  | .error e => .error e

/-- The member function `addOrder`. -/
def addOrder (b : OrderBook) (order : Order) : Except Fault AddResult :=
  if indexHas order.orderId b.activeOrders then .ok ⟨.duplicate, b, []⟩
  else
    let b0 : OrderBook :=
      { b with activeOrders := indexSet order.orderId order b.activeOrders }
    if order.type = "limit" then
      if order.side = "buy" then
        finishAdd { b0 with buyOrders := pushOrder true order b0.buyOrders } []
      else if order.side = "sell" then
        finishAdd { b0 with sellOrders := pushOrder false order b0.sellOrders } []
      else .ok ⟨.invalidSide, b0, []⟩
    else if order.type = "market" then
      if order.side = "buy" then
        sweepAdd (marketBuyStep order.orderId) b0 order b0.sellOrders
      else if order.side = "sell" then
        sweepAdd (marketSellStep order.orderId) b0 order b0.buyOrders
      else .ok ⟨.invalidSide, b0, []⟩
    else .ok ⟨.invalidType, b0, []⟩

/-! ## `cancelOrder` -/

/-- The queue rebuild of `cancelOrder` on one side: copy every order of the
level `p` whose id differs from `id`, assign the copy to the level, erase the
level if the copy is empty. -/
def cancelSide (desc : Bool) (p : Int) (id : String) (m : PriceMap) : PriceMap :=
  let tempQueue := (mapGet p m).filter (fun o => decide (o.orderId ≠ id))
  let m1 := mapSet desc p tempQueue m
  if tempQueue = [] then mapErase p m1 else m1

/-- The member function `cancelOrder`; the Boolean tells whether the id was
found in the index ("Canceled") or not ("not found"). -/
def cancelOrder (b : OrderBook) (orderId : String) : Bool × OrderBook :=
  match indexFind orderId b.activeOrders with
  | none => (false, b)
  | some order =>
    let idx := indexErase orderId b.activeOrders
    if order.side = "buy" then
      (true, { buyOrders := cancelSide true order.price orderId b.buyOrders
               sellOrders := b.sellOrders
               activeOrders := idx })
    else if order.side = "sell" then
      (true, { buyOrders := b.buyOrders
               sellOrders := cancelSide false order.price orderId b.sellOrders
               activeOrders := idx })
    else (true, { b with activeOrders := idx })

/-! ## `removeExpiredOrders` -/

/-- One `for` loop of `removeExpiredOrders`: in every level pop the front while
it is expired, and erase the level if its queue became empty. -/
def sweepSide (now : Int) : PriceMap → PriceMap
  | [] => []
  | (k, q) :: rest =>
    let q1 := q.dropWhile (expired now)
    if q1 = [] then sweepSide now rest else (k, q1) :: sweepSide now rest

/-- The orders popped by `sweepSide`, in the order in which they are popped. -/
def sweptOrders (now : Int) : PriceMap → List Order
  | [] => []
  | (_, q) :: rest => q.takeWhile (expired now) ++ sweptOrders now rest

/-- Erase the ids of the given orders from the index, one after the other. -/
def eraseAll (os : List Order) (idx : Index) : Index :=
  os.foldl (fun i o => indexErase o.orderId i) idx

/-- The member function `removeExpiredOrders`, with the clock reading `now`. -/
def removeExpiredOrders (b : OrderBook) (now : Int) : OrderBook :=
  { buyOrders := sweepSide now b.buyOrders
    sellOrders := sweepSide now b.sellOrders
    activeOrders :=
      eraseAll (sweptOrders now b.sellOrders)
        (eraseAll (sweptOrders now b.buyOrders) b.activeOrders) }

/-! ## Call sequences -/

/-- A call of one of the three operations that change the book. -/
inductive Op where
  | add (order : Order)
  | cancel (orderId : String)
  | expire (now : Int)
deriving DecidableEq, Repr

/-- The book after one call (for a call of `addOrder` that throws, the book at
the `throw`), and the fills the call printed. -/
def applyOp (b : OrderBook) : Op → Except Fault (OrderBook × List Fill)
  | .add order =>
    match addOrder b order with
    | .ok r => .ok (r.book, r.fills)
    | .error e => .error e
  | .cancel orderId => .ok ((cancelOrder b orderId).2, [])
  | .expire now => .ok (removeExpiredOrders b now, [])

/-- The book after a sequence of calls, and all fills printed on the way. -/
def runOps (b : OrderBook) : List Op → Except Fault (OrderBook × List Fill)
  | [] => .ok (b, [])
  | op :: ops =>
    match applyOp b op with
    | .ok (b1, fs) =>
      match runOps b1 ops with
      | .ok (b2, gs) => .ok (b2, fs ++ gs)
      | .error e => .error e
    | .error e => .error e

/-! ## Big-step semantics of the loops -/

/-- The big-step relation of a loop. -/
inductive Run {σ : Type} (step : σ → Step σ) : σ → σ → List Fill → Prop where
  | exit {s : σ} : step s = .exit → Run step s s []
  | next {s s1 s2 : σ} {f : Fill} {fs : List Fill} :
      step s = .next s1 f → Run step s1 s2 fs → Run step s s2 (f :: fs)

/-! ## Predicates on books -/

/-- The price keys of one side, in iteration order. -/
def keys (m : PriceMap) : List Int := m.map Prod.fst

/-- The ids of the orders resting on one side. -/
def ids (m : PriceMap) : List String := (sideOrders m).map (fun o => o.orderId)

/-- The keys are in the strict iteration order of the comparator. -/
def SortedKeys (desc : Bool) (m : PriceMap) : Prop :=
  (keys m).Pairwise (fun a b => keyBefore desc a b = true)

/-- No level holds an empty queue. -/
def NoEmpty (m : PriceMap) : Prop := ∀ l ∈ m, l.2 ≠ []

/-- Every order of a level carries the side's name and the level's price. -/
def LevelOK (side : String) (m : PriceMap) : Prop :=
  ∀ l ∈ m, ∀ o ∈ l.2, o.side = side ∧ o.price = l.1

/-- Every order resting on the side has an index entry with its side and price. -/
def Covered (idx : Index) (m : PriceMap) : Prop :=
  ∀ o ∈ sideOrders m, ∃ e, indexFind o.orderId idx = some e ∧ e.side = o.side ∧ e.price = o.price

/-- The shape of one side: sorted keys, no empty level, orders filed under their
own side and price. -/
structure SideWF (desc : Bool) (side : String) (m : PriceMap) : Prop where
  sorted : SortedKeys desc m
  noEmpty : NoEmpty m
  levelOK : LevelOK side m

/-- The two sides and the index agree: resting ids are pairwise distinct and
every resting order is indexed. -/
structure Linked (x y : PriceMap) (idx : Index) : Prop where
  nodup : (ids x ++ ids y).Nodup
  covX : Covered idx x
  covY : Covered idx y

/-- The representation invariant of the book. -/
structure WF (b : OrderBook) : Prop where
  buy : SideWF true "buy" b.buyOrders
  sell : SideWF false "sell" b.sellOrders
  linked : Linked b.buyOrders b.sellOrders b.activeOrders

/-- Every bid price is strictly below every ask price. -/
def Uncrossed (b : OrderBook) : Prop :=
  ∀ bp ∈ keys b.buyOrders, ∀ sp ∈ keys b.sellOrders, bp < sp

/-- The side of the book named `side` (the ask side for any name but "buy"). -/
def sideMap (b : OrderBook) (side : String) : PriceMap :=
  if side = "buy" then b.buyOrders else b.sellOrders

/-- The queue of the level at price `p` on the side named `side`. -/
def levelQueue (b : OrderBook) (side : String) (p : Int) : List Order :=
  if side = "buy" then mapGet p b.buyOrders else mapGet p b.sellOrders

/-- An order with id `id` rests in the book. -/
def Rests (b : OrderBook) (id : String) : Prop :=
  id ∈ (restingOrders b).map (fun o => o.orderId)

instance (b : OrderBook) (id : String) : Decidable (Rests b id) := by
  unfold Rests; infer_instance

/-- A quantity that is positive and fits a 32-bit `int`. -/
def PosQty (o : Order) : Prop := 0 < o.quantity ∧ o.quantity < 2147483648

instance (o : Order) : Decidable (PosQty o) := by unfold PosQty; infer_instance

/-- Every resting order has a positive quantity within the range of `int`. -/
def PosBook (b : OrderBook) : Prop := ∀ r ∈ restingOrders b, PosQty r

/-- Every level queue of the side holds its orders in non-decreasing order of
their timestamps, front first, and no timestamp on the side is later than `t`. -/
def Aged (t : Int) (m : PriceMap) : Prop :=
  (∀ l ∈ m, l.2.Pairwise (fun a c => a.timestamp ≤ c.timestamp)) ∧
    ∀ r ∈ sideOrders m, r.timestamp ≤ t

/-! ## The runs of `addOrder` -/

/-- The effect of `settleFront` on the flattened list of a side's orders. -/
def settleList (nq : Int) : List Order → List Order
  | [] => []
  | o :: t => if nq = 0 then t else { o with quantity := nq } :: t

/-- The book in which `order` has been registered in the index: the state of
`addOrder` after `activeOrders[order.orderId] = order`. -/
def registered (b : OrderBook) (order : Order) : OrderBook :=
  { b with activeOrders := indexSet order.orderId order b.activeOrders }

/-- The runs of `addOrder`, branch by branch, with each loop given by its
big-step relation. -/
inductive AddSpec (b : OrderBook) (o : Order) : AddResult → Prop where
  | duplicate : indexHas o.orderId b.activeOrders = true → AddSpec b o ⟨.duplicate, b, []⟩
  | limitBuy {b1 : OrderBook} {fs : List Fill} :
      indexHas o.orderId b.activeOrders = false → o.type = "limit" → o.side = "buy" →
      Run matchStep
        { (registered b o) with buyOrders := pushOrder true o b.buyOrders } b1 fs →
      AddSpec b o ⟨.done, b1, fs⟩
  | limitSell {b1 : OrderBook} {fs : List Fill} :
      indexHas o.orderId b.activeOrders = false → o.type = "limit" → o.side = "sell" →
      Run matchStep
        { (registered b o) with sellOrders := pushOrder false o b.sellOrders } b1 fs →
      AddSpec b o ⟨.done, b1, fs⟩
  | marketBuy {s : OrderBook × Int} {pre : List Fill} {b1 : OrderBook} {fs : List Fill} :
      indexHas o.orderId b.activeOrders = false → o.type = "market" → o.side = "buy" →
      Run (marketBuyStep o.orderId) (registered b o, o.quantity) s pre →
      Run matchStep s.1 b1 fs →
      AddSpec b o ⟨.done, b1, pre ++ fs⟩
  | marketSell {s : OrderBook × Int} {pre : List Fill} {b1 : OrderBook} {fs : List Fill} :
      indexHas o.orderId b.activeOrders = false → o.type = "market" → o.side = "sell" →
      Run (marketSellStep o.orderId) (registered b o, o.quantity) s pre →
      Run matchStep s.1 b1 fs →
      AddSpec b o ⟨.done, b1, pre ++ fs⟩
  | invalidSide :
      indexHas o.orderId b.activeOrders = false → (o.type = "limit" ∨ o.type = "market") →
      o.side ≠ "buy" → o.side ≠ "sell" → AddSpec b o ⟨.invalidSide, registered b o, []⟩
  | invalidType :
      indexHas o.orderId b.activeOrders = false → o.type ≠ "limit" → o.type ≠ "market" →
      AddSpec b o ⟨.invalidType, registered b o, []⟩

/-! ## Properties of call sequences -/

/-- The books that a sequence of calls produces from the empty book. -/
def Reachable (b : OrderBook) : Prop :=
  ∃ ops fs, runOps emptyBook ops = .ok (b, fs)

/-- The condition `ok` holds of every order that the calls `ops` submit. -/
def SubmitsOnly (ok : Order → Prop) (ops : List Op) : Prop :=
  ∀ o, Op.add o ∈ ops → ok o

/-- The books produced from the empty book by calls that submit positive
quantities only. -/
def PosReachable (b : OrderBook) : Prop :=
  ∃ ops fs, SubmitsOnly PosQty ops ∧ runOps emptyBook ops = .ok (b, fs)

/-- The timestamps of the orders that a sequence of calls submits, in order. -/
def submitTimes : List Op → List Int
  | [] => []
  | .add o :: ops => o.timestamp :: submitTimes ops
  | _ :: ops => submitTimes ops

/-- The orders are submitted in the order of their construction: their
timestamps never decrease along the sequence of calls. -/
def TimeOrdered (ops : List Op) : Prop := (submitTimes ops).Pairwise (fun s t => s ≤ t)

/-- Every price-level queue of the book holds its orders in non-decreasing order
of their timestamps, front first. -/
def QueuesByAge (b : OrderBook) : Prop :=
  ∀ l, l ∈ b.buyOrders ∨ l ∈ b.sellOrders →
    l.2.Pairwise (fun a c => a.timestamp ≤ c.timestamp)

/-- The quantity that a call on the book `b` brings in under the id `x`: the
quantity of an order submitted with that id, unless the id is in the index and
the order is rejected as a duplicate. -/
def acceptedBy (x : String) (b : OrderBook) : Op → Int
  | .add o => if o.orderId = x ∧ indexHas x b.activeOrders = false then o.quantity else 0
  | _ => 0

/-- The total quantity of the orders accepted under the id `x` along a sequence
of calls that starts on the book `b`. -/
def accepted (x : String) : OrderBook → List Op → Int
  | _, [] => 0
  | b, op :: ops =>
    acceptedBy x b op +
      match applyOp b op with
      | .ok (b1, _) => accepted x b1 ops
      | .error _ => 0

/-! ## Priority and provenance of resting orders -/

/-- In the level at price `p` of the side `m`, an order with id `idA` stands
ahead of the order `ob`. -/
def AheadIn (m : PriceMap) (p : Int) (idA : String) (ob : Order) : Prop :=
  ∃ pre a mid post, mapGet p m = pre ++ a :: (mid ++ ob :: post) ∧ a.orderId = idA

/-- Priority of the order with id `idA` over `ob` is kept: it still stands ahead
of `ob` in the level of `ob`, or it has left the book. -/
def PriorityKept (b : OrderBook) (idA : String) (ob : Order) : Prop :=
  AheadIn b.buyOrders ob.price idA ob ∨ AheadIn b.sellOrders ob.price idA ob ∨ ¬ Rests b idA

/-- Every order resting on `m1` stems from an order of `m` with the same id and
price (its quantity may have changed). -/
def StemsFrom (m m1 : PriceMap) : Prop :=
  ∀ r ∈ sideOrders m1, ∃ r0 ∈ sideOrders m, r0.orderId = r.orderId ∧ r0.price = r.price

/-! ## Quantities -/

/-- The quantity that the fill `f` takes from orders with id `x` (a fill counts
once for each of its two sides that carries the id). -/
def fillWeight (x : String) (f : Fill) : Int :=
  (if f.buyId = x then f.quantity else 0) + (if f.sellId = x then f.quantity else 0)

/-- The total quantity filled for the id `x` by the fills `fs`. -/
def filledFor (x : String) (fs : List Fill) : Int := (fs.map (fillWeight x)).sum

/-- The total remaining quantity of the orders of `l` with id `x`. -/
def remOf (x : String) (l : List Order) : Int :=
  ((l.filter (fun r => decide (r.orderId = x))).map (fun r => r.quantity)).sum

/-- The total remaining quantity of a list of orders. -/
def liquidity (l : List Order) : Int := (l.map (fun r => r.quantity)).sum

/-- The total quantity of a list of fills. -/
def totalFilled (fs : List Fill) : Int := (fs.map (fun f => f.quantity)).sum

/-! ## Sample orders and books -/

/-- A resting ask `A`: 10 units at 100. -/
def askA : Order := ⟨"A", "limit", "sell", 100, 10, 0⟩

/-- A later ask `B` at the same price: 5 units at 100. -/
def askB : Order := ⟨"B", "limit", "sell", 100, 5, 0⟩

/-- A second order with the id of `askB`: 7 units at 100. -/
def askBagain : Order := ⟨"B", "limit", "sell", 100, 7, 0⟩

/-- A bid for 12 units at 100. -/
def bidTwelve : Order := ⟨"D", "limit", "buy", 100, 12, 0⟩

/-- A bid that crosses the asks at 100 for 4 units. -/
def bidC : Order := ⟨"C", "limit", "buy", 100, 4, 0⟩

/-- The book in which only `askA` rests. -/
def bookA : OrderBook := ⟨[], [(100, [askA])], [("A", askA)]⟩

/-- The book in which `askA` and then `askB` rest. -/
def bookAB : OrderBook := ⟨[], [(100, [askA, askB])], [("B", askB), ("A", askA)]⟩

/-- A resting bid: 5 units at 100. -/
def restingBid : Order := ⟨"BID", "limit", "buy", 100, 5, 0⟩

/-- An incoming limit sell below the resting bid: 5 units at 99. -/
def askLow : Order := ⟨"ASK", "limit", "sell", 99, 5, 0⟩

/-- The book in which only `restingBid` rests. -/
def bookBid : OrderBook := ⟨[(100, [restingBid])], [], [("BID", restingBid)]⟩

/-- A limit order whose side is neither "buy" nor "sell". -/
def orderHold : Order := ⟨"X", "limit", "hold", 100, 5, 0⟩

/-- A valid limit order with the id of `orderHold`. -/
def orderRetry : Order := ⟨"X", "limit", "buy", 100, 5, 0⟩

/-- A resting ask of 3 units at 100. -/
def askThree : Order := ⟨"A", "limit", "sell", 100, 3, 0⟩

/-- A limit sell submitted with the quantity -5, which `addOrder` accepts. -/
def askNegative : Order := ⟨"N", "limit", "sell", 100, -5, 0⟩

/-- The book in which `askThree` and `askNegative` rest. -/
def bookNegative : OrderBook :=
  ⟨[], [(100, [askThree, askNegative])], [("N", askNegative), ("A", askThree)]⟩

/-- A market buy of 2 units. -/
def marketTwo : Order := ⟨"M", "market", "buy", 0, 2, 0⟩

/-- A market buy of 5 units that reuses the id of the resting `askA`. -/
def marketDup : Order := ⟨"A", "market", "buy", 0, 5, 0⟩

/-- A market buy of 100 units. -/
def marketBig : Order := ⟨"M", "market", "buy", 0, 100, 0⟩

/-- An ask constructed at time 100 s. -/
def askYoung : Order := ⟨"Y", "limit", "sell", 100, 5, 100000000000⟩

/-- An ask constructed at time 0 and submitted after `askYoung`. -/
def askOld : Order := ⟨"O", "limit", "sell", 100, 5, 0⟩

/-- The book in which `askYoung` rests in front of the older `askOld`. -/
def bookYoungOld : OrderBook :=
  ⟨[], [(100, [askYoung, askOld])], [("O", askOld), ("Y", askYoung)]⟩

/-- The book in which `askOld` rests in front of the younger `askYoung`. -/
def bookOldYoung : OrderBook :=
  ⟨[], [(100, [askOld, askYoung])], [("Y", askYoung), ("O", askOld)]⟩

/-- The book in which only `askOld` rests. -/
def bookOld : OrderBook := ⟨[], [(100, [askOld])], [("O", askOld)]⟩

/-- A limit buy submitted with the quantity 0. -/
def bidZero : Order := ⟨"Z", "limit", "buy", 99, 0, 0⟩

/-- A market buy submitted with the quantity -5. -/
def marketNegative : Order := ⟨"M", "market", "buy", 0, -5, 0⟩

/-- The book after `marketTwo` has taken 2 units from `askA`: the ask keeps 8
units, and the id of the market order is in the index. -/
def bookAfterMarket : OrderBook :=
  ⟨[], [(100, [{ askA with quantity := 8 }])], [("M", marketTwo), ("A", askA)]⟩

/-- The book `bookAfterMarket` without the index entry of the market order. -/
def bookAfterCancel : OrderBook :=
  ⟨[], [(100, [{ askA with quantity := 8 }])], [("A", askA)]⟩

/-! ## The mutex -/

/-- How a call ends when the mutex `mtx` is taken into account: it returns (or
throws) with a result, it waits for `mtx` while its own thread holds it, or the run
of the model stops with a `Fault`. -/
inductive Outcome (α : Type) where
  | returns (a : α)
  | selfDeadlock
  | fault (e : Fault)

/-- The member function `matchOrders` with its `std::lock_guard<std::mutex> lock(mtx)`.
`held` tells whether the calling thread already holds `mtx`; `std::mutex` is not
recursive, so locking it again does not return. -/
def matchOrdersLocked (held : Bool) (b : OrderBook) : Outcome (OrderBook × List Fill) :=
  if held then .selfDeadlock
  else
    match matchOrders b with
    | .ok r => .returns r
    | .error e => .fault e

/-- The tail of `addOrder`, the call `matchOrders()`, with the state of `mtx`. -/
def finishAddLocked (held : Bool) (b : OrderBook) (pre : List Fill) : Outcome AddResult :=
  match matchOrdersLocked held b with
  | .returns (b1, fs) => .returns ⟨.done, b1, pre ++ fs⟩
  | .selfDeadlock => .selfDeadlock
  | .fault e => .fault e

/-- A market sweep followed by the tail of `addOrder`, with the state of `mtx`. -/
def sweepAddLocked (held : Bool) (step : OrderBook × Int → Step (OrderBook × Int))
    (b : OrderBook) (order : Order) (opposite : PriceMap) : Outcome AddResult :=
  match iterate step ((sideOrders opposite).length + 2) (b, order.quantity) with
  | .ok (s, pre) => finishAddLocked held s.1 pre
  | .error e => .fault e

/-- The member function `addOrder` with its `std::lock_guard<std::mutex> lock(mtx)`: the
guard is constructed on entry and lives until the function is left, so the call of
`matchOrders()` in the last line is made while the thread holds `mtx`. -/
def addOrderLocked (held : Bool) (b : OrderBook) (order : Order) : Outcome AddResult :=
  if held then .selfDeadlock
  else if indexHas order.orderId b.activeOrders then .returns ⟨.duplicate, b, []⟩
  else
    let b0 : OrderBook :=
      { b with activeOrders := indexSet order.orderId order b.activeOrders }
    if order.type = "limit" then
      if order.side = "buy" then
        finishAddLocked true { b0 with buyOrders := pushOrder true order b0.buyOrders } []
      else if order.side = "sell" then
        finishAddLocked true { b0 with sellOrders := pushOrder false order b0.sellOrders } []
      else .returns ⟨.invalidSide, b0, []⟩
    else if order.type = "market" then
      if order.side = "buy" then
        sweepAddLocked true (marketBuyStep order.orderId) b0 order b0.sellOrders
      else if order.side = "sell" then
        sweepAddLocked true (marketSellStep order.orderId) b0 order b0.buyOrders
      else .returns ⟨.invalidSide, b0, []⟩
    else .returns ⟨.invalidType, b0, []⟩

/-- The member function `cancelOrder` with its `lock_guard`. -/
def cancelOrderLocked (held : Bool) (b : OrderBook) (orderId : String) :
    Outcome (Bool × OrderBook) :=
  if held then .selfDeadlock else .returns (cancelOrder b orderId)

/-- The member function `removeExpiredOrders` with its `lock_guard`. -/
def removeExpiredOrdersLocked (held : Bool) (b : OrderBook) (now : Int) : Outcome OrderBook :=
  if held then .selfDeadlock else .returns (removeExpiredOrders b now)

/-- The ask `S1` of the end-to-end scenario: 10 units at 100. -/
def askS1 : Order := ⟨"S1", "limit", "sell", 100, 10, 0⟩

/-- The ask `S2` of the end-to-end scenario: 5 units at 101. -/
def askS2 : Order := ⟨"S2", "limit", "sell", 101, 5, 0⟩

/-- The bid `B1` of the end-to-end scenario: 8 units at 100. -/
def bidB1 : Order := ⟨"B1", "limit", "buy", 100, 8, 0⟩

/-- The book in which `askS1` and `askS2` rest. -/
def bookS1S2 : OrderBook :=
  ⟨[], [(100, [askS1]), (101, [askS2])], [("S2", askS2), ("S1", askS1)]⟩

/-- The id `x` still rests in the book, or it is gone from the index. -/
def RestsOrGone (b : OrderBook) (x : String) : Prop :=
  Rests b x ∨ indexHas x b.activeOrders = false

/-- The orders `consumed`, taken in this order from the front of the list `before`
of a side's resting orders, leave the list `after`: every consumed order but
possibly the last has been removed, and the last one is removed or stays at the
front with a changed quantity. -/
def ConsumedFrom (before consumed after : List Order) : Prop :=
  ∃ rest, before = consumed ++ rest ∧
    (after = rest ∨
      ∃ init last nq, consumed = init ++ [last] ∧ after = { last with quantity := nq } :: rest)

/-- The price order of a side: `a` is not behind `d` when they are at the same
price or the price of `a` comes first in the iteration order of the side. -/
def PriceOrdered (desc : Bool) (l : List Order) : Prop :=
  l.Pairwise (fun a d => a.price = d.price ∨ keyBefore desc a.price d.price = true)

/-- A market buy of 12 units. -/
def marketTwelve : Order := ⟨"M", "market", "buy", 0, 12, 0⟩

/-- No price level of the book holds an empty queue: the states in which every
call of `front()` in the loops is defined. -/
def QueuesNonEmpty (b : OrderBook) : Prop := NoEmpty b.buyOrders ∧ NoEmpty b.sellOrders

/-! ## Arithmetic and loops -/

theorem wrap32_zero : wrap32 0 = 0 := by decide

theorem wrap32_of_int32 {x : Int} (h : IsInt32 x) : wrap32 x = x := by
  unfold IsInt32 at h; unfold wrap32; omega

theorem wrap32_isInt32 (x : Int) : IsInt32 (wrap32 x) := by
  unfold IsInt32 wrap32; omega

theorem wrap32_sub_min_left {a b : Int} (h : a ≤ b) : wrap32 (a - min a b) = 0 := by
  rw [min_eq_left h, sub_self]; rfl

theorem wrap32_sub_min_right {a b : Int} (h : b ≤ a) : wrap32 (b - min a b) = 0 := by
  rw [min_eq_right h, sub_self]; rfl

theorem expired_iff (now : Int) (o : Order) :
    expired now o = true ↔ 61 * ticksPerSecond ≤ now - o.timestamp := by
  unfold expired ageSeconds ticksPerSecond
  simp only [decide_eq_true_eq, gt_iff_lt]
  constructor
  · intro h
    by_contra hc
    have : (now - o.timestamp).tdiv 1000000000 ≤ 60 := by
      rcases lt_or_le (now - o.timestamp) 0 with hn | hn
      · have h1 := Int.tdiv_nonneg (a := -(now - o.timestamp)) (b := 1000000000) (by omega) (by omega)
        rw [Int.neg_tdiv] at h1
        omega
      · rw [Int.tdiv_eq_ediv hn (by omega)]; omega
    omega
  · intro h
    rw [Int.tdiv_eq_ediv (by omega) (by omega)]; omega

theorem iterate_run {σ : Type} (step : σ → Step σ) :
    ∀ (n : Nat) (s s2 : σ) (fs : List Fill),
      iterate step n s = .ok (s2, fs) → Run step s s2 fs := by
  intro n
  induction n with
  | zero => intro s s2 fs h; simp [iterate] at h
  | succ n ih =>
    intro s s2 fs h
    unfold iterate at h
    cases hs : step s with
    | exit =>
      rw [hs] at h
      simp only [Except.ok.injEq, Prod.mk.injEq] at h
      obtain ⟨rfl, rfl⟩ := h
      exact Run.exit hs
    | undefined => rw [hs] at h; simp at h
    | next s1 f =>
      rw [hs] at h
      simp only at h
      cases hr : iterate step n s1 with
      | error e => rw [hr] at h; simp at h
      | ok r =>
        obtain ⟨s3, gs⟩ := r
        rw [hr] at h
        simp only [Except.ok.injEq, Prod.mk.injEq] at h
        obtain ⟨rfl, rfl⟩ := h
        exact Run.next hs (ih _ _ _ hr)

/-- A loop whose every evaluation is defined and lowers a measure returns when
given more fuel than the measure. -/
theorem iterate_ok {σ : Type} (step : σ → Step σ) (Inv : σ → Prop) (μ : σ → Nat)
    (hdef : ∀ s, Inv s → step s ≠ .undefined)
    (hnext : ∀ s s1 f, Inv s → step s = .next s1 f → Inv s1 ∧ μ s1 < μ s) :
    ∀ (n : Nat) (s : σ), Inv s → μ s < n → ∃ r, iterate step n s = .ok r := by
  intro n
  induction n with
  | zero => intro s _ h; omega
  | succ n ih =>
    intro s hi hm
    unfold iterate
    cases hs : step s with
    | exit => exact ⟨_, rfl⟩
    | undefined => exact absurd hs (hdef s hi)
    | next s1 f =>
      obtain ⟨hi1, hlt⟩ := hnext s s1 f hi hs
      obtain ⟨r, hr⟩ := ih s1 hi1 (by omega)
      obtain ⟨s2, fs⟩ := r
      simp only [hr]
      exact ⟨_, rfl⟩

theorem Run.inv {σ : Type} {step : σ → Step σ} (Inv : σ → Prop)
    (hnext : ∀ s s1 f, Inv s → step s = .next s1 f → Inv s1)
    {s s2 : σ} {fs : List Fill} (h : Run step s s2 fs) (hi : Inv s) :
    Inv s2 ∧ step s2 = .exit := by
  induction h with
  | exit hs => exact ⟨hi, hs⟩
  | next hs _ ih => exact ih (hnext _ _ _ hi hs)

/-! ## The comparator -/

theorem keyBefore_irrefl (desc : Bool) (a : Int) : keyBefore desc a a = false := by
  cases desc <;> simp [keyBefore]

theorem keyBefore_trans {desc : Bool} {a b c : Int}
    (h1 : keyBefore desc a b = true) (h2 : keyBefore desc b c = true) :
    keyBefore desc a c = true := by
  cases desc <;> simp [keyBefore] at * <;> omega

theorem keyBefore_asymm {desc : Bool} {a b : Int}
    (h1 : keyBefore desc a b = true) : keyBefore desc b a = false := by
  cases desc <;> simp [keyBefore] at * <;> omega

theorem keyBefore_total {desc : Bool} {a b : Int} (hne : a ≠ b)
    (h : keyBefore desc a b = false) : keyBefore desc b a = true := by
  cases desc <;> simp [keyBefore] at * <;> omega

theorem keyBefore_ne {desc : Bool} {a b : Int}
    (h : keyBefore desc a b = true) : a ≠ b := by
  intro hab; subst hab; rw [keyBefore_irrefl] at h; exact Bool.noConfusion h

/-! ## Sides as sorted association lists -/

theorem mem_keys {k : Int} {m : PriceMap} : k ∈ keys m ↔ ∃ q, (k, q) ∈ m := by
  simp [keys]

theorem mem_keys_of_mem {l : Int × List Order} {m : PriceMap} (h : l ∈ m) :
    l.1 ∈ keys m := List.mem_map_of_mem _ h

theorem sortedKeys_nil (desc : Bool) : SortedKeys desc [] := List.Pairwise.nil

theorem sortedKeys_cons {desc : Bool} {k : Int} {q : List Order} {m : PriceMap} :
    SortedKeys desc ((k, q) :: m) ↔
      (∀ k1 ∈ keys m, keyBefore desc k k1 = true) ∧ SortedKeys desc m := by
  simp [SortedKeys, keys, List.pairwise_cons]

theorem SortedKeys.tail {desc : Bool} {l : Int × List Order} {m : PriceMap}
    (h : SortedKeys desc (l :: m)) : SortedKeys desc m := by
  obtain ⟨k, q⟩ := l
  exact (sortedKeys_cons.1 h).2

theorem SortedKeys.of_keys_sublist {desc : Bool} {m1 m : PriceMap}
    (hs : (keys m1).Sublist (keys m)) (h : SortedKeys desc m) : SortedKeys desc m1 :=
  List.Pairwise.sublist hs h

theorem mapGet_of_not_mem {p : Int} {m : PriceMap} (h : p ∉ keys m) : mapGet p m = [] := by
  induction m with
  | nil => rfl
  | cons l m ih =>
    obtain ⟨k, q⟩ := l
    simp only [keys, List.map_cons, List.mem_cons, not_or] at h
    simp only [mapGet]
    rw [if_neg (fun hk => h.1 hk.symm)]
    exact ih h.2

theorem mapGet_of_mem {desc : Bool} {p : Int} {q : List Order} {m : PriceMap}
    (hs : SortedKeys desc m) (h : (p, q) ∈ m) : mapGet p m = q := by
  induction m with
  | nil => cases h
  | cons l m ih =>
    obtain ⟨k, q0⟩ := l
    obtain ⟨hk, hs1⟩ := sortedKeys_cons.1 hs
    simp only [mapGet]
    rcases List.mem_cons.1 h with heq | hm
    · cases heq; simp
    · have hne : k ≠ p := keyBefore_ne (hk p (mem_keys.2 ⟨q, hm⟩))
      rw [if_neg hne]
      exact ih hs1 hm

theorem mapGet_mem {p : Int} {m : PriceMap} (h : mapGet p m ≠ []) : (p, mapGet p m) ∈ m := by
  induction m with
  | nil => exact absurd rfl h
  | cons l m ih =>
    obtain ⟨k, q0⟩ := l
    simp only [mapGet] at h ⊢
    by_cases hk : k = p
    · subst hk; simp
    · rw [if_neg hk] at h ⊢
      exact List.mem_cons_of_mem _ (ih h)

theorem mem_sideOrders {o : Order} {m : PriceMap} :
    o ∈ sideOrders m ↔ ∃ l ∈ m, o ∈ l.2 := by
  induction m with
  | nil => simp [sideOrders]
  | cons l m ih =>
    obtain ⟨k, q⟩ := l
    simp [sideOrders, ih]

theorem mem_mapSet {desc : Bool} {p : Int} {q : List Order} {m : PriceMap}
    (hs : SortedKeys desc m) (l : Int × List Order) :
    l ∈ mapSet desc p q m ↔ l = (p, q) ∨ (l ∈ m ∧ l.1 ≠ p) := by
  induction m with
  | nil => simp [mapSet]
  | cons l0 m ih =>
    obtain ⟨k, q0⟩ := l0
    obtain ⟨hk, hs1⟩ := sortedKeys_cons.1 hs
    simp only [mapSet]
    by_cases h1 : k = p
    · subst h1
      simp only [if_true, List.mem_cons]
      constructor
      · rintro (h | h)
        · exact Or.inl h
        · exact Or.inr ⟨Or.inr h, fun he => keyBefore_ne (hk _ (mem_keys_of_mem h)) he.symm⟩
      · rintro (h | ⟨h | h, hne⟩)
        · exact Or.inl h
        · exact absurd (by rw [h]) hne
        · exact Or.inr h
    · rw [if_neg h1]
      by_cases h2 : keyBefore desc p k = true
      · rw [if_pos h2]
        simp only [List.mem_cons]
        constructor
        · rintro (h | h | h)
          · exact Or.inl h
          · exact Or.inr ⟨Or.inl h, by rw [h]; exact h1⟩
          · refine Or.inr ⟨Or.inr h, fun he => ?_⟩
            have h3 := hk _ (mem_keys_of_mem h)
            rw [he] at h3
            rw [keyBefore_asymm h3] at h2
            exact Bool.noConfusion h2
        · rintro (h | ⟨h | h, _⟩)
          · exact Or.inl h
          · exact Or.inr (Or.inl h)
          · exact Or.inr (Or.inr h)
      · rw [if_neg h2]
        simp only [List.mem_cons, ih hs1]
        constructor
        · rintro (h | h | ⟨h, hne⟩)
          · exact Or.inr ⟨Or.inl h, by rw [h]; exact h1⟩
          · exact Or.inl h
          · exact Or.inr ⟨Or.inr h, hne⟩
        · rintro (h | ⟨h | h, hne⟩)
          · exact Or.inr (Or.inl h)
          · exact Or.inl h
          · exact Or.inr (Or.inr ⟨h, hne⟩)

theorem sorted_mapSet {desc : Bool} (p : Int) (q : List Order) {m : PriceMap}
    (hs : SortedKeys desc m) : SortedKeys desc (mapSet desc p q m) := by
  induction m with
  | nil => simp [mapSet, SortedKeys, keys]
  | cons l0 m ih =>
    obtain ⟨k, q0⟩ := l0
    obtain ⟨hk, hs1⟩ := sortedKeys_cons.1 hs
    simp only [mapSet]
    by_cases h1 : k = p
    · rw [if_pos h1]; exact sortedKeys_cons.2 ⟨hk, hs1⟩
    · rw [if_neg h1]
      by_cases h2 : keyBefore desc p k = true
      · rw [if_pos h2]
        refine sortedKeys_cons.2 ⟨?_, hs⟩
        intro k1 hk1
        simp only [keys, List.map_cons, List.mem_cons] at hk1
        rcases hk1 with rfl | hk1
        · exact h2
        · exact keyBefore_trans h2 (hk k1 hk1)
      · rw [if_neg h2]
        refine sortedKeys_cons.2 ⟨?_, ih hs1⟩
        intro k1 hk1
        obtain ⟨q1, hq1⟩ := mem_keys.1 hk1
        rcases (mem_mapSet hs1 _).1 hq1 with h | ⟨h, _⟩
        · cases h
          exact keyBefore_total (Ne.symm h1) (by simpa using h2)
        · exact hk k1 (mem_keys.2 ⟨q1, h⟩)

theorem keys_mapErase_sublist (p : Int) (m : PriceMap) :
    (keys (mapErase p m)).Sublist (keys m) :=
  List.Sublist.map _ (List.filter_sublist m)

theorem mapErase_mapSet (desc : Bool) (p : Int) (q : List Order) (m : PriceMap) :
    mapErase p (mapSet desc p q m) = mapErase p m := by
  induction m with
  | nil => simp [mapSet, mapErase]
  | cons l0 m ih =>
    obtain ⟨k, q0⟩ := l0
    simp only [mapSet]
    by_cases h1 : k = p
    · subst h1; simp [mapErase]
    · rw [if_neg h1]
      by_cases h2 : keyBefore desc p k = true
      · rw [if_pos h2]; simp [mapErase]
      · rw [if_neg h2]
        simp only [mapErase] at ih
        simp only [mapErase, List.filter_cons, ih]

theorem keys_mapSet_of_mem {desc : Bool} {p : Int} (q : List Order) {m : PriceMap}
    (hs : SortedKeys desc m) (hp : p ∈ keys m) : keys (mapSet desc p q m) = keys m := by
  induction m with
  | nil => simp [keys] at hp
  | cons l0 m ih =>
    obtain ⟨k, q0⟩ := l0
    obtain ⟨hk, hs1⟩ := sortedKeys_cons.1 hs
    simp only [mapSet]
    by_cases h1 : k = p
    · rw [if_pos h1]; simp [keys]
    · rw [if_neg h1]
      have hp1 : p ∈ keys m := by
        simp only [keys, List.map_cons, List.mem_cons] at hp
        rcases hp with h | h
        · exact absurd h.symm h1
        · exact h
      rw [if_neg (by rw [keyBefore_asymm (hk p hp1)]; exact Bool.noConfusion)]
      simp only [keys, List.map_cons] at ih ⊢
      rw [ih hs1 hp1]

/-! ## `settleFront` -/

theorem sideOrders_settleFront (nq : Int) {m : PriceMap} (hne : NoEmpty m) :
    sideOrders (settleFront nq m) = settleList nq (sideOrders m) := by
  match m, hne with
  | [], _ => rfl
  | (k, []) :: rest, hne => exact absurd rfl (hne (k, []) (List.mem_cons_self _ _))
  | (k, o :: q) :: rest, _ =>
    simp only [settleFront, sideOrders, settleList, List.cons_append]
    by_cases h : nq = 0
    · simp only [if_pos h]
      by_cases hq : q = []
      · subst hq; simp
      · simp [if_neg hq, sideOrders]
    · simp [if_neg h, sideOrders]

theorem keys_settleFront_sublist (nq : Int) (m : PriceMap) :
    (keys (settleFront nq m)).Sublist (keys m) := by
  match m with
  | [] => exact List.Sublist.refl _
  | (k, []) :: rest => exact List.Sublist.refl _
  | (k, o :: q) :: rest =>
    simp only [settleFront]
    by_cases h : nq = 0
    · simp only [if_pos h]
      by_cases hq : q = []
      · simp only [if_pos hq, keys, List.map_cons]
        exact List.sublist_cons_self _ _
      · simp only [if_neg hq, keys, List.map_cons]
        exact List.Sublist.refl _
    · simp only [if_neg h, keys, List.map_cons]
      exact List.Sublist.refl _

theorem mem_settleFront {nq : Int} {m : PriceMap} {l : Int × List Order}
    (h : l ∈ settleFront nq m) :
    l ∈ m ∨ ∃ o q, (l.1, o :: q) ∈ m ∧
      ((l.2 = q ∧ q ≠ []) ∨ l.2 = { o with quantity := nq } :: q) := by
  match m with
  | [] => exact Or.inl h
  | (k, []) :: rest => exact Or.inl h
  | (k, o :: q) :: rest =>
    simp only [settleFront] at h
    by_cases h0 : nq = 0
    · simp only [if_pos h0] at h
      by_cases hq : q = []
      · simp only [if_pos hq] at h
        exact Or.inl (List.mem_cons_of_mem _ h)
      · simp only [if_neg hq] at h
        rcases List.mem_cons.1 h with h | h
        · subst h
          exact Or.inr ⟨o, q, List.mem_cons_self _ _, Or.inl ⟨rfl, hq⟩⟩
        · exact Or.inl (List.mem_cons_of_mem _ h)
    · simp only [if_neg h0] at h
      rcases List.mem_cons.1 h with h | h
      · subst h
        exact Or.inr ⟨o, q, List.mem_cons_self _ _, Or.inr rfl⟩
      · exact Or.inl (List.mem_cons_of_mem _ h)

theorem noEmpty_settleFront (nq : Int) {m : PriceMap} (hne : NoEmpty m) :
    NoEmpty (settleFront nq m) := by
  intro l hl
  rcases mem_settleFront hl with h | ⟨o, q, _, h | h⟩
  · exact hne l h
  · rw [h.1]; exact h.2
  · rw [h]; exact List.cons_ne_nil _ _

theorem levelOK_settleFront (nq : Int) {side : String} {m : PriceMap} (hl : LevelOK side m) :
    LevelOK side (settleFront nq m) := by
  intro l hlm r hr
  rcases mem_settleFront hlm with h | ⟨o, q, hm, h | h⟩
  · exact hl l h r hr
  · rw [h.1] at hr
    exact hl _ hm r (List.mem_cons_of_mem _ hr)
  · rw [h] at hr
    rcases List.mem_cons.1 hr with rfl | hr
    · exact hl _ hm o (List.mem_cons_self _ _)
    · exact hl _ hm r (List.mem_cons_of_mem _ hr)

theorem sorted_settleFront (nq : Int) {desc : Bool} {m : PriceMap} (hs : SortedKeys desc m) :
    SortedKeys desc (settleFront nq m) :=
  hs.of_keys_sublist (keys_settleFront_sublist nq m)

theorem ids_settleList (nq : Int) (l : List Order) :
    (settleList nq l).map (fun o => o.orderId) =
      if nq = 0 then (l.map (fun o => o.orderId)).tail else l.map (fun o => o.orderId) := by
  cases l with
  | nil => simp [settleList]
  | cons o t =>
    by_cases h : nq = 0
    · simp [settleList, h]
    · simp [settleList, h]

theorem ids_settleList_sublist (nq : Int) (l : List Order) :
    ((settleList nq l).map (fun o => o.orderId)).Sublist (l.map (fun o => o.orderId)) := by
  rw [ids_settleList]
  by_cases h : nq = 0
  · rw [if_pos h]; exact List.tail_sublist _
  · rw [if_neg h]

theorem mem_settleList {nq : Int} {l : List Order} {r : Order} (h : r ∈ settleList nq l) :
    ∃ r0 ∈ l, r = r0 ∨ r = { r0 with quantity := nq } := by
  cases l with
  | nil => cases h
  | cons o t =>
    simp only [settleList] at h
    by_cases h0 : nq = 0
    · rw [if_pos h0] at h
      exact ⟨r, List.mem_cons_of_mem _ h, Or.inl rfl⟩
    · rw [if_neg h0] at h
      rcases List.mem_cons.1 h with h | h
      · exact ⟨o, List.mem_cons_self _ _, Or.inr h⟩
      · exact ⟨r, List.mem_cons_of_mem _ h, Or.inl rfl⟩

/-! ## Decomposition of a side at a key -/

theorem mapErase_of_not_mem {p : Int} {m : PriceMap} (h : p ∉ keys m) : mapErase p m = m := by
  unfold mapErase
  rw [List.filter_eq_self]
  intro l hl
  simp only [ne_eq, decide_not, Bool.not_eq_true', decide_eq_false_iff_not]
  intro he
  exact h (he ▸ mem_keys_of_mem hl)

theorem sideOrders_perm_split {desc : Bool} (p : Int) {m : PriceMap} (hs : SortedKeys desc m) :
    (sideOrders m).Perm (mapGet p m ++ sideOrders (mapErase p m)) := by
  induction m with
  | nil => simp [sideOrders, mapGet, mapErase]
  | cons l0 m ih =>
    obtain ⟨k, q0⟩ := l0
    obtain ⟨hk, hs1⟩ := sortedKeys_cons.1 hs
    by_cases h1 : k = p
    · subst h1
      have hnot : k ∉ keys m := fun hm => keyBefore_ne (hk k hm) rfl
      have he : mapErase k ((k, q0) :: m) = m := by
        have : mapErase k ((k, q0) :: m) = mapErase k m := by simp [mapErase]
        rw [this, mapErase_of_not_mem hnot]
      rw [he]
      simp [mapGet, sideOrders]
    · have he : mapErase p ((k, q0) :: m) = (k, q0) :: mapErase p m := by
        simp [mapErase, h1]
      rw [he]
      simp only [mapGet, if_neg h1, sideOrders]
      have := ih hs1
      calc q0 ++ sideOrders m
          _ |>.Perm (q0 ++ (mapGet p m ++ sideOrders (mapErase p m))) :=
            List.Perm.append_left q0 this
          _ |>.Perm (mapGet p m ++ (q0 ++ sideOrders (mapErase p m))) := by
            rw [← List.append_assoc, ← List.append_assoc]
            exact List.Perm.append_right _ List.perm_append_comm

theorem sideOrders_mapSet_perm {desc : Bool} (p : Int) (q : List Order) {m : PriceMap}
    (hs : SortedKeys desc m) :
    (sideOrders (mapSet desc p q m)).Perm (q ++ sideOrders (mapErase p m)) := by
  have h1 := sideOrders_perm_split p (sorted_mapSet p q hs)
  rw [mapErase_mapSet] at h1
  have h2 : mapGet p (mapSet desc p q m) = q :=
    mapGet_of_mem (sorted_mapSet p q hs) ((mem_mapSet hs _).2 (Or.inl rfl))
  rw [h2] at h1
  exact h1

/-! ## `pushOrder` -/

theorem sorted_pushOrder {desc : Bool} (o : Order) {m : PriceMap} (hs : SortedKeys desc m) :
    SortedKeys desc (pushOrder desc o m) := sorted_mapSet _ _ hs

theorem mem_pushOrder {desc : Bool} {o : Order} {m : PriceMap} (hs : SortedKeys desc m)
    (l : Int × List Order) :
    l ∈ pushOrder desc o m ↔
      l = (o.price, mapGet o.price m ++ [o]) ∨ (l ∈ m ∧ l.1 ≠ o.price) :=
  mem_mapSet hs l

theorem noEmpty_pushOrder {desc : Bool} (o : Order) {m : PriceMap} (hs : SortedKeys desc m)
    (hne : NoEmpty m) : NoEmpty (pushOrder desc o m) := by
  intro l hl
  rcases (mem_pushOrder hs l).1 hl with h | ⟨h, _⟩
  · rw [h]; simp
  · exact hne l h

theorem levelOK_pushOrder {desc : Bool} {side : String} {o : Order} {m : PriceMap}
    (hs : SortedKeys desc m) (hl : LevelOK side m) (ho : o.side = side) :
    LevelOK side (pushOrder desc o m) := by
  intro l hlm r hr
  rcases (mem_pushOrder hs l).1 hlm with h | ⟨h, _⟩
  · rw [h] at hr ⊢
    rcases List.mem_append.1 hr with hr | hr
    · have hne : mapGet o.price m ≠ [] := List.ne_nil_of_mem hr
      exact hl _ (mapGet_mem hne) r hr
    · rw [List.mem_singleton.1 hr]; exact ⟨ho, rfl⟩
  · exact hl l h r hr

theorem sideOrders_pushOrder_perm {desc : Bool} (o : Order) {m : PriceMap}
    (hs : SortedKeys desc m) :
    (sideOrders (pushOrder desc o m)).Perm (o :: sideOrders m) := by
  have h1 := sideOrders_mapSet_perm o.price (mapGet o.price m ++ [o]) hs
  have h2 := sideOrders_perm_split o.price hs
  refine h1.trans ?_
  refine List.Perm.trans ?_ (List.Perm.cons o h2.symm)
  rw [List.append_assoc]
  exact List.perm_middle

theorem mem_keys_pushOrder {desc : Bool} {o : Order} {m : PriceMap} (hs : SortedKeys desc m)
    {k : Int} : k ∈ keys (pushOrder desc o m) ↔ k = o.price ∨ k ∈ keys m := by
  constructor
  · intro h
    obtain ⟨q, hq⟩ := mem_keys.1 h
    rcases (mem_pushOrder hs _).1 hq with h | ⟨h, _⟩
    · exact Or.inl (congrArg Prod.fst h)
    · exact Or.inr (mem_keys.2 ⟨q, h⟩)
  · rintro (h | h)
    · exact mem_keys.2 ⟨_, (mem_pushOrder hs _).2 (Or.inl (by rw [h]))⟩
    · obtain ⟨q, hq⟩ := mem_keys.1 h
      by_cases hk : k = o.price
      · exact mem_keys.2 ⟨_, (mem_pushOrder hs _).2 (Or.inl (by rw [hk]))⟩
      · exact mem_keys.2 ⟨q, (mem_pushOrder hs _).2 (Or.inr ⟨hq, hk⟩)⟩

/-! ## `cancelSide` -/

theorem cancelSide_eq (desc : Bool) (p : Int) (id : String) (m : PriceMap) :
    cancelSide desc p id m =
      if (mapGet p m).filter (fun o => decide (o.orderId ≠ id)) = [] then mapErase p m
      else mapSet desc p ((mapGet p m).filter (fun o => decide (o.orderId ≠ id))) m := by
  unfold cancelSide
  by_cases h : (mapGet p m).filter (fun o => decide (o.orderId ≠ id)) = []
  · simp only [h, if_true]; exact mapErase_mapSet desc p [] m
  · simp only [if_neg h]

theorem mem_key_of_filter_ne {p : Int} {id : String} {m : PriceMap}
    (h : (mapGet p m).filter (fun o => decide (o.orderId ≠ id)) ≠ []) : p ∈ keys m := by
  by_contra hc
  rw [mapGet_of_not_mem hc] at h
  exact h rfl

theorem keys_cancelSide_sublist {desc : Bool} (p : Int) (id : String) {m : PriceMap}
    (hs : SortedKeys desc m) : (keys (cancelSide desc p id m)).Sublist (keys m) := by
  rw [cancelSide_eq]
  by_cases h : (mapGet p m).filter (fun o => decide (o.orderId ≠ id)) = []
  · rw [if_pos h]; exact keys_mapErase_sublist p m
  · rw [if_neg h, keys_mapSet_of_mem _ hs (mem_key_of_filter_ne h)]

theorem sorted_cancelSide {desc : Bool} (p : Int) (id : String) {m : PriceMap}
    (hs : SortedKeys desc m) : SortedKeys desc (cancelSide desc p id m) :=
  hs.of_keys_sublist (keys_cancelSide_sublist p id hs)

theorem mem_cancelSide {desc : Bool} {p : Int} {id : String} {m : PriceMap}
    (hs : SortedKeys desc m) (l : Int × List Order) :
    l ∈ cancelSide desc p id m ↔
      (l ∈ m ∧ l.1 ≠ p) ∨
      (l = (p, (mapGet p m).filter (fun o => decide (o.orderId ≠ id))) ∧ l.2 ≠ []) := by
  rw [cancelSide_eq]
  by_cases h : (mapGet p m).filter (fun o => decide (o.orderId ≠ id)) = []
  · rw [if_pos h]
    simp only [mapErase, List.mem_filter, decide_eq_true_eq]
    constructor
    · intro hl; exact Or.inl hl
    · rintro (hl | ⟨hl, hne⟩)
      · exact hl
      · rw [hl] at hne; exact absurd h hne
  · rw [if_neg h, mem_mapSet hs]
    constructor
    · rintro (hl | hl)
      · exact Or.inr ⟨hl, by rw [hl]; exact h⟩
      · exact Or.inl hl
    · rintro (hl | ⟨hl, _⟩)
      · exact Or.inr hl
      · exact Or.inl hl

theorem noEmpty_cancelSide {desc : Bool} (p : Int) (id : String) {m : PriceMap}
    (hs : SortedKeys desc m) (hne : NoEmpty m) : NoEmpty (cancelSide desc p id m) := by
  intro l hl
  rcases (mem_cancelSide hs l).1 hl with ⟨h, _⟩ | ⟨_, h⟩
  · exact hne l h
  · exact h

theorem levelOK_cancelSide {desc : Bool} {side : String} (p : Int) (id : String) {m : PriceMap}
    (hs : SortedKeys desc m) (hl : LevelOK side m) : LevelOK side (cancelSide desc p id m) := by
  intro l hlm r hr
  rcases (mem_cancelSide hs l).1 hlm with ⟨h, _⟩ | ⟨h, _⟩
  · exact hl l h r hr
  · rw [h] at hr ⊢
    have hr1 : r ∈ mapGet p m := (List.mem_filter.1 hr).1
    exact hl _ (mapGet_mem (List.ne_nil_of_mem hr1)) r hr1

theorem sideOrders_cancelSide_perm {desc : Bool} (p : Int) (id : String) {m : PriceMap}
    (hs : SortedKeys desc m) :
    (sideOrders (cancelSide desc p id m)).Perm
      ((mapGet p m).filter (fun o => decide (o.orderId ≠ id)) ++ sideOrders (mapErase p m)) := by
  rw [cancelSide_eq]
  by_cases h : (mapGet p m).filter (fun o => decide (o.orderId ≠ id)) = []
  · rw [if_pos h, h]; exact List.Perm.refl _
  · rw [if_neg h]; exact sideOrders_mapSet_perm p _ hs

/-! ## The index -/

theorem indexFind_indexErase_self (id : String) (idx : Index) :
    indexFind id (indexErase id idx) = none := by
  induction idx with
  | nil => rfl
  | cons e idx ih =>
    obtain ⟨k, o⟩ := e
    by_cases h : k = id
    · have : indexErase id ((k, o) :: idx) = indexErase id idx := by simp [indexErase, h]
      rw [this]; exact ih
    · have : indexErase id ((k, o) :: idx) = (k, o) :: indexErase id idx := by
        simp [indexErase, h]
      rw [this]; simp only [indexFind, if_neg h]; exact ih

theorem indexFind_indexErase_ne {id id1 : String} (h : id1 ≠ id) (idx : Index) :
    indexFind id1 (indexErase id idx) = indexFind id1 idx := by
  induction idx with
  | nil => rfl
  | cons e idx ih =>
    obtain ⟨k, o⟩ := e
    by_cases hk : k = id
    · have : indexErase id ((k, o) :: idx) = indexErase id idx := by simp [indexErase, hk]
      rw [this, ih]
      simp only [indexFind]
      rw [if_neg (by rw [hk]; exact Ne.symm h)]
    · have : indexErase id ((k, o) :: idx) = (k, o) :: indexErase id idx := by
        simp [indexErase, hk]
      rw [this]; simp only [indexFind, ih]

theorem indexFind_indexSet_self (id : String) (o : Order) (idx : Index) :
    indexFind id (indexSet id o idx) = some o := by
  simp [indexSet, indexFind]

theorem indexFind_indexSet_ne {id id1 : String} (h : id1 ≠ id) (o : Order) (idx : Index) :
    indexFind id1 (indexSet id o idx) = indexFind id1 idx := by
  simp only [indexSet, indexFind]
  rw [if_neg (Ne.symm h)]
  exact indexFind_indexErase_ne h idx

theorem indexFind_settleIndex_ne {id id1 : String} (h : id1 ≠ id) (nq : Int) (idx : Index) :
    indexFind id1 (settleIndex nq id idx) = indexFind id1 idx := by
  unfold settleIndex
  by_cases h0 : nq = 0
  · rw [if_pos h0]; exact indexFind_indexErase_ne h idx
  · rw [if_neg h0]

theorem indexFind_eraseAll {id : String} (os : List Order) (idx : Index) :
    indexFind id (eraseAll os idx) =
      if id ∈ os.map (fun o => o.orderId) then none else indexFind id idx := by
  induction os generalizing idx with
  | nil => simp [eraseAll]
  | cons o os ih =>
    have hstep : eraseAll (o :: os) idx = eraseAll os (indexErase o.orderId idx) := rfl
    rw [hstep, ih]
    by_cases h1 : id ∈ os.map (fun o => o.orderId)
    · simp [h1]
    · by_cases h2 : id = o.orderId
      · subst h2; simp [h1, indexFind_indexErase_self]
      · have h3 : id ∉ (o :: os).map (fun o => o.orderId) := by
          simp only [List.map_cons, List.mem_cons, not_or]; exact ⟨h2, h1⟩
        rw [if_neg h1, if_neg h3, indexFind_indexErase_ne h2]

theorem indexHas_eq_false {id : String} {idx : Index} :
    indexHas id idx = false ↔ indexFind id idx = none := by
  unfold indexHas; cases indexFind id idx <;> simp

theorem indexHas_eq_true {id : String} {idx : Index} :
    indexHas id idx = true ↔ ∃ e, indexFind id idx = some e := by
  unfold indexHas; cases indexFind id idx <;> simp

/-! ## Index coverage -/

theorem mem_ids {id : String} {m : PriceMap} :
    id ∈ ids m ↔ ∃ o ∈ sideOrders m, o.orderId = id := by
  simp [ids]

theorem Covered.indexed {idx : Index} {m : PriceMap} (h : Covered idx m) {id : String}
    (hid : id ∈ ids m) : indexHas id idx = true := by
  obtain ⟨o, ho, rfl⟩ := mem_ids.1 hid
  obtain ⟨e, he, _⟩ := h o ho
  exact indexHas_eq_true.2 ⟨e, he⟩

theorem Covered.of_same {idx idx1 : Index} {m m1 : PriceMap} (h : Covered idx m)
    (hm : ∀ r ∈ sideOrders m1, ∃ r0 ∈ sideOrders m,
      r0.orderId = r.orderId ∧ r0.side = r.side ∧ r0.price = r.price)
    (hi : ∀ r ∈ sideOrders m1, indexFind r.orderId idx1 = indexFind r.orderId idx) :
    Covered idx1 m1 := by
  intro r hr
  obtain ⟨r0, hr0, h1, h2, h3⟩ := hm r hr
  obtain ⟨e, he, hs, hp⟩ := h r0 hr0
  refine ⟨e, ?_, hs.trans h2, hp.trans h3⟩
  rw [hi r hr, ← h1]; exact he

theorem Linked.symm {x y : PriceMap} {idx : Index} (h : Linked x y idx) : Linked y x idx :=
  ⟨(List.perm_append_comm.nodup_iff).1 h.nodup, h.covY, h.covX⟩

theorem Linked.not_mem_of_absent {x y : PriceMap} {idx : Index} (h : Linked x y idx)
    {id : String} (hid : indexHas id idx = false) : id ∉ ids x ++ ids y := by
  intro hm
  rcases List.mem_append.1 hm with hm | hm
  · rw [h.covX.indexed hm] at hid; exact Bool.noConfusion hid
  · rw [h.covY.indexed hm] at hid; exact Bool.noConfusion hid

/-! ## `sweepSide` -/

theorem sideOrders_sweepSide_cons (now : Int) (k : Int) (q : List Order) (m : PriceMap) :
    sideOrders (sweepSide now ((k, q) :: m)) =
      q.dropWhile (expired now) ++ sideOrders (sweepSide now m) := by
  simp only [sweepSide]
  by_cases h : q.dropWhile (expired now) = []
  · rw [if_pos h, h]; rfl
  · rw [if_neg h]; rfl

theorem mem_sweepSide {now : Int} {m : PriceMap} (l : Int × List Order) :
    l ∈ sweepSide now m ↔
      ∃ q, (l.1, q) ∈ m ∧ l.2 = q.dropWhile (expired now) ∧ l.2 ≠ [] := by
  induction m with
  | nil => simp [sweepSide]
  | cons l0 m ih =>
    obtain ⟨k, q0⟩ := l0
    simp only [sweepSide]
    by_cases h : q0.dropWhile (expired now) = []
    · rw [if_pos h, ih]
      constructor
      · rintro ⟨q, hq, h1, h2⟩
        exact ⟨q, List.mem_cons_of_mem _ hq, h1, h2⟩
      · rintro ⟨q, hq, h1, h2⟩
        rcases List.mem_cons.1 hq with he | hq
        · cases he; rw [h] at h1; exact absurd h1 h2
        · exact ⟨q, hq, h1, h2⟩
    · rw [if_neg h, List.mem_cons, ih]
      constructor
      · rintro (he | ⟨q, hq, h1, h2⟩)
        · subst he; exact ⟨q0, List.mem_cons_self _ _, rfl, h⟩
        · exact ⟨q, List.mem_cons_of_mem _ hq, h1, h2⟩
      · rintro ⟨q, hq, h1, h2⟩
        rcases List.mem_cons.1 hq with he | hq
        · cases he; exact Or.inl (Prod.ext rfl h1)
        · exact Or.inr ⟨q, hq, h1, h2⟩

theorem keys_sweepSide_sublist (now : Int) (m : PriceMap) :
    (keys (sweepSide now m)).Sublist (keys m) := by
  induction m with
  | nil => exact List.Sublist.refl _
  | cons l0 m ih =>
    obtain ⟨k, q0⟩ := l0
    simp only [sweepSide]
    by_cases h : q0.dropWhile (expired now) = []
    · rw [if_pos h]; exact List.Sublist.cons _ ih
    · rw [if_neg h]; exact List.Sublist.cons₂ _ ih

theorem sideWF_sweepSide {desc : Bool} {side : String} (now : Int) {m : PriceMap}
    (h : SideWF desc side m) : SideWF desc side (sweepSide now m) := by
  refine ⟨h.sorted.of_keys_sublist (keys_sweepSide_sublist now m), ?_, ?_⟩
  · intro l hl
    obtain ⟨q, _, _, h2⟩ := (mem_sweepSide l).1 hl
    exact h2
  · intro l hl r hr
    obtain ⟨q, hq, h1, _⟩ := (mem_sweepSide l).1 hl
    rw [h1] at hr
    exact h.levelOK _ hq r ((List.dropWhile_sublist _).subset hr)

theorem sideOrders_sweep_perm (now : Int) (m : PriceMap) :
    (sideOrders m).Perm (sweptOrders now m ++ sideOrders (sweepSide now m)) := by
  induction m with
  | nil => simp [sideOrders, sweptOrders, sweepSide]
  | cons l0 m ih =>
    obtain ⟨k, q0⟩ := l0
    rw [sideOrders_sweepSide_cons]
    simp only [sideOrders, sweptOrders]
    have hq : q0 = q0.takeWhile (expired now) ++ q0.dropWhile (expired now) :=
      (List.takeWhile_append_dropWhile _ _).symm
    conv_lhs => rw [hq]
    rw [List.append_assoc, List.append_assoc]
    refine List.Perm.append_left _ ?_
    refine (List.Perm.append_left _ ih).trans ?_
    rw [← List.append_assoc, ← List.append_assoc]
    exact List.Perm.append_right _ List.perm_append_comm

theorem sideOrders_sweepSide_sublist (now : Int) (m : PriceMap) :
    (sideOrders (sweepSide now m)).Sublist (sideOrders m) := by
  induction m with
  | nil => exact List.Sublist.refl _
  | cons l0 m ih =>
    obtain ⟨k, q0⟩ := l0
    rw [sideOrders_sweepSide_cons]
    exact List.Sublist.append (List.dropWhile_sublist _) ih

/-! ## Preservation of `Linked` -/

theorem ids_settleFront_sublist (nq : Int) {m : PriceMap} (hne : NoEmpty m) :
    (ids (settleFront nq m)).Sublist (ids m) := by
  unfold ids
  rw [sideOrders_settleFront nq hne]
  exact ids_settleList_sublist nq _

theorem Linked.settle_linked {x y : PriceMap} {idx : Index} {k : Int} {o : Order} {q : List Order}
    {rest : PriceMap} (nq : Int) (hne : NoEmpty x) (hx : x = (k, o :: q) :: rest)
    (h : Linked x y idx) :
    Linked (settleFront nq x) y (settleIndex nq o.orderId idx) := by
  have hso : sideOrders x = o :: (q ++ sideOrders rest) := by rw [hx]; rfl
  have hnd : (o.orderId :: ((q ++ sideOrders rest).map (fun r => r.orderId) ++ ids y)).Nodup := by
    have := h.nodup
    unfold ids at this
    rw [hso] at this
    simpa [ids] using this
  obtain ⟨hnot, _⟩ := List.nodup_cons.1 hnd
  refine ⟨?_, ?_, ?_⟩
  · exact h.nodup.sublist (List.Sublist.append (ids_settleFront_sublist nq hne)
      (List.Sublist.refl _))
  · refine h.covX.of_same ?_ ?_
    · intro r hr
      rw [sideOrders_settleFront nq hne] at hr
      obtain ⟨r0, hr0, he | he⟩ := mem_settleList hr
      · exact ⟨r0, hr0, by rw [he]; exact ⟨rfl, rfl, rfl⟩⟩
      · exact ⟨r0, hr0, by rw [he]; exact ⟨rfl, rfl, rfl⟩⟩
    · intro r hr
      rw [sideOrders_settleFront nq hne, hso] at hr
      simp only [settleList] at hr
      by_cases h0 : nq = 0
      · rw [if_pos h0] at hr
        refine indexFind_settleIndex_ne ?_ nq idx
        intro he
        exact hnot (List.mem_append_left _ (he ▸ List.mem_map_of_mem _ hr))
      · simp only [settleIndex, if_neg h0]
  · refine h.covY.of_same (fun r hr => ⟨r, hr, rfl, rfl, rfl⟩) ?_
    intro r hr
    refine indexFind_settleIndex_ne ?_ nq idx
    intro he
    exact hnot (List.mem_append_right _ (he ▸ List.mem_map_of_mem _ hr))

theorem Linked.push_linked {desc : Bool} {x y : PriceMap} {idx : Index} {o : Order}
    (hs : SortedKeys desc x) (h : Linked x y idx) (hid : indexHas o.orderId idx = false) :
    Linked (pushOrder desc o x) y (indexSet o.orderId o idx) := by
  have hnot := h.not_mem_of_absent hid
  have hperm : (ids (pushOrder desc o x)).Perm (o.orderId :: ids x) :=
    (sideOrders_pushOrder_perm o hs).map _
  refine ⟨?_, ?_, ?_⟩
  · refine (List.Perm.nodup_iff (List.Perm.append_right _ hperm)).2 ?_
    exact List.nodup_cons.2 ⟨hnot, h.nodup⟩
  · intro r hr
    rcases List.mem_cons.1 ((sideOrders_pushOrder_perm o hs).subset hr) with he | hr
    · subst he; exact ⟨r, indexFind_indexSet_self _ _ _, rfl, rfl⟩
    · have hne : r.orderId ≠ o.orderId := fun he =>
        hnot (List.mem_append_left _ (he ▸ mem_ids.2 ⟨r, hr, rfl⟩))
      rw [indexFind_indexSet_ne hne]
      exact h.covX r hr
  · intro r hr
    have hne : r.orderId ≠ o.orderId := fun he =>
      hnot (List.mem_append_right _ (he ▸ mem_ids.2 ⟨r, hr, rfl⟩))
    rw [indexFind_indexSet_ne hne]
    exact h.covY r hr

theorem Linked.register_linked {x y : PriceMap} {idx : Index} (o : Order) (h : Linked x y idx)
    (hid : indexHas o.orderId idx = false) : Linked x y (indexSet o.orderId o idx) := by
  have hnot := h.not_mem_of_absent hid
  refine ⟨h.nodup, ?_, ?_⟩
  · intro r hr
    have hne : r.orderId ≠ o.orderId := fun he =>
      hnot (List.mem_append_left _ (he ▸ mem_ids.2 ⟨r, hr, rfl⟩))
    rw [indexFind_indexSet_ne hne]
    exact h.covX r hr
  · intro r hr
    have hne : r.orderId ≠ o.orderId := fun he =>
      hnot (List.mem_append_right _ (he ▸ mem_ids.2 ⟨r, hr, rfl⟩))
    rw [indexFind_indexSet_ne hne]
    exact h.covY r hr

theorem Linked.cancel_linked {desc : Bool} {x y : PriceMap} {idx : Index} (p : Int) {id : String}
    (hs : SortedKeys desc x) (h : Linked x y idx)
    (hx : ∀ r ∈ sideOrders (mapErase p x), r.orderId ≠ id)
    (hy : ∀ r ∈ sideOrders y, r.orderId ≠ id) :
    Linked (cancelSide desc p id x) y (indexErase id idx) := by
  have hsub : ∀ r ∈ sideOrders (cancelSide desc p id x),
      r ∈ sideOrders x ∧ r.orderId ≠ id := by
    intro r hr
    rcases List.mem_append.1 ((sideOrders_cancelSide_perm p id hs).subset hr) with h1 | h1
    · obtain ⟨h2, h3⟩ := List.mem_filter.1 h1
      refine ⟨(sideOrders_perm_split p hs).symm.subset (List.mem_append_left _ h2), ?_⟩
      simpa using h3
    · exact ⟨(sideOrders_perm_split p hs).symm.subset (List.mem_append_right _ h1), hx r h1⟩
  refine ⟨?_, ?_, ?_⟩
  · have h1 : (ids (cancelSide desc p id x)).Perm
        (((mapGet p x).filter (fun o => decide (o.orderId ≠ id)) ++
          sideOrders (mapErase p x)).map (fun o => o.orderId)) :=
      (sideOrders_cancelSide_perm p id hs).map _
    have h2 : (ids x).Perm ((mapGet p x ++ sideOrders (mapErase p x)).map (fun o => o.orderId)) :=
      (sideOrders_perm_split p hs).map _
    have h3 : (((mapGet p x).filter (fun o => decide (o.orderId ≠ id)) ++
          sideOrders (mapErase p x)).map (fun o => o.orderId)).Sublist
        ((mapGet p x ++ sideOrders (mapErase p x)).map (fun o => o.orderId)) :=
      List.Sublist.map _ (List.Sublist.append (List.filter_sublist _) (List.Sublist.refl _))
    have h4 := (List.Perm.nodup_iff (List.Perm.append_right (ids y) h2)).1 h.nodup
    exact (List.Perm.nodup_iff (List.Perm.append_right (ids y) h1)).2
      (h4.sublist (List.Sublist.append h3 (List.Sublist.refl _)))
  · refine h.covX.of_same (fun r hr => ⟨r, (hsub r hr).1, rfl, rfl, rfl⟩) ?_
    intro r hr
    exact indexFind_indexErase_ne (hsub r hr).2 idx
  · refine h.covY.of_same (fun r hr => ⟨r, hr, rfl, rfl, rfl⟩) ?_
    intro r hr
    exact indexFind_indexErase_ne (hy r hr) idx

theorem Linked.unregister {x y : PriceMap} {idx : Index} {id : String} (h : Linked x y idx)
    (hx : ∀ r ∈ sideOrders x, r.orderId ≠ id) (hy : ∀ r ∈ sideOrders y, r.orderId ≠ id) :
    Linked x y (indexErase id idx) := by
  refine ⟨h.nodup, ?_, ?_⟩
  · refine h.covX.of_same (fun r hr => ⟨r, hr, rfl, rfl, rfl⟩) ?_
    intro r hr
    exact indexFind_indexErase_ne (hx r hr) idx
  · refine h.covY.of_same (fun r hr => ⟨r, hr, rfl, rfl, rfl⟩) ?_
    intro r hr
    exact indexFind_indexErase_ne (hy r hr) idx

theorem Linked.sweep_linked {x y : PriceMap} {idx : Index} (now : Int) (h : Linked x y idx) :
    Linked (sweepSide now x) (sweepSide now y)
      (eraseAll (sweptOrders now y) (eraseAll (sweptOrders now x) idx)) := by
  have hpx := (sideOrders_sweep_perm now x).map (fun o => o.orderId)
  have hpy := (sideOrders_sweep_perm now y).map (fun o => o.orderId)
  have hnd : (((sweptOrders now x).map (fun o => o.orderId) ++ ids (sweepSide now x)) ++
      ((sweptOrders now y).map (fun o => o.orderId) ++ ids (sweepSide now y))).Nodup := by
    have := (List.Perm.nodup_iff (List.Perm.append hpx hpy)).1 h.nodup
    simpa [ids] using this
  have hfind : ∀ id, id ∈ ids (sweepSide now x) ++ ids (sweepSide now y) →
      indexFind id (eraseAll (sweptOrders now y) (eraseAll (sweptOrders now x) idx)) =
        indexFind id idx := by
    intro id hid
    rw [indexFind_eraseAll, indexFind_eraseAll]
    have h1 : id ∉ (sweptOrders now x).map (fun o => o.orderId) := by
      intro hm
      rcases List.mem_append.1 hid with hid | hid
      · exact (List.nodup_append.1 (List.nodup_append.1 hnd).1).2.2 hm hid
      · exact (List.nodup_append.1 hnd).2.2 (List.mem_append_left _ hm)
          (List.mem_append_right _ hid)
    have h2 : id ∉ (sweptOrders now y).map (fun o => o.orderId) := by
      intro hm
      rcases List.mem_append.1 hid with hid | hid
      · exact (List.nodup_append.1 hnd).2.2 (List.mem_append_right _ hid)
          (List.mem_append_left _ hm)
      · exact (List.nodup_append.1 (List.nodup_append.1 hnd).2.1).2.2 hm hid
    rw [if_neg h2, if_neg h1]
  refine ⟨?_, ?_, ?_⟩
  · exact h.nodup.sublist (List.Sublist.append
      (List.Sublist.map _ (sideOrders_sweepSide_sublist now x))
      (List.Sublist.map _ (sideOrders_sweepSide_sublist now y)))
  · refine h.covX.of_same
      (fun r hr => ⟨r, (sideOrders_sweepSide_sublist now x).subset hr, rfl, rfl, rfl⟩) ?_
    intro r hr
    exact hfind _ (List.mem_append_left _ (mem_ids.2 ⟨r, hr, rfl⟩))
  · refine h.covY.of_same
      (fun r hr => ⟨r, (sideOrders_sweepSide_sublist now y).subset hr, rfl, rfl, rfl⟩) ?_
    intro r hr
    exact hfind _ (List.mem_append_right _ (mem_ids.2 ⟨r, hr, rfl⟩))

/-! ## The representation invariant -/

theorem wf_emptyBook : WF emptyBook := by
  refine ⟨⟨sortedKeys_nil _, ?_, ?_⟩, ⟨sortedKeys_nil _, ?_, ?_⟩, ⟨?_, ?_, ?_⟩⟩
  · intro l hl; cases hl
  · intro l hl; cases hl
  · intro l hl; cases hl
  · intro l hl; cases hl
  · exact List.nodup_nil
  · intro o ho; cases ho
  · intro o ho; cases ho

theorem SideWF.settle_side {desc : Bool} {side : String} {m : PriceMap} (nq : Int)
    (h : SideWF desc side m) : SideWF desc side (settleFront nq m) :=
  ⟨sorted_settleFront nq h.sorted, noEmpty_settleFront nq h.noEmpty,
    levelOK_settleFront nq h.levelOK⟩

theorem WF.settle_buy_wf {b : OrderBook} {k : Int} {o : Order} {q : List Order} {rest : PriceMap}
    (nq : Int) (h : WF b) (hb : b.buyOrders = (k, o :: q) :: rest) :
    WF (settleBuy nq o.orderId b) :=
  ⟨h.buy.settle_side nq, h.sell, h.linked.settle_linked nq h.buy.noEmpty hb⟩

theorem WF.settle_sell_wf {b : OrderBook} {k : Int} {o : Order} {q : List Order} {rest : PriceMap}
    (nq : Int) (h : WF b) (hb : b.sellOrders = (k, o :: q) :: rest) :
    WF (settleSell nq o.orderId b) :=
  ⟨h.buy, h.sell.settle_side nq, (h.linked.symm.settle_linked nq h.sell.noEmpty hb).symm⟩

/-! ## Inversion of the loop bodies -/

theorem matchStep_next {b b1 : OrderBook} {f : Fill} (h : matchStep b = .next b1 f) :
    ∃ bp bo bq brest sp so sq srest,
      b.buyOrders = (bp, bo :: bq) :: brest ∧ b.sellOrders = (sp, so :: sq) :: srest ∧
      sp ≤ bp ∧
      b1 = settleSell (wrap32 (so.quantity - min bo.quantity so.quantity)) so.orderId
            (settleBuy (wrap32 (bo.quantity - min bo.quantity so.quantity)) bo.orderId b) ∧
      f = ⟨.cross, min bo.quantity so.quantity, sp, bo.orderId, so.orderId⟩ := by
  unfold matchStep at h
  split at h
  · rename_i bp bq brest sp sq srest hb hs
    split at h
    · rename_i hle
      split at h
      · rename_i bo bq1 so sq1
        simp only [Step.next.injEq] at h
        exact ⟨bp, bo, bq1, brest, sp, so, sq1, srest, hb, hs, hle, h.1.symm, h.2.symm⟩
      · cases h
    · cases h
  · cases h

theorem matchStep_exit {b : OrderBook} (h : matchStep b = .exit) :
    b.buyOrders = [] ∨ b.sellOrders = [] ∨
      ∃ bp bq brest sp sq srest, b.buyOrders = (bp, bq) :: brest ∧
        b.sellOrders = (sp, sq) :: srest ∧ bp < sp := by
  unfold matchStep at h
  split at h
  · rename_i bp bq brest sp sq srest hb hs
    split at h
    · split at h <;> cases h
    · rename_i hle
      exact Or.inr (Or.inr ⟨bp, bq, brest, sp, sq, srest, hb, hs, not_le.1 hle⟩)
  · rename_i hne
    cases hb : b.buyOrders with
    | nil => exact Or.inl rfl
    | cons lb mb =>
      cases hs : b.sellOrders with
      | nil => exact Or.inr (Or.inl rfl)
      | cons ls ms =>
        obtain ⟨bp, bq⟩ := lb
        obtain ⟨sp, sq⟩ := ls
        exact absurd hs (hne bp bq mb sp sq ms hb)

theorem matchStep_defined {b : OrderBook} (h : WF b) : matchStep b ≠ .undefined := by
  intro hu
  unfold matchStep at hu
  split at hu
  · rename_i bp bq brest sp sq srest hb hs
    split at hu
    · split at hu
      · cases hu
      · rename_i hne
        have h1 : bq ≠ [] := h.buy.noEmpty (bp, bq) (by rw [hb]; exact List.mem_cons_self _ _)
        have h2 : sq ≠ [] := h.sell.noEmpty (sp, sq) (by rw [hs]; exact List.mem_cons_self _ _)
        cases bq with
        | nil => exact h1 rfl
        | cons bo bq1 =>
          cases sq with
          | nil => exact h2 rfl
          | cons so sq1 => exact hne bo bq1 so sq1 rfl rfl
    · cases hu
  · cases hu

theorem marketBuyStep_next {id : String} {s s1 : OrderBook × Int} {f : Fill}
    (h : marketBuyStep id s = .next s1 f) :
    ∃ sp so sq srest, s.1.sellOrders = (sp, so :: sq) :: srest ∧ 0 < s.2 ∧
      s1 = (settleSell (wrap32 (so.quantity - min s.2 so.quantity)) so.orderId s.1,
            wrap32 (s.2 - min s.2 so.quantity)) ∧
      f = ⟨.marketBuy, min s.2 so.quantity, sp, id, so.orderId⟩ := by
  unfold marketBuyStep at h
  split at h
  · cases h
  · rename_i sp sq srest hs
    split at h
    · rename_i hpos
      split at h
      · rename_i so sq1
        simp only [Step.next.injEq] at h
        exact ⟨sp, so, sq1, srest, hs, hpos, h.1.symm, h.2.symm⟩
      · cases h
    · cases h

theorem marketBuyStep_exit {id : String} {s : OrderBook × Int}
    (h : marketBuyStep id s = .exit) : s.1.sellOrders = [] ∨ s.2 ≤ 0 := by
  unfold marketBuyStep at h
  split at h
  · rename_i hs; exact Or.inl hs
  · split at h
    · split at h <;> cases h
    · rename_i hpos; exact Or.inr (not_lt.1 hpos)

theorem marketBuyStep_defined {id : String} {s : OrderBook × Int} (h : WF s.1) :
    marketBuyStep id s ≠ .undefined := by
  intro hu
  unfold marketBuyStep at hu
  split at hu
  · cases hu
  · rename_i sp sq srest hs
    split at hu
    · split at hu
      · cases hu
      · exact h.sell.noEmpty (sp, []) (by rw [hs]; exact List.mem_cons_self _ _) rfl
    · cases hu

theorem marketSellStep_next {id : String} {s s1 : OrderBook × Int} {f : Fill}
    (h : marketSellStep id s = .next s1 f) :
    ∃ bp bo bq brest, s.1.buyOrders = (bp, bo :: bq) :: brest ∧ 0 < s.2 ∧
      s1 = (settleBuy (wrap32 (bo.quantity - min s.2 bo.quantity)) bo.orderId s.1,
            wrap32 (s.2 - min s.2 bo.quantity)) ∧
      f = ⟨.marketSell, min s.2 bo.quantity, bp, bo.orderId, id⟩ := by
  unfold marketSellStep at h
  split at h
  · cases h
  · rename_i bp bq brest hb
    split at h
    · rename_i hpos
      split at h
      · rename_i bo bq1
        simp only [Step.next.injEq] at h
        exact ⟨bp, bo, bq1, brest, hb, hpos, h.1.symm, h.2.symm⟩
      · cases h
    · cases h

theorem marketSellStep_exit {id : String} {s : OrderBook × Int}
    (h : marketSellStep id s = .exit) : s.1.buyOrders = [] ∨ s.2 ≤ 0 := by
  unfold marketSellStep at h
  split at h
  · rename_i hs; exact Or.inl hs
  · split at h
    · split at h <;> cases h
    · rename_i hpos; exact Or.inr (not_lt.1 hpos)

theorem marketSellStep_defined {id : String} {s : OrderBook × Int} (h : WF s.1) :
    marketSellStep id s ≠ .undefined := by
  intro hu
  unfold marketSellStep at hu
  split at hu
  · cases hu
  · rename_i bp bq brest hb
    split at hu
    · split at hu
      · cases hu
      · exact h.buy.noEmpty (bp, []) (by rw [hb]; exact List.mem_cons_self _ _) rfl
    · cases hu

theorem matchStep_wf {b b1 : OrderBook} {f : Fill} (hw : WF b) (h : matchStep b = .next b1 f) :
    WF b1 := by
  obtain ⟨bp, bo, bq, brest, sp, so, sq, srest, hb, hs, _, h1, _⟩ := matchStep_next h
  rw [h1]
  exact (hw.settle_buy_wf _ hb).settle_sell_wf _ hs

theorem marketBuyStep_wf {id : String} {s s1 : OrderBook × Int} {f : Fill} (hw : WF s.1)
    (h : marketBuyStep id s = .next s1 f) : WF s1.1 := by
  obtain ⟨sp, so, sq, srest, hs, _, h1, _⟩ := marketBuyStep_next h
  rw [h1]
  exact hw.settle_sell_wf _ hs

theorem marketSellStep_wf {id : String} {s s1 : OrderBook × Int} {f : Fill} (hw : WF s.1)
    (h : marketSellStep id s = .next s1 f) : WF s1.1 := by
  obtain ⟨bp, bo, bq, brest, hb, _, h1, _⟩ := marketSellStep_next h
  rw [h1]
  exact hw.settle_buy_wf _ hb

/-! ## Termination of the loops -/

theorem length_settleList (nq : Int) (l : List Order) :
    (settleList nq l).length = if nq = 0 then l.length - 1 else l.length := by
  cases l with
  | nil => simp [settleList]
  | cons o t =>
    by_cases h : nq = 0
    · simp [settleList, h]
    · simp [settleList, h]

theorem length_settleFront (nq : Int) {m : PriceMap} (hne : NoEmpty m) :
    (sideOrders (settleFront nq m)).length =
      if nq = 0 then (sideOrders m).length - 1 else (sideOrders m).length := by
  rw [sideOrders_settleFront nq hne, length_settleList]

theorem length_sideOrders_pos {k : Int} {o : Order} {q : List Order} {rest m : PriceMap}
    (h : m = (k, o :: q) :: rest) : 0 < (sideOrders m).length := by
  rw [h]; simp [sideOrders]

theorem min_settles (a b : Int) :
    wrap32 (a - min a b) = 0 ∨ wrap32 (b - min a b) = 0 := by
  rcases le_total a b with h | h
  · exact Or.inl (wrap32_sub_min_left h)
  · exact Or.inr (wrap32_sub_min_right h)

theorem matchStep_decreases {b b1 : OrderBook} {f : Fill} (hw : WF b)
    (h : matchStep b = .next b1 f) :
    (restingOrders b1).length < (restingOrders b).length := by
  obtain ⟨bp, bo, bq, brest, sp, so, sq, srest, hb, hs, _, h1, _⟩ := matchStep_next h
  have hlb := length_sideOrders_pos hb
  have hls := length_sideOrders_pos hs
  rw [h1]
  simp only [restingOrders, settleSell, settleBuy, List.length_append]
  rw [length_settleFront _ hw.buy.noEmpty, length_settleFront _ hw.sell.noEmpty]
  rcases min_settles bo.quantity so.quantity with h0 | h0
  · rw [if_pos h0]; split <;> omega
  · rw [if_pos h0]; split <;> omega

theorem matchOrders_ok {b : OrderBook} (hw : WF b) :
    ∃ b1 fs, matchOrders b = .ok (b1, fs) ∧ Run matchStep b b1 fs := by
  obtain ⟨r, hr⟩ := iterate_ok matchStep WF (fun b => (restingOrders b).length)
    (fun s hs => matchStep_defined hs)
    (fun s s1 f hs h => ⟨matchStep_wf hs h, matchStep_decreases hs h⟩)
    ((restingOrders b).length + 1) b hw (Nat.lt_succ_self _)
  obtain ⟨b1, fs⟩ := r
  exact ⟨b1, fs, hr, iterate_run _ _ _ _ _ hr⟩

/-- The measure of a market sweep: the resting orders of the swept side, plus one
while the incoming order still has quantity. -/
theorem marketBuyStep_decreases {id : String} {s s1 : OrderBook × Int} {f : Fill}
    (hw : WF s.1) (h : marketBuyStep id s = .next s1 f) :
    (sideOrders s1.1.sellOrders).length + (if 0 < s1.2 then 1 else 0) <
      (sideOrders s.1.sellOrders).length + (if 0 < s.2 then 1 else 0) := by
  obtain ⟨sp, so, sq, srest, hs, hpos, h1, _⟩ := marketBuyStep_next h
  have hls := length_sideOrders_pos hs
  rw [h1]
  simp only [settleSell]
  rw [length_settleFront _ hw.sell.noEmpty, if_pos hpos]
  rcases min_settles s.2 so.quantity with h0 | h0
  · rw [h0]; simp only [lt_self_iff_false, if_false]; split <;> omega
  · rw [if_pos h0]; split <;> omega

theorem marketSellStep_decreases {id : String} {s s1 : OrderBook × Int} {f : Fill}
    (hw : WF s.1) (h : marketSellStep id s = .next s1 f) :
    (sideOrders s1.1.buyOrders).length + (if 0 < s1.2 then 1 else 0) <
      (sideOrders s.1.buyOrders).length + (if 0 < s.2 then 1 else 0) := by
  obtain ⟨bp, bo, bq, brest, hb, hpos, h1, _⟩ := marketSellStep_next h
  have hlb := length_sideOrders_pos hb
  rw [h1]
  simp only [settleBuy]
  rw [length_settleFront _ hw.buy.noEmpty, if_pos hpos]
  rcases min_settles s.2 bo.quantity with h0 | h0
  · rw [h0]; simp only [lt_self_iff_false, if_false]; split <;> omega
  · rw [if_pos h0]; split <;> omega

theorem marketBuy_ok (id : String) {b : OrderBook} (q : Int) (hw : WF b) :
    ∃ s pre, iterate (marketBuyStep id) ((sideOrders b.sellOrders).length + 2) (b, q) =
        .ok (s, pre) ∧ Run (marketBuyStep id) (b, q) s pre := by
  obtain ⟨r, hr⟩ := iterate_ok (marketBuyStep id) (fun s => WF s.1)
    (fun s => (sideOrders s.1.sellOrders).length + (if 0 < s.2 then 1 else 0))
    (fun s hs => marketBuyStep_defined hs)
    (fun s s1 f hs h => ⟨marketBuyStep_wf hs h, marketBuyStep_decreases hs h⟩)
    ((sideOrders b.sellOrders).length + 2) (b, q) hw (by simp only; split <;> omega)
  obtain ⟨s, pre⟩ := r
  exact ⟨s, pre, hr, iterate_run _ _ _ _ _ hr⟩

theorem marketSell_ok (id : String) {b : OrderBook} (q : Int) (hw : WF b) :
    ∃ s pre, iterate (marketSellStep id) ((sideOrders b.buyOrders).length + 2) (b, q) =
        .ok (s, pre) ∧ Run (marketSellStep id) (b, q) s pre := by
  obtain ⟨r, hr⟩ := iterate_ok (marketSellStep id) (fun s => WF s.1)
    (fun s => (sideOrders s.1.buyOrders).length + (if 0 < s.2 then 1 else 0))
    (fun s hs => marketSellStep_defined hs)
    (fun s s1 f hs h => ⟨marketSellStep_wf hs h, marketSellStep_decreases hs h⟩)
    ((sideOrders b.buyOrders).length + 2) (b, q) hw (by simp only; split <;> omega)
  obtain ⟨s, pre⟩ := r
  exact ⟨s, pre, hr, iterate_run _ _ _ _ _ hr⟩

/-! ## Loops preserve the invariant -/

theorem Run.matchOrders_wf {b b1 : OrderBook} {fs : List Fill} (h : Run matchStep b b1 fs)
    (hw : WF b) : WF b1 :=
  (h.inv WF (fun _ _ _ hs hn => matchStep_wf hs hn) hw).1

theorem Run.marketBuy_wf {id : String} {s s1 : OrderBook × Int} {fs : List Fill}
    (h : Run (marketBuyStep id) s s1 fs) (hw : WF s.1) : WF s1.1 :=
  (h.inv (fun s => WF s.1) (fun _ _ _ hs hn => marketBuyStep_wf hs hn) hw).1

theorem Run.marketSell_wf {id : String} {s s1 : OrderBook × Int} {fs : List Fill}
    (h : Run (marketSellStep id) s s1 fs) (hw : WF s.1) : WF s1.1 :=
  (h.inv (fun s => WF s.1) (fun _ _ _ hs hn => marketSellStep_wf hs hn) hw).1

/-! ## `addOrder` returns, and how -/

theorem WF.register_wf {b : OrderBook} (o : Order) (hw : WF b)
    (hid : indexHas o.orderId b.activeOrders = false) : WF (registered b o) :=
  ⟨hw.buy, hw.sell, hw.linked.register_linked o hid⟩

theorem WF.pushBuy {b : OrderBook} {o : Order} (hw : WF b)
    (hid : indexHas o.orderId b.activeOrders = false) (hside : o.side = "buy") :
    WF { (registered b o) with buyOrders := pushOrder true o b.buyOrders } :=
  ⟨⟨sorted_pushOrder o hw.buy.sorted, noEmpty_pushOrder o hw.buy.sorted hw.buy.noEmpty,
      levelOK_pushOrder hw.buy.sorted hw.buy.levelOK hside⟩,
    hw.sell, hw.linked.push_linked hw.buy.sorted hid⟩

theorem WF.pushSell {b : OrderBook} {o : Order} (hw : WF b)
    (hid : indexHas o.orderId b.activeOrders = false) (hside : o.side = "sell") :
    WF { (registered b o) with sellOrders := pushOrder false o b.sellOrders } :=
  ⟨hw.buy,
    ⟨sorted_pushOrder o hw.sell.sorted, noEmpty_pushOrder o hw.sell.sorted hw.sell.noEmpty,
      levelOK_pushOrder hw.sell.sorted hw.sell.levelOK hside⟩,
    (hw.linked.symm.push_linked hw.sell.sorted hid).symm⟩

theorem finishAdd_ok {b : OrderBook} (pre : List Fill) (hw : WF b) :
    ∃ b1 fs, finishAdd b pre = .ok ⟨.done, b1, pre ++ fs⟩ ∧ Run matchStep b b1 fs := by
  obtain ⟨b1, fs, h1, h2⟩ := matchOrders_ok hw
  exact ⟨b1, fs, by simp [finishAdd, h1], h2⟩

theorem addOrder_spec {b : OrderBook} (o : Order) (hw : WF b) :
    ∃ r, addOrder b o = .ok r ∧ AddSpec b o r := by
  unfold addOrder
  by_cases hid : indexHas o.orderId b.activeOrders = true
  · rw [if_pos hid]; exact ⟨_, rfl, .duplicate hid⟩
  · rw [if_neg hid]
    have hid1 : indexHas o.orderId b.activeOrders = false := by simpa using hid
    by_cases ht : o.type = "limit"
    · simp only [if_pos ht]
      by_cases hs : o.side = "buy"
      · simp only [if_pos hs]
        obtain ⟨b1, fs, h1, h2⟩ := finishAdd_ok [] (hw.pushBuy hid1 hs)
        exact ⟨_, h1, .limitBuy hid1 ht hs h2⟩
      · simp only [if_neg hs]
        by_cases hs2 : o.side = "sell"
        · simp only [if_pos hs2]
          obtain ⟨b1, fs, h1, h2⟩ := finishAdd_ok [] (hw.pushSell hid1 hs2)
          exact ⟨_, h1, .limitSell hid1 ht hs2 h2⟩
        · simp only [if_neg hs2]
          exact ⟨_, rfl, .invalidSide hid1 (Or.inl ht) hs hs2⟩
    · simp only [if_neg ht]
      by_cases hm : o.type = "market"
      · simp only [if_pos hm]
        by_cases hs : o.side = "buy"
        · simp only [if_pos hs]
          obtain ⟨s, pre, h1, h2⟩ := marketBuy_ok o.orderId o.quantity
            (hw.register_wf o hid1)
          obtain ⟨b1, fs, h3, h4⟩ := finishAdd_ok pre (h2.marketBuy_wf (hw.register_wf o hid1))
          refine ⟨_, ?_, .marketBuy hid1 hm hs h2 h4⟩
          unfold sweepAdd
          have h1' : iterate (marketBuyStep o.orderId) ((sideOrders b.sellOrders).length + 2)
              ({ b with activeOrders := indexSet o.orderId o b.activeOrders }, o.quantity) =
              .ok (s, pre) := h1
          simp only [h1', h3]
        · simp only [if_neg hs]
          by_cases hs2 : o.side = "sell"
          · simp only [if_pos hs2]
            obtain ⟨s, pre, h1, h2⟩ := marketSell_ok o.orderId o.quantity
              (hw.register_wf o hid1)
            obtain ⟨b1, fs, h3, h4⟩ := finishAdd_ok pre
              (h2.marketSell_wf (hw.register_wf o hid1))
            refine ⟨_, ?_, .marketSell hid1 hm hs2 h2 h4⟩
            unfold sweepAdd
            have h1' : iterate (marketSellStep o.orderId) ((sideOrders b.buyOrders).length + 2)
                ({ b with activeOrders := indexSet o.orderId o b.activeOrders }, o.quantity) =
                .ok (s, pre) := h1
            simp only [h1', h3]
          · simp only [if_neg hs2]
            exact ⟨_, rfl, .invalidSide hid1 (Or.inr hm) hs hs2⟩
      · simp only [if_neg hm]
        exact ⟨_, rfl, .invalidType hid1 ht hm⟩

theorem AddSpec.wf_add {b : OrderBook} {o : Order} {r : AddResult} (h : AddSpec b o r)
    (hw : WF b) : WF r.book := by
  cases h with
  | duplicate _ => exact hw
  | limitBuy hid _ hs hr => exact hr.matchOrders_wf (hw.pushBuy hid hs)
  | limitSell hid _ hs hr => exact hr.matchOrders_wf (hw.pushSell hid hs)
  | marketBuy hid _ _ h1 h2 => exact h2.matchOrders_wf (h1.marketBuy_wf (hw.register_wf o hid))
  | marketSell hid _ _ h1 h2 => exact h2.matchOrders_wf (h1.marketSell_wf (hw.register_wf o hid))
  | invalidSide hid _ _ _ => exact hw.register_wf o hid
  | invalidType hid _ _ => exact hw.register_wf o hid

/-! ## `cancelOrder` and `removeExpiredOrders` preserve the invariant -/

theorem WF.resting_buy {b : OrderBook} (hw : WF b) {r : Order}
    (hr : r ∈ sideOrders b.buyOrders) :
    r.side = "buy" ∧ (r.price, mapGet r.price b.buyOrders) ∈ b.buyOrders ∧
      r ∈ mapGet r.price b.buyOrders := by
  obtain ⟨l, hl, hrl⟩ := mem_sideOrders.1 hr
  obtain ⟨h1, h2⟩ := hw.buy.levelOK l hl r hrl
  have h3 : mapGet r.price b.buyOrders = l.2 := by
    rw [h2]; exact mapGet_of_mem hw.buy.sorted hl
  rw [h3]
  exact ⟨h1, by rw [h2]; exact hl, hrl⟩

theorem WF.resting_sell {b : OrderBook} (hw : WF b) {r : Order}
    (hr : r ∈ sideOrders b.sellOrders) :
    r.side = "sell" ∧ (r.price, mapGet r.price b.sellOrders) ∈ b.sellOrders ∧
      r ∈ mapGet r.price b.sellOrders := by
  obtain ⟨l, hl, hrl⟩ := mem_sideOrders.1 hr
  obtain ⟨h1, h2⟩ := hw.sell.levelOK l hl r hrl
  have h3 : mapGet r.price b.sellOrders = l.2 := by
    rw [h2]; exact mapGet_of_mem hw.sell.sorted hl
  rw [h3]
  exact ⟨h1, by rw [h2]; exact hl, hrl⟩

theorem price_ne_of_mem_mapErase {side : String} {m : PriceMap} (hl : LevelOK side m)
    {p : Int} {r : Order} (hr : r ∈ sideOrders (mapErase p m)) : r.price ≠ p := by
  obtain ⟨l, hlm, hrl⟩ := mem_sideOrders.1 hr
  simp only [mapErase, List.mem_filter, decide_eq_true_eq] at hlm
  rw [(hl l hlm.1 r hrl).2]
  exact hlm.2

theorem WF.entry_buy {b : OrderBook} (hw : WF b) {r e : Order}
    (hr : r ∈ sideOrders b.buyOrders)
    (he : indexFind r.orderId b.activeOrders = some e) : e.side = "buy" ∧ e.price = r.price := by
  obtain ⟨e1, h1, h2, h3⟩ := hw.linked.covX r hr
  rw [he] at h1
  cases h1
  exact ⟨h2.trans (hw.resting_buy hr).1, h3⟩

theorem WF.entry_sell {b : OrderBook} (hw : WF b) {r e : Order}
    (hr : r ∈ sideOrders b.sellOrders)
    (he : indexFind r.orderId b.activeOrders = some e) : e.side = "sell" ∧ e.price = r.price := by
  obtain ⟨e1, h1, h2, h3⟩ := hw.linked.covY r hr
  rw [he] at h1
  cases h1
  exact ⟨h2.trans (hw.resting_sell hr).1, h3⟩

theorem buy_ne_sell : ("buy" : String) ≠ "sell" := by decide

theorem cancelOrder_wf {b : OrderBook} (id : String) (hw : WF b) :
    WF (cancelOrder b id).2 := by
  unfold cancelOrder
  cases he : indexFind id b.activeOrders with
  | none => exact hw
  | some e =>
    simp only
    by_cases hb : e.side = "buy"
    · rw [if_pos hb]
      refine ⟨⟨sorted_cancelSide _ _ hw.buy.sorted,
        noEmpty_cancelSide _ _ hw.buy.sorted hw.buy.noEmpty,
        levelOK_cancelSide _ _ hw.buy.sorted hw.buy.levelOK⟩, hw.sell, ?_⟩
      refine hw.linked.cancel_linked e.price hw.buy.sorted ?_ ?_
      · intro r hr hid
        have hr1 : r ∈ sideOrders b.buyOrders :=
          (sideOrders_perm_split e.price hw.buy.sorted).symm.subset
            (List.mem_append_right _ hr)
        have h1 := hw.entry_buy hr1 (by rw [hid]; exact he)
        exact price_ne_of_mem_mapErase hw.buy.levelOK hr h1.2.symm
      · intro r hr hid
        have h1 := hw.entry_sell hr (by rw [hid]; exact he)
        exact buy_ne_sell (hb.symm.trans h1.1)
    · rw [if_neg hb]
      by_cases hs : e.side = "sell"
      · rw [if_pos hs]
        refine ⟨hw.buy, ⟨sorted_cancelSide _ _ hw.sell.sorted,
          noEmpty_cancelSide _ _ hw.sell.sorted hw.sell.noEmpty,
          levelOK_cancelSide _ _ hw.sell.sorted hw.sell.levelOK⟩, ?_⟩
        refine (hw.linked.symm.cancel_linked e.price hw.sell.sorted ?_ ?_).symm
        · intro r hr hid
          have hr1 : r ∈ sideOrders b.sellOrders :=
            (sideOrders_perm_split e.price hw.sell.sorted).symm.subset
              (List.mem_append_right _ hr)
          have h1 := hw.entry_sell hr1 (by rw [hid]; exact he)
          exact price_ne_of_mem_mapErase hw.sell.levelOK hr h1.2.symm
        · intro r hr hid
          have h1 := hw.entry_buy hr (by rw [hid]; exact he)
          exact hb h1.1
      · rw [if_neg hs]
        refine ⟨hw.buy, hw.sell, hw.linked.unregister ?_ ?_⟩
        · intro r hr hid
          exact hb (hw.entry_buy hr (by rw [hid]; exact he)).1
        · intro r hr hid
          exact hs (hw.entry_sell hr (by rw [hid]; exact he)).1

theorem removeExpiredOrders_wf {b : OrderBook} (now : Int) (hw : WF b) :
    WF (removeExpiredOrders b now) :=
  ⟨sideWF_sweepSide now hw.buy, sideWF_sweepSide now hw.sell, hw.linked.sweep_linked now⟩

/-! ## The book is uncrossed at rest -/

theorem Uncrossed.of_keys {b b1 : OrderBook} (h : Uncrossed b)
    (hb : ∀ k ∈ keys b1.buyOrders, k ∈ keys b.buyOrders)
    (hs : ∀ k ∈ keys b1.sellOrders, k ∈ keys b.sellOrders) : Uncrossed b1 :=
  fun bp hbp sp hsp => h bp (hb bp hbp) sp (hs sp hsp)

theorem uncrossed_of_exit {b : OrderBook} (hw : WF b) (h : matchStep b = .exit) :
    Uncrossed b := by
  intro kb hkb ka hka
  rcases matchStep_exit h with h0 | h0 | ⟨bp, bq, brest, sp, sq, srest, hb, hs, hlt⟩
  · rw [h0] at hkb; simp [keys] at hkb
  · rw [h0] at hka; simp [keys] at hka
  · have h1 : kb ≤ bp := by
      have hsb := hw.buy.sorted
      rw [hb] at hsb hkb
      simp only [keys, List.map_cons, List.mem_cons] at hkb
      rcases hkb with rfl | hkb
      · exact le_refl _
      · have := (sortedKeys_cons.1 hsb).1 kb hkb
        simp [keyBefore] at this
        omega
    have h2 : sp ≤ ka := by
      have hss := hw.sell.sorted
      rw [hs] at hss hka
      simp only [keys, List.map_cons, List.mem_cons] at hka
      rcases hka with rfl | hka
      · exact le_refl _
      · have := (sortedKeys_cons.1 hss).1 ka hka
        simp [keyBefore] at this
        omega
    omega

theorem Run.uncrossed_exit {b b1 : OrderBook} {fs : List Fill} (h : Run matchStep b b1 fs)
    (hw : WF b) : Uncrossed b1 := by
  obtain ⟨h1, h2⟩ := h.inv WF (fun _ _ _ hs hn => matchStep_wf hs hn) hw
  exact uncrossed_of_exit h1 h2

theorem AddSpec.uncrossed_add {b : OrderBook} {o : Order} {r : AddResult} (h : AddSpec b o r)
    (hw : WF b) (hu : Uncrossed b) : Uncrossed r.book := by
  cases h with
  | duplicate _ => exact hu
  | limitBuy hid _ hs hr => exact hr.uncrossed_exit (hw.pushBuy hid hs)
  | limitSell hid _ hs hr => exact hr.uncrossed_exit (hw.pushSell hid hs)
  | marketBuy hid _ _ h1 h2 => exact h2.uncrossed_exit (h1.marketBuy_wf (hw.register_wf o hid))
  | marketSell hid _ _ h1 h2 => exact h2.uncrossed_exit (h1.marketSell_wf (hw.register_wf o hid))
  | invalidSide hid _ _ _ => exact hu
  | invalidType hid _ _ => exact hu

theorem cancelOrder_uncrossed {b : OrderBook} (id : String) (hw : WF b) (hu : Uncrossed b) :
    Uncrossed (cancelOrder b id).2 := by
  unfold cancelOrder
  cases he : indexFind id b.activeOrders with
  | none => exact hu
  | some e =>
    simp only
    by_cases hb : e.side = "buy"
    · rw [if_pos hb]
      exact hu.of_keys (fun k hk => (keys_cancelSide_sublist _ _ hw.buy.sorted).subset hk)
        (fun _ hk => hk)
    · rw [if_neg hb]
      by_cases hs : e.side = "sell"
      · rw [if_pos hs]
        exact hu.of_keys (fun _ hk => hk)
          (fun k hk => (keys_cancelSide_sublist _ _ hw.sell.sorted).subset hk)
      · rw [if_neg hs]; exact hu

theorem removeExpiredOrders_uncrossed {b : OrderBook} (now : Int) (hu : Uncrossed b) :
    Uncrossed (removeExpiredOrders b now) :=
  hu.of_keys (fun _ hk => (keys_sweepSide_sublist now _).subset hk)
    (fun _ hk => (keys_sweepSide_sublist now _).subset hk)

/-! ## Call sequences -/

theorem applyOp_ok {b : OrderBook} (op : Op) (hw : WF b) (hu : Uncrossed b) :
    ∃ b1 fs, applyOp b op = .ok (b1, fs) ∧ WF b1 ∧ Uncrossed b1 := by
  cases op with
  | add o =>
    obtain ⟨r, h1, h2⟩ := addOrder_spec o hw
    exact ⟨r.book, r.fills, by simp [applyOp, h1], h2.wf_add hw, h2.uncrossed_add hw hu⟩
  | cancel id =>
    exact ⟨_, _, rfl, cancelOrder_wf id hw, cancelOrder_uncrossed id hw hu⟩
  | expire now =>
    exact ⟨_, _, rfl, removeExpiredOrders_wf now hw, removeExpiredOrders_uncrossed now hu⟩

theorem runOps_ok (ops : List Op) : ∀ {b : OrderBook}, WF b → Uncrossed b →
    ∃ b1 fs, runOps b ops = .ok (b1, fs) ∧ WF b1 ∧ Uncrossed b1 := by
  induction ops with
  | nil => intro b hw hu; exact ⟨b, [], rfl, hw, hu⟩
  | cons op ops ih =>
    intro b hw hu
    obtain ⟨b1, fs, h1, hw1, hu1⟩ := applyOp_ok op hw hu
    obtain ⟨b2, gs, h2, hw2, hu2⟩ := ih hw1 hu1
    exact ⟨b2, fs ++ gs, by simp [runOps, h1, h2], hw2, hu2⟩

theorem uncrossed_emptyBook : Uncrossed emptyBook := by
  intro bp hbp; simp [emptyBook, keys] at hbp

theorem Reachable.wf_uncrossed {b : OrderBook} (h : Reachable b) : WF b ∧ Uncrossed b := by
  obtain ⟨ops, fs, h⟩ := h
  obtain ⟨b1, gs, h1, hw, hu⟩ := runOps_ok ops wf_emptyBook uncrossed_emptyBook
  rw [h] at h1
  cases h1
  exact ⟨hw, hu⟩

theorem PosReachable.reachable {b : OrderBook} (h : PosReachable b) : Reachable b := by
  obtain ⟨ops, fs, _, h⟩ := h
  exact ⟨ops, fs, h⟩

/-- C1 (uncrossed at rest): every sequence of `addOrder`, `cancelOrder` and
expiry-sweep calls, started on the empty book, runs to completion, and in the
book it leaves every bid price is strictly below every ask price; in particular
either one side is empty or the highest bid is below the lowest ask.  As every
prefix of a call sequence is a call sequence, this holds after each call. -/
theorem uncrossed_at_rest (ops : List Op) :
    ∃ b fs, runOps emptyBook ops = .ok (b, fs) ∧
      ∀ bp ∈ keys b.buyOrders, ∀ sp ∈ keys b.sellOrders, bp < sp := by
  obtain ⟨b, fs, h, _, hu⟩ := runOps_ok ops wf_emptyBook uncrossed_emptyBook
  exact ⟨b, fs, h, hu⟩

/-! ## Price-time priority -/

theorem mapGet_mapSet {desc : Bool} (p : Int) (q : List Order) {m : PriceMap}
    (hs : SortedKeys desc m) (k : Int) :
    mapGet k (mapSet desc p q m) = if k = p then q else mapGet k m := by
  by_cases hk : k = p
  · rw [if_pos hk, hk]
    exact mapGet_of_mem (sorted_mapSet p q hs) ((mem_mapSet hs _).2 (Or.inl rfl))
  · rw [if_neg hk]
    by_cases hm : mapGet k m = []
    · rw [hm]
      by_contra hc
      have h1 := mapGet_mem hc
      rcases (mem_mapSet hs _).1 h1 with h2 | ⟨h2, _⟩
      · exact hk (congrArg Prod.fst h2)
      · have h3 := mapGet_of_mem hs h2
        exact hc (h3.symm.trans hm)
    · have h1 := mapGet_mem hm
      exact mapGet_of_mem (sorted_mapSet p q hs) ((mem_mapSet hs _).2 (Or.inr ⟨h1, hk⟩))

theorem mapGet_pushOrder {desc : Bool} (o : Order) {m : PriceMap} (hs : SortedKeys desc m)
    (k : Int) :
    mapGet k (pushOrder desc o m) = if k = o.price then mapGet k m ++ [o] else mapGet k m := by
  unfold pushOrder
  rw [mapGet_mapSet _ _ hs]
  by_cases hk : k = o.price
  · rw [if_pos hk, if_pos hk, hk]
  · rw [if_neg hk, if_neg hk]

theorem mapGet_settleFront_ne {nq : Int} {k p : Int} {o : Order} {q : List Order}
    {rest : PriceMap} (hk : k ≠ p) :
    mapGet p (settleFront nq ((k, o :: q) :: rest)) = mapGet p rest := by
  simp only [settleFront]
  by_cases h0 : nq = 0
  · rw [if_pos h0]
    by_cases hq : q = []
    · rw [if_pos hq]
    · rw [if_neg hq]; simp [mapGet, hk]
  · rw [if_neg h0]; simp [mapGet, hk]

theorem AheadIn.id_mem_ids {m : PriceMap} {p : Int} {idA : String} {ob : Order}
    (h : AheadIn m p idA ob) : idA ∈ ids m := by
  obtain ⟨pre, a, mid, post, hq, ha⟩ := h
  have hne : mapGet p m ≠ [] := by rw [hq]; simp
  have hmem := mapGet_mem hne
  refine mem_ids.2 ⟨a, mem_sideOrders.2 ⟨_, hmem, ?_⟩, ha⟩
  simp only; rw [hq]; simp

theorem AheadIn.push_ahead {desc : Bool} {m : PriceMap} {p : Int} {idA : String} {ob : Order}
    (o : Order) (hs : SortedKeys desc m) (h : AheadIn m p idA ob) :
    AheadIn (pushOrder desc o m) p idA ob := by
  obtain ⟨pre, a, mid, post, hq, ha⟩ := h
  unfold AheadIn
  rw [mapGet_pushOrder o hs]
  by_cases hk : p = o.price
  · rw [if_pos hk, hq]
    exact ⟨pre, a, mid, post ++ [o], by simp, ha⟩
  · rw [if_neg hk]; exact ⟨pre, a, mid, post, hq, ha⟩

theorem AheadIn.settle_ahead {m : PriceMap} {p : Int} {idA : String} {ob : Order} (nq : Int)
    (hne : NoEmpty m) (hnd : (ids m).Nodup) (h : AheadIn m p idA ob) :
    AheadIn (settleFront nq m) p idA ob ∨ idA ∉ ids (settleFront nq m) := by
  obtain ⟨pre, a, mid, post, hq, ha⟩ := h
  match m, hne, hnd, hq with
  | [], _, _, hq => simp [mapGet] at hq
  | (k, []) :: rest, hne, _, _ => exact absurd rfl (hne (k, []) (List.mem_cons_self _ _))
  | (k, o :: q) :: rest, hne, hnd, hq =>
    by_cases hk : k = p
    · subst hk
      simp only [mapGet, if_true] at hq
      cases pre with
      | nil =>
        simp only [List.nil_append, List.cons.injEq] at hq
        obtain ⟨rfl, rfl⟩ := hq
        by_cases h0 : nq = 0
        · right
          unfold ids
          rw [sideOrders_settleFront nq hne, ids_settleList, if_pos h0]
          unfold ids at hnd
          simp only [sideOrders, List.cons_append, List.map_cons, List.tail_cons] at hnd ⊢
          rw [← ha]
          exact (List.nodup_cons.1 hnd).1
        · left
          refine ⟨[], { o with quantity := nq }, mid, post, ?_, ha⟩
          simp [settleFront, h0, mapGet]
      | cons o1 pre1 =>
        simp only [List.cons_append, List.cons.injEq] at hq
        obtain ⟨rfl, rfl⟩ := hq
        left
        by_cases h0 : nq = 0
        · refine ⟨pre1, a, mid, post, ?_, ha⟩
          simp [settleFront, h0, mapGet]
        · refine ⟨{ o with quantity := nq } :: pre1, a, mid, post, ?_, ha⟩
          simp [settleFront, h0, mapGet]
    · left
      refine ⟨pre, a, mid, post, ?_, ha⟩
      rw [mapGet_settleFront_ne hk]
      simpa [mapGet, hk] using hq

theorem rests_iff {b : OrderBook} {id : String} :
    Rests b id ↔ id ∈ ids b.buyOrders ++ ids b.sellOrders := by
  simp [Rests, restingOrders, ids]

theorem mapGet_cancelSide {desc : Bool} (p : Int) (id : String) {m : PriceMap}
    (hs : SortedKeys desc m) (k : Int) :
    mapGet k (cancelSide desc p id m) =
      if k = p then (mapGet p m).filter (fun o => decide (o.orderId ≠ id)) else mapGet k m := by
  rw [cancelSide_eq]
  by_cases h : (mapGet p m).filter (fun o => decide (o.orderId ≠ id)) = []
  · rw [if_pos h]
    by_cases hk : k = p
    · rw [if_pos hk, h, hk]
      refine mapGet_of_not_mem ?_
      intro hm
      obtain ⟨q, hq⟩ := mem_keys.1 hm
      simp [mapErase] at hq
    · rw [if_neg hk]
      by_cases hm : mapGet k m = []
      · rw [hm]
        by_contra hc
        have h1 := mapGet_mem hc
        simp only [mapErase, List.mem_filter] at h1
        exact hc ((mapGet_of_mem hs h1.1).symm.trans hm)
      · have h1 := mapGet_mem hm
        refine mapGet_of_mem (hs.of_keys_sublist (keys_mapErase_sublist p m)) ?_
        simp only [mapErase, List.mem_filter, decide_eq_true_eq]
        exact ⟨h1, hk⟩
  · rw [if_neg h, mapGet_mapSet _ _ hs]

theorem mapGet_sweepSide {desc : Bool} (now : Int) {m : PriceMap} (hs : SortedKeys desc m)
    (p : Int) : mapGet p (sweepSide now m) = (mapGet p m).dropWhile (expired now) := by
  by_cases hm : (mapGet p m).dropWhile (expired now) = []
  · rw [hm]
    by_contra hc
    have h1 := mapGet_mem hc
    obtain ⟨q, hq, h2, h3⟩ := (mem_sweepSide _).1 h1
    simp only at hq h2 h3
    rw [mapGet_of_mem hs hq] at hm
    exact h3 (h2.trans hm)
  · have hne : mapGet p m ≠ [] := by
      intro h0; rw [h0] at hm; exact hm rfl
    have h1 := mapGet_mem hne
    refine mapGet_of_mem (hs.of_keys_sublist (keys_sweepSide_sublist now m)) ?_
    exact (mem_sweepSide _).2 ⟨_, h1, rfl, hm⟩

theorem AheadIn.cancel_ahead {desc : Bool} {m : PriceMap} {p : Int} {idA : String} {ob : Order}
    (p1 : Int) {id : String} (hs : SortedKeys desc m) (hA : idA ≠ id) (hB : ob.orderId ≠ id)
    (h : AheadIn m p idA ob) : AheadIn (cancelSide desc p1 id m) p idA ob := by
  obtain ⟨pre, a, mid, post, hq, ha⟩ := h
  unfold AheadIn
  rw [mapGet_cancelSide p1 id hs]
  by_cases hk : p = p1
  · rw [if_pos hk, ← hk, hq]
    refine ⟨pre.filter (fun o => decide (o.orderId ≠ id)), a,
      mid.filter (fun o => decide (o.orderId ≠ id)),
      post.filter (fun o => decide (o.orderId ≠ id)), ?_, ha⟩
    simp [List.filter_append, List.filter_cons, ha, hA, hB]
  · rw [if_neg hk]; exact ⟨pre, a, mid, post, hq, ha⟩

theorem dropWhile_keeps_or_drops {f : Order → Bool} (pre : List Order) (a : Order)
    (t : List Order) :
    (∃ pre1, (pre ++ a :: t).dropWhile f = pre1 ++ a :: t) ∨
      ((pre ++ a :: t).dropWhile f = t.dropWhile f ∧ a ∈ (pre ++ a :: t).takeWhile f) := by
  induction pre with
  | nil =>
    by_cases ha : f a = true
    · right; simp [List.dropWhile_cons, List.takeWhile_cons, ha]
    · left; exact ⟨[], by simp [List.dropWhile_cons, ha]⟩
  | cons x pre ih =>
    by_cases hx : f x = true
    · rcases ih with ⟨pre1, h⟩ | ⟨h1, h2⟩
      · left; exact ⟨pre1, by simp [List.dropWhile_cons, hx, h]⟩
      · right
        exact ⟨by simp [List.dropWhile_cons, hx, h1],
          by simp only [List.cons_append, List.takeWhile_cons, hx, if_true]
             exact List.mem_cons_of_mem _ h2⟩
    · left; exact ⟨x :: pre, by simp [List.dropWhile_cons, hx]⟩

theorem mem_sweptOrders {now : Int} {m : PriceMap} {o : Order} :
    o ∈ sweptOrders now m ↔ ∃ l ∈ m, o ∈ l.2.takeWhile (expired now) := by
  induction m with
  | nil => simp [sweptOrders]
  | cons l m ih =>
    obtain ⟨k, q⟩ := l
    simp [sweptOrders, ih]

theorem AheadIn.sweep_ahead {desc : Bool} {m : PriceMap} {p : Int} {idA : String} {ob : Order}
    (now : Int) (hs : SortedKeys desc m) (hnd : (ids m).Nodup) (h : AheadIn m p idA ob) :
    AheadIn (sweepSide now m) p idA ob ∨ idA ∉ ids (sweepSide now m) := by
  obtain ⟨pre, a, mid, post, hq, ha⟩ := h
  rcases dropWhile_keeps_or_drops (f := expired now) pre a (mid ++ ob :: post) with
    ⟨pre1, h1⟩ | ⟨_, h2⟩
  · left
    refine ⟨pre1, a, mid, post, ?_, ha⟩
    rw [mapGet_sweepSide now hs, hq, h1]
  · right
    have hne : mapGet p m ≠ [] := by rw [hq]; simp
    have hsw : a ∈ sweptOrders now m :=
      mem_sweptOrders.2 ⟨_, mapGet_mem hne, by simp only; rw [hq]; exact h2⟩
    have hperm := (sideOrders_sweep_perm now m).map (fun o => o.orderId)
    have hnd2 := (List.Perm.nodup_iff hperm).1 hnd
    rw [List.map_append] at hnd2
    intro hc
    exact (List.nodup_append.1 hnd2).2.2 (ha ▸ List.mem_map_of_mem _ hsw) hc

/-! ### Priority through the steps of the loops -/

theorem WF.nodup_buy {b : OrderBook} (hw : WF b) : (ids b.buyOrders).Nodup :=
  (List.nodup_append.1 hw.linked.nodup).1

theorem WF.nodup_sell {b : OrderBook} (hw : WF b) : (ids b.sellOrders).Nodup :=
  (List.nodup_append.1 hw.linked.nodup).2.1

theorem WF.disjoint {b : OrderBook} (hw : WF b) {id : String} (h1 : id ∈ ids b.buyOrders)
    (h2 : id ∈ ids b.sellOrders) : False :=
  (List.nodup_append.1 hw.linked.nodup).2.2 h1 h2

theorem not_rests_of {b b1 : OrderBook} {id : String} (h : ¬ Rests b id)
    (hb : (ids b1.buyOrders).Sublist (ids b.buyOrders))
    (hs : (ids b1.sellOrders).Sublist (ids b.sellOrders)) : ¬ Rests b1 id := by
  rw [rests_iff] at h ⊢
  intro hc
  exact h ((List.Sublist.append hb hs).subset hc)

theorem PriorityKept.settle_buy_kept {b : OrderBook} {idA : String} {ob : Order} (nq : Int)
    (id : String) (hw : WF b) (h : PriorityKept b idA ob) :
    PriorityKept (settleBuy nq id b) idA ob := by
  rcases h with h | h | h
  · rcases h.settle_ahead nq hw.buy.noEmpty hw.nodup_buy with h1 | h1
    · exact Or.inl h1
    · refine Or.inr (Or.inr ?_)
      rw [rests_iff]
      intro hc
      rcases List.mem_append.1 hc with hc | hc
      · exact h1 hc
      · exact hw.disjoint h.id_mem_ids hc
  · exact Or.inr (Or.inl h)
  · exact Or.inr (Or.inr (not_rests_of h (ids_settleFront_sublist nq hw.buy.noEmpty)
      (List.Sublist.refl _)))

theorem PriorityKept.settle_sell_kept {b : OrderBook} {idA : String} {ob : Order} (nq : Int)
    (id : String) (hw : WF b) (h : PriorityKept b idA ob) :
    PriorityKept (settleSell nq id b) idA ob := by
  rcases h with h | h | h
  · exact Or.inl h
  · rcases h.settle_ahead nq hw.sell.noEmpty hw.nodup_sell with h1 | h1
    · exact Or.inr (Or.inl h1)
    · refine Or.inr (Or.inr ?_)
      rw [rests_iff]
      intro hc
      rcases List.mem_append.1 hc with hc | hc
      · exact hw.disjoint hc h.id_mem_ids
      · exact h1 hc
  · exact Or.inr (Or.inr (not_rests_of h (List.Sublist.refl _)
      (ids_settleFront_sublist nq hw.sell.noEmpty)))

theorem Run.matchOrders_priority {b b1 : OrderBook} {fs : List Fill} {idA : String}
    {ob : Order} (h : Run matchStep b b1 fs) (hw : WF b) (hp : PriorityKept b idA ob) :
    PriorityKept b1 idA ob := by
  have := h.inv (fun b => WF b ∧ PriorityKept b idA ob) (by
    intro s s1 f ⟨hws, hps⟩ hn
    refine ⟨matchStep_wf hws hn, ?_⟩
    obtain ⟨bp, bo, bq, brest, sp, so, sq, srest, hb, hs, _, h1, _⟩ := matchStep_next hn
    rw [h1]
    exact (hps.settle_buy_kept _ _ hws).settle_sell_kept _ _ (hws.settle_buy_wf _ hb)) ⟨hw, hp⟩
  exact this.1.2

theorem Run.marketBuy_priority {id : String} {s s1 : OrderBook × Int} {fs : List Fill}
    {idA : String} {ob : Order} (h : Run (marketBuyStep id) s s1 fs) (hw : WF s.1)
    (hp : PriorityKept s.1 idA ob) : PriorityKept s1.1 idA ob := by
  have := h.inv (fun s => WF s.1 ∧ PriorityKept s.1 idA ob) (by
    intro s s1 f ⟨hws, hps⟩ hn
    refine ⟨marketBuyStep_wf hws hn, ?_⟩
    obtain ⟨sp, so, sq, srest, hs, _, h1, _⟩ := marketBuyStep_next hn
    rw [h1]
    exact hps.settle_sell_kept _ _ hws) ⟨hw, hp⟩
  exact this.1.2

theorem Run.marketSell_priority {id : String} {s s1 : OrderBook × Int} {fs : List Fill}
    {idA : String} {ob : Order} (h : Run (marketSellStep id) s s1 fs) (hw : WF s.1)
    (hp : PriorityKept s.1 idA ob) : PriorityKept s1.1 idA ob := by
  have := h.inv (fun s => WF s.1 ∧ PriorityKept s.1 idA ob) (by
    intro s s1 f ⟨hws, hps⟩ hn
    refine ⟨marketSellStep_wf hws hn, ?_⟩
    obtain ⟨bp, bo, bq, brest, hb, _, h1, _⟩ := marketSellStep_next hn
    rw [h1]
    exact hps.settle_buy_kept _ _ hws) ⟨hw, hp⟩
  exact this.1.2

theorem mem_sideOrders_cancelSide {desc : Bool} {p : Int} {id : String} {m : PriceMap}
    (hs : SortedKeys desc m) {r : Order} :
    r ∈ sideOrders (cancelSide desc p id m) ↔
      (r ∈ mapGet p m ∧ r.orderId ≠ id) ∨ r ∈ sideOrders (mapErase p m) := by
  rw [(sideOrders_cancelSide_perm p id hs).mem_iff, List.mem_append, List.mem_filter]
  simp

theorem mem_sideOrders_split {desc : Bool} (p : Int) {m : PriceMap} (hs : SortedKeys desc m)
    {r : Order} : r ∈ sideOrders m ↔ r ∈ mapGet p m ∨ r ∈ sideOrders (mapErase p m) := by
  rw [(sideOrders_perm_split p hs).mem_iff, List.mem_append]

theorem ids_cancelSide_subset {desc : Bool} (p : Int) (id : String) {m : PriceMap}
    (hs : SortedKeys desc m) :
    ∀ x ∈ ids (cancelSide desc p id m), x ∈ ids m := by
  intro x hx
  obtain ⟨r, hr, rfl⟩ := mem_ids.1 hx
  refine mem_ids.2 ⟨r, ?_, rfl⟩
  rcases (mem_sideOrders_cancelSide hs).1 hr with h | h
  · exact (mem_sideOrders_split p hs).2 (Or.inl h.1)
  · exact (mem_sideOrders_split p hs).2 (Or.inr h)

/-- After `cancelOrder(id)` no resting order carries the id. -/
theorem cancelOrder_not_rests {b : OrderBook} (id : String) (hw : WF b) :
    ¬ Rests (cancelOrder b id).2 id := by
  have hwc := cancelOrder_wf id hw
  intro hr
  have hcov : indexHas id (cancelOrder b id).2.activeOrders = true := by
    rcases List.mem_append.1 (rests_iff.1 hr) with h | h
    · exact hwc.linked.covX.indexed h
    · exact hwc.linked.covY.indexed h
  have habs : indexFind id (cancelOrder b id).2.activeOrders = none := by
    unfold cancelOrder
    cases he : indexFind id b.activeOrders with
    | none => exact he
    | some e =>
      simp only
      split
      · exact indexFind_indexErase_self id _
      · split
        · exact indexFind_indexErase_self id _
        · exact indexFind_indexErase_self id _
  rw [indexHas_eq_true] at hcov
  obtain ⟨e, he⟩ := hcov
  rw [habs] at he
  cases he

theorem cancelOrder_priority {b : OrderBook} {idA : String} {ob : Order} (id : String)
    (hw : WF b) (hB : ob.orderId ≠ id)
    (h : AheadIn b.buyOrders ob.price idA ob ∨ AheadIn b.sellOrders ob.price idA ob) :
    PriorityKept (cancelOrder b id).2 idA ob := by
  by_cases hA : idA = id
  · subst hA; exact Or.inr (Or.inr (cancelOrder_not_rests idA hw))
  · unfold cancelOrder
    cases he : indexFind id b.activeOrders with
    | none => rcases h with h | h
              · exact Or.inl h
              · exact Or.inr (Or.inl h)
    | some e =>
      simp only
      by_cases hb : e.side = "buy"
      · rw [if_pos hb]
        rcases h with h | h
        · exact Or.inl (h.cancel_ahead e.price hw.buy.sorted hA hB)
        · exact Or.inr (Or.inl h)
      · rw [if_neg hb]
        by_cases hs : e.side = "sell"
        · rw [if_pos hs]
          rcases h with h | h
          · exact Or.inl h
          · exact Or.inr (Or.inl (h.cancel_ahead e.price hw.sell.sorted hA hB))
        · rw [if_neg hs]
          rcases h with h | h
          · exact Or.inl h
          · exact Or.inr (Or.inl h)

theorem removeExpiredOrders_priority {b : OrderBook} {idA : String} {ob : Order} (now : Int)
    (hw : WF b)
    (h : AheadIn b.buyOrders ob.price idA ob ∨ AheadIn b.sellOrders ob.price idA ob) :
    PriorityKept (removeExpiredOrders b now) idA ob := by
  have hsb : (ids (sweepSide now b.buyOrders)).Sublist (ids b.buyOrders) :=
    List.Sublist.map _ (sideOrders_sweepSide_sublist now _)
  have hss : (ids (sweepSide now b.sellOrders)).Sublist (ids b.sellOrders) :=
    List.Sublist.map _ (sideOrders_sweepSide_sublist now _)
  rcases h with h | h
  · rcases h.sweep_ahead now hw.buy.sorted hw.nodup_buy with h1 | h1
    · exact Or.inl h1
    · refine Or.inr (Or.inr ?_)
      rw [rests_iff]
      intro hc
      rcases List.mem_append.1 hc with hc | hc
      · exact h1 hc
      · exact hw.disjoint h.id_mem_ids (hss.subset hc)
  · rcases h.sweep_ahead now hw.sell.sorted hw.nodup_sell with h1 | h1
    · exact Or.inr (Or.inl h1)
    · refine Or.inr (Or.inr ?_)
      rw [rests_iff]
      intro hc
      rcases List.mem_append.1 hc with hc | hc
      · exact hw.disjoint (hsb.subset hc) h.id_mem_ids
      · exact h1 hc

theorem AddSpec.priority {b : OrderBook} {o : Order} {r : AddResult} {idA : String}
    {ob : Order} (hs : AddSpec b o r) (hw : WF b)
    (h : AheadIn b.buyOrders ob.price idA ob ∨ AheadIn b.sellOrders ob.price idA ob) :
    PriorityKept r.book idA ob := by
  have h0 : PriorityKept b idA ob := by
    rcases h with h | h
    · exact Or.inl h
    · exact Or.inr (Or.inl h)
  cases hs with
  | duplicate _ => exact h0
  | limitBuy hid _ hside hr =>
    refine hr.matchOrders_priority (hw.pushBuy hid hside) ?_
    rcases h with h | h
    · exact Or.inl (h.push_ahead o hw.buy.sorted)
    · exact Or.inr (Or.inl h)
  | limitSell hid _ hside hr =>
    refine hr.matchOrders_priority (hw.pushSell hid hside) ?_
    rcases h with h | h
    · exact Or.inl h
    · exact Or.inr (Or.inl (h.push_ahead o hw.sell.sorted))
  | marketBuy hid _ _ h1 h2 =>
    have hw1 := hw.register_wf o hid
    exact h2.matchOrders_priority (h1.marketBuy_wf hw1) (h1.marketBuy_priority hw1 h0)
  | marketSell hid _ _ h1 h2 =>
    have hw1 := hw.register_wf o hid
    exact h2.matchOrders_priority (h1.marketSell_wf hw1) (h1.marketSell_priority hw1 h0)
  | invalidSide _ _ _ _ => exact h0
  | invalidType _ _ _ => exact h0

theorem limit_ne_market : ("limit" : String) ≠ "market" := by decide

theorem aheadIn_push_behind {desc : Bool} {m : PriceMap} {a ob : Order}
    (hs : SortedKeys desc m) (ha : a ∈ mapGet a.price m) (hp : ob.price = a.price) :
    AheadIn (pushOrder desc ob m) ob.price a.orderId ob := by
  obtain ⟨pre, post, hq⟩ := List.append_of_mem ha
  unfold AheadIn
  rw [mapGet_pushOrder ob hs, if_pos rfl, hp, hq]
  exact ⟨pre, a, post, [], by simp, rfl⟩

/-- Adding a limit order at the price and side of a resting order puts it behind
that order. -/
theorem AddSpec.priority_new {b : OrderBook} {a ob : Order} {r : AddResult}
    (hs : AddSpec b ob r) (hw : WF b) (ha : a ∈ restingOrders b) (hlimit : ob.type = "limit")
    (hside : ob.side = a.side) (hprice : ob.price = a.price)
    (hnew : indexHas ob.orderId b.activeOrders = false) :
    PriorityKept r.book a.orderId ob := by
  have hcases : (a ∈ sideOrders b.buyOrders ∧ a.side = "buy") ∨
      (a ∈ sideOrders b.sellOrders ∧ a.side = "sell") := by
    rcases List.mem_append.1 ha with h | h
    · exact Or.inl ⟨h, (hw.resting_buy h).1⟩
    · exact Or.inr ⟨h, (hw.resting_sell h).1⟩
  cases hs with
  | duplicate hd => rw [hd] at hnew; exact Bool.noConfusion hnew
  | limitBuy hid _ hsb hr =>
    refine hr.matchOrders_priority (hw.pushBuy hid hsb) (Or.inl ?_)
    rcases hcases with ⟨h1, _⟩ | ⟨_, h2⟩
    · exact aheadIn_push_behind hw.buy.sorted (hw.resting_buy h1).2.2 hprice
    · exact absurd (hsb.symm.trans (hside.trans h2)) buy_ne_sell
  | limitSell hid _ hss hr =>
    refine hr.matchOrders_priority (hw.pushSell hid hss) (Or.inr (Or.inl ?_))
    rcases hcases with ⟨_, h2⟩ | ⟨h1, _⟩
    · exact absurd (h2.symm.trans (hside.symm.trans hss)) buy_ne_sell
    · exact aheadIn_push_behind hw.sell.sorted (hw.resting_sell h1).2.2 hprice
  | marketBuy _ hm _ _ _ => exact absurd (hlimit.symm.trans hm) limit_ne_market
  | marketSell _ hm _ _ _ => exact absurd (hlimit.symm.trans hm) limit_ne_market
  | invalidSide _ _ h1 h2 =>
    rcases hcases with ⟨_, h3⟩ | ⟨_, h3⟩
    · exact absurd (hside.trans h3) h1
    · exact absurd (hside.trans h3) h2
  | invalidType _ h1 _ => exact absurd hlimit h1

theorem applyOp_priority {b b1 : OrderBook} {fs : List Fill} {idA : String} {ob : Order}
    (op : Op) (hw : WF b) (hB : op ≠ Op.cancel ob.orderId)
    (h : AheadIn b.buyOrders ob.price idA ob ∨ AheadIn b.sellOrders ob.price idA ob)
    (hop : applyOp b op = .ok (b1, fs)) : PriorityKept b1 idA ob := by
  cases op with
  | add o =>
    obtain ⟨r, h1, h2⟩ := addOrder_spec o hw
    simp only [applyOp, h1, Except.ok.injEq, Prod.mk.injEq] at hop
    rw [← hop.1]
    exact h2.priority hw h
  | cancel id =>
    simp only [applyOp, Except.ok.injEq, Prod.mk.injEq] at hop
    rw [← hop.1]
    exact cancelOrder_priority id hw (fun he => hB (by rw [he])) h
  | expire now =>
    simp only [applyOp, Except.ok.injEq, Prod.mk.injEq] at hop
    rw [← hop.1]
    exact removeExpiredOrders_priority now hw h

theorem priority_run {idA : String} {ob : Order} (ops : List Op) :
    ∀ {b : OrderBook}, WF b → Uncrossed b →
      (AheadIn b.buyOrders ob.price idA ob ∨ AheadIn b.sellOrders ob.price idA ob) →
      Op.cancel ob.orderId ∉ ops →
      (∀ n bn fs, runOps b (ops.take n) = .ok (bn, fs) → Rests bn idA) →
      ∃ b2 fs, runOps b ops = .ok (b2, fs) ∧
        (AheadIn b2.buyOrders ob.price idA ob ∨ AheadIn b2.sellOrders ob.price idA ob) := by
  induction ops with
  | nil => intro b _ _ h _ _; exact ⟨b, [], rfl, h⟩
  | cons op ops ih =>
    intro b hw hu h hB hstay
    obtain ⟨b1, fs1, h1, hw1, hu1⟩ := applyOp_ok op hw hu
    have hpk := applyOp_priority op hw
      (fun he => hB (he ▸ List.mem_cons_self _ _)) h h1
    have hr1 : Rests b1 idA := by
      refine hstay 1 b1 (fs1 ++ []) ?_
      simp [runOps, h1]
    have ha1 : AheadIn b1.buyOrders ob.price idA ob ∨ AheadIn b1.sellOrders ob.price idA ob := by
      rcases hpk with h2 | h2 | h2
      · exact Or.inl h2
      · exact Or.inr h2
      · exact absurd hr1 h2
    obtain ⟨b2, fs2, h2, h3⟩ := ih hw1 hu1 ha1
      (fun hm => hB (List.mem_cons_of_mem _ hm))
      (fun n bn fs hn => hstay (n + 1) bn (fs1 ++ fs) (by simp [runOps, h1, hn]))
    exact ⟨b2, fs1 ++ fs2, by simp [runOps, h1, h2], h3⟩

theorem levelQueue_of_ahead {b : OrderBook} {idA : String} {ob : Order} (hw : WF b)
    (h : AheadIn b.buyOrders ob.price idA ob ∨ AheadIn b.sellOrders ob.price idA ob) :
    ∃ pre a mid post, levelQueue b ob.side ob.price = pre ++ a :: (mid ++ ob :: post) ∧
      a.orderId = idA := by
  rcases h with ⟨pre, a, mid, post, hq, ha⟩ | ⟨pre, a, mid, post, hq, ha⟩
  · have hne : mapGet ob.price b.buyOrders ≠ [] := by rw [hq]; simp
    have hside := (hw.buy.levelOK _ (mapGet_mem hne) ob (by simp only; rw [hq]; simp)).1
    exact ⟨pre, a, mid, post, by simp [levelQueue, hside, hq], ha⟩
  · have hne : mapGet ob.price b.sellOrders ≠ [] := by rw [hq]; simp
    have hside := (hw.sell.levelOK _ (mapGet_mem hne) ob (by simp only; rw [hq]; simp)).1
    have hnb : ob.side ≠ "buy" := by rw [hside]; decide
    exact ⟨pre, a, mid, post, by simp [levelQueue, hnb, hq], ha⟩

/-- C2 (price-time priority): let `a` rest in a reachable book and let the limit
order `ob` be submitted on the same side at the same price.  Then `addOrder`
returns, and through every later sequence of calls that does not cancel `ob` and
after each of whose calls an order with the id of `a` still rests, the sequence
runs to completion and in the resulting book the level queue of `ob` holds that
order ahead of `ob`, with `ob` exactly as it was submitted (its quantity
untouched by any fill). -/
theorem price_time_priority (b : OrderBook) (hb : Reachable b) (a ob : Order)
    (ha : a ∈ restingOrders b) (hlimit : ob.type = "limit") (hside : ob.side = a.side)
    (hprice : ob.price = a.price) (hnew : indexHas ob.orderId b.activeOrders = false)
    (ops : List Op) (hB : Op.cancel ob.orderId ∉ ops) :
    ∃ r, addOrder b ob = .ok r ∧
      ((∀ n bn fs, runOps r.book (ops.take n) = .ok (bn, fs) → Rests bn a.orderId) →
        ∃ b2 fs, runOps r.book ops = .ok (b2, fs) ∧
          ∃ pre a1 mid post,
            levelQueue b2 ob.side ob.price = pre ++ a1 :: (mid ++ ob :: post) ∧
            a1.orderId = a.orderId) := by
  obtain ⟨hw, hu⟩ := hb.wf_uncrossed
  obtain ⟨r, h1, h2⟩ := addOrder_spec ob hw
  refine ⟨r, h1, fun hstay => ?_⟩
  have hw1 := h2.wf_add hw
  have hu1 := h2.uncrossed_add hw hu
  have hpk := h2.priority_new hw ha hlimit hside hprice hnew
  have hr0 : Rests r.book a.orderId := hstay 0 r.book [] (by simp [runOps])
  have ha1 : AheadIn r.book.buyOrders ob.price a.orderId ob ∨
      AheadIn r.book.sellOrders ob.price a.orderId ob := by
    rcases hpk with h3 | h3 | h3
    · exact Or.inl h3
    · exact Or.inr h3
    · exact absurd hr0 h3
  obtain ⟨b2, fs, h3, h4⟩ := priority_run ops hw1 hu1 ha1 hB hstay
  have hw2 : WF b2 := by
    obtain ⟨b3, gs, h5, hw3, _⟩ := runOps_ok ops hw1 hu1
    rw [h3] at h5; cases h5; exact hw3
  exact ⟨b2, fs, h3, levelQueue_of_ahead hw2 h4⟩

theorem reachable_bookA : Reachable bookA := ⟨[.add askA], [], rfl⟩

theorem reachable_bookAB : Reachable bookAB := ⟨[.add askA, .add askB], [], rfl⟩

/-- Instance of `price_time_priority` at `askA`, `askB` and the crossing bid `bidC`: the bid
fills 4 units of `askA`, and `askB` stays behind it with its 5 units. -/
theorem price_time_priority_witness :
    ∃ b2 fs, runOps bookAB [.add bidC] = .ok (b2, fs) ∧
      ∃ pre a1 mid post,
        levelQueue b2 "sell" 100 = pre ++ a1 :: (mid ++ askB :: post) ∧
        a1.orderId = "A" := by
  obtain ⟨r, hr, h⟩ := price_time_priority bookA reachable_bookA askA askB (by decide)
    rfl rfl rfl rfl [.add bidC] (by decide)
  have h0 : addOrder bookA askB = .ok ⟨.done, bookAB, []⟩ := rfl
  rw [h0] at hr
  cases hr
  refine h ?_
  intro n bn fs hn
  cases n with
  | zero =>
    simp only [List.take_zero, runOps, Except.ok.injEq, Prod.mk.injEq] at hn
    rw [← hn.1]; decide
  | succ n =>
    have h1 : runOps bookAB [.add bidC] =
        .ok (⟨[], [(100, [{ askA with quantity := 6 }, askB])],
          [("B", askB), ("A", askA)]⟩, [⟨.cross, 4, 100, "C", "A"⟩]) := rfl
    simp only [List.take_succ_cons, List.take_nil] at hn
    rw [h1] at hn
    simp only [Except.ok.injEq, Prod.mk.injEq] at hn
    rw [← hn.1]; decide

/-! ## Trade prices -/

theorem Run.fills_inv {σ : Type} {step : σ → Step σ} (Inv : σ → Prop) (P : Fill → Prop)
    (hnext : ∀ s s1 f, Inv s → step s = .next s1 f → Inv s1 ∧ P f)
    {s s2 : σ} {fs : List Fill} (h : Run step s s2 fs) (hi : Inv s) :
    ∀ f ∈ fs, P f := by
  induction h with
  | exit _ => intro f hf; cases hf
  | next hs _ ih =>
    intro f hf
    obtain ⟨hi1, hp⟩ := hnext _ _ _ hi hs
    rcases List.mem_cons.1 hf with rfl | hf
    · exact hp
    · exact ih hi1 f hf

theorem StemsFrom.refl (m : PriceMap) : StemsFrom m m :=
  fun r hr => ⟨r, hr, rfl, rfl⟩

theorem StemsFrom.settle_stems {m m1 : PriceMap} (nq : Int) (hne : NoEmpty m1)
    (h : StemsFrom m m1) : StemsFrom m (settleFront nq m1) := by
  intro r hr
  rw [sideOrders_settleFront nq hne] at hr
  obtain ⟨r1, hr1, he | he⟩ := mem_settleList hr
  · rw [he]; exact h r1 hr1
  · obtain ⟨r0, hr0, h1, h2⟩ := h r1 hr1
    exact ⟨r0, hr0, by rw [he]; exact h1, by rw [he]; exact h2⟩

theorem mapSet_front {desc : Bool} {p : Int} (q : List Order) {m : PriceMap}
    (h : ∀ k ∈ keys m, keyBefore desc p k = true) : mapSet desc p q m = (p, q) :: m := by
  cases m with
  | nil => rfl
  | cons l m =>
    obtain ⟨k, q0⟩ := l
    have hk := h k (by simp [keys])
    simp only [mapSet]
    rw [if_neg (fun he => keyBefore_ne hk he.symm), if_pos hk]

theorem pushOrder_front {desc : Bool} (o : Order) {m : PriceMap}
    (h : ∀ k ∈ keys m, keyBefore desc o.price k = true) :
    pushOrder desc o m = (o.price, [o]) :: m := by
  unfold pushOrder
  have hnot : o.price ∉ keys m := fun hm => keyBefore_ne (h _ hm) rfl
  rw [mapGet_of_not_mem hnot, mapSet_front _ h]
  rfl

theorem head_mem_keys {k : Int} {q : List Order} {rest m : PriceMap}
    (h : m = (k, q) :: rest) : k ∈ keys m := by
  rw [h]; simp [keys]

/-- A limit buy that crosses the book it is added to stands alone in a new best
bid level. -/
theorem crossing_buy_alone {b b1 : OrderBook} {o : Order} {f : Fill} (hw : WF b)
    (hu : Uncrossed b)
    (h : matchStep { (registered b o) with buyOrders := pushOrder true o b.buyOrders } =
      .next b1 f) :
    pushOrder true o b.buyOrders = (o.price, [o]) :: b.buyOrders := by
  obtain ⟨bp, bo, bq, brest, sp, so, sq, srest, hb, hs, hle, _, _⟩ := matchStep_next h
  simp only [registered] at hb hs
  have hsp : sp ∈ keys b.sellOrders := head_mem_keys hs
  have hmem : (bp, bo :: bq) ∈ pushOrder true o b.buyOrders := by
    rw [hb]; exact List.mem_cons_self _ _
  have hbp : bp = o.price := by
    rcases (mem_pushOrder hw.buy.sorted _).1 hmem with h1 | ⟨h1, _⟩
    · exact congrArg Prod.fst h1
    · have := hu bp (mem_keys_of_mem h1) sp hsp
      omega
  refine pushOrder_front o ?_
  intro k hk
  have := hu k hk sp hsp
  simp [keyBefore]
  omega

/-- A limit sell that crosses the book it is added to stands alone in a new best
ask level. -/
theorem crossing_sell_alone {b b1 : OrderBook} {o : Order} {f : Fill} (hw : WF b)
    (hu : Uncrossed b)
    (h : matchStep { (registered b o) with sellOrders := pushOrder false o b.sellOrders } =
      .next b1 f) :
    pushOrder false o b.sellOrders = (o.price, [o]) :: b.sellOrders := by
  obtain ⟨bp, bo, bq, brest, sp, so, sq, srest, hb, hs, hle, _, _⟩ := matchStep_next h
  simp only [registered] at hb hs
  have hbpk : bp ∈ keys b.buyOrders := head_mem_keys hb
  have hmem : (sp, so :: sq) ∈ pushOrder false o b.sellOrders := by
    rw [hs]; exact List.mem_cons_self _ _
  have hsp : sp = o.price := by
    rcases (mem_pushOrder hw.sell.sorted _).1 hmem with h1 | ⟨h1, _⟩
    · exact congrArg Prod.fst h1
    · have := hu bp hbpk sp (mem_keys_of_mem h1)
      omega
  refine pushOrder_front o ?_
  intro k hk
  have := hu bp hbpk k hk
  simp [keyBefore]
  omega

theorem settleFront_single (nq : Int) (k : Int) (o : Order) (rest : PriceMap) :
    settleFront nq ((k, [o]) :: rest) = rest ∨
      settleFront nq ((k, [o]) :: rest) = (k, [{ o with quantity := nq }]) :: rest := by
  by_cases h : nq = 0
  · left; simp [settleFront, h]
  · right; simp [settleFront, h]

theorem front_price {side : String} {m : PriceMap} {k : Int} {o : Order} {q : List Order}
    {rest : PriceMap} (hl : LevelOK side m) (hm : m = (k, o :: q) :: rest) : o.price = k :=
  (hl (k, o :: q) (by rw [hm]; exact List.mem_cons_self _ _) o (List.mem_cons_self _ _)).2

theorem front_mem {m : PriceMap} {k : Int} {o : Order} {q : List Order} {rest : PriceMap}
    (hm : m = (k, o :: q) :: rest) : o ∈ sideOrders m := by
  rw [hm]; simp [sideOrders]

/-- While a crossing limit buy is matched, every fill is between it and a resting
ask, at the ask's price. -/
theorem buy_fills {b b0 b1 : OrderBook} {o : Order} {fs : List Fill}
    (h : Run matchStep b0 b1 fs) (hw : WF b0)
    (hstem : StemsFrom b.sellOrders b0.sellOrders)
    (hkeys : ∀ kb ∈ keys b.buyOrders, ∀ ka ∈ keys b0.sellOrders, kb < ka)
    (hshape : b0.buyOrders = b.buyOrders ∨
      ∃ o1, o1.orderId = o.orderId ∧ b0.buyOrders = (o.price, [o1]) :: b.buyOrders) :
    ∀ f ∈ fs, f.buyId = o.orderId ∧
      ∃ s ∈ sideOrders b.sellOrders, s.orderId = f.sellId ∧ f.price = s.price := by
  refine h.fills_inv
    (fun s => WF s ∧ StemsFrom b.sellOrders s.sellOrders ∧
      (∀ kb ∈ keys b.buyOrders, ∀ ka ∈ keys s.sellOrders, kb < ka) ∧
      (s.buyOrders = b.buyOrders ∨
        ∃ o1, o1.orderId = o.orderId ∧ s.buyOrders = (o.price, [o1]) :: b.buyOrders))
    _ ?_ ⟨hw, hstem, hkeys, hshape⟩
  rintro s s1 f ⟨hws, hst, hk, hsh⟩ hn
  obtain ⟨bp, bo, bq, brest, sp, so, sq, srest, hb, hs, hle, h1, h2⟩ := matchStep_next hn
  have hsp : sp ∈ keys s.sellOrders := head_mem_keys hs
  rcases hsh with hsh | ⟨o1, ho1, hsh⟩
  · have hbp : bp ∈ keys b.buyOrders := by rw [← hsh]; exact head_mem_keys hb
    have := hk bp hbp sp hsp
    omega
  · rw [hsh] at hb
    simp only [List.cons.injEq, Prod.mk.injEq] at hb
    obtain ⟨⟨_, hq⟩, _⟩ := hb
    have hbo : bo = o1 := hq.1.symm
    refine ⟨⟨matchStep_wf hws hn, ?_, ?_, ?_⟩, ?_⟩
    · rw [h1]; exact hst.settle_stems _ hws.sell.noEmpty
    · intro kb hkb ka hka
      rw [h1] at hka
      exact hk kb hkb ka ((keys_settleFront_sublist _ _).subset hka)
    · rw [h1]
      simp only [settleSell, settleBuy]
      rw [hsh]
      rcases settleFront_single (wrap32 (bo.quantity - min bo.quantity so.quantity)) o.price
        o1 b.buyOrders with h3 | h3
      · exact Or.inl h3
      · exact Or.inr ⟨{ o1 with
          quantity := wrap32 (bo.quantity - min bo.quantity so.quantity) }, ho1, h3⟩
    · rw [h2]
      refine ⟨by rw [hbo]; exact ho1, ?_⟩
      obtain ⟨s0, hs0, h3, h4⟩ := hst so (front_mem hs)
      exact ⟨s0, hs0, h3, by rw [h4]; exact (front_price hws.sell.levelOK hs).symm⟩

/-- While a crossing limit sell is matched, every fill is between it and a
resting bid, at the price of the incoming sell. -/
theorem sell_fills {b b0 b1 : OrderBook} {o : Order} {fs : List Fill}
    (h : Run matchStep b0 b1 fs) (hw : WF b0)
    (hstem : StemsFrom b.buyOrders b0.buyOrders)
    (hkeys : ∀ kb ∈ keys b0.buyOrders, ∀ ka ∈ keys b.sellOrders, kb < ka)
    (hshape : b0.sellOrders = b.sellOrders ∨
      ∃ o1, o1.orderId = o.orderId ∧ b0.sellOrders = (o.price, [o1]) :: b.sellOrders) :
    ∀ f ∈ fs, f.sellId = o.orderId ∧ f.price = o.price ∧
      ∃ s ∈ sideOrders b.buyOrders, s.orderId = f.buyId ∧ o.price ≤ s.price := by
  refine h.fills_inv
    (fun s => WF s ∧ StemsFrom b.buyOrders s.buyOrders ∧
      (∀ kb ∈ keys s.buyOrders, ∀ ka ∈ keys b.sellOrders, kb < ka) ∧
      (s.sellOrders = b.sellOrders ∨
        ∃ o1, o1.orderId = o.orderId ∧ s.sellOrders = (o.price, [o1]) :: b.sellOrders))
    _ ?_ ⟨hw, hstem, hkeys, hshape⟩
  rintro s s1 f ⟨hws, hst, hk, hsh⟩ hn
  obtain ⟨bp, bo, bq, brest, sp, so, sq, srest, hb, hs, hle, h1, h2⟩ := matchStep_next hn
  have hbp : bp ∈ keys s.buyOrders := head_mem_keys hb
  rcases hsh with hsh | ⟨o1, ho1, hsh⟩
  · have hsp : sp ∈ keys b.sellOrders := by rw [← hsh]; exact head_mem_keys hs
    have := hk bp hbp sp hsp
    omega
  · rw [hsh] at hs
    simp only [List.cons.injEq, Prod.mk.injEq] at hs
    obtain ⟨⟨hspe, hq⟩, _⟩ := hs
    have hso : so = o1 := hq.1.symm
    refine ⟨⟨matchStep_wf hws hn, ?_, ?_, ?_⟩, ?_⟩
    · rw [h1]; exact hst.settle_stems _ hws.buy.noEmpty
    · intro kb hkb ka hka
      rw [h1] at hkb
      exact hk kb ((keys_settleFront_sublist _ _).subset hkb) ka hka
    · rw [h1]
      simp only [settleSell, settleBuy]
      rw [hsh]
      rcases settleFront_single (wrap32 (so.quantity - min bo.quantity so.quantity)) o.price
        o1 b.sellOrders with h3 | h3
      · exact Or.inl h3
      · exact Or.inr ⟨{ o1 with
          quantity := wrap32 (so.quantity - min bo.quantity so.quantity) }, ho1, h3⟩
    · rw [h2]
      refine ⟨by rw [hso]; exact ho1, hspe.symm, ?_⟩
      obtain ⟨s0, hs0, h3, h4⟩ := hst bo (front_mem hb)
      refine ⟨s0, hs0, h3, ?_⟩
      rw [h4, front_price hws.buy.levelOK hb, hspe]
      exact hle

/-- C3, amended (trade price is the ask-side price): for a reachable (hence
uncrossed) book and an incoming limit order, `addOrder` returns and
every fill of the call is priced at the price of the ask in the fill.  For an
incoming buy the fill is between the incoming order and a resting ask, at that
resting ask's price; for an incoming sell the fill is between a resting bid and
the incoming order, at the incoming order's own limit price, which the resting
bid's price is at least. -/
theorem trade_price_is_ask_price (b : OrderBook) (hb : Reachable b) (o : Order)
    (hlimit : o.type = "limit") :
    ∃ r, addOrder b o = .ok r ∧ ∀ f ∈ r.fills,
      (o.side = "buy" → f.buyId = o.orderId ∧
        ∃ s ∈ sideOrders b.sellOrders, s.orderId = f.sellId ∧ f.price = s.price) ∧
      (o.side = "sell" → f.sellId = o.orderId ∧ f.price = o.price ∧
        ∃ s ∈ sideOrders b.buyOrders, s.orderId = f.buyId ∧ o.price ≤ s.price) := by
  obtain ⟨hw, hu⟩ := hb.wf_uncrossed
  obtain ⟨r, h1, h2⟩ := addOrder_spec o hw
  refine ⟨r, h1, ?_⟩
  cases h2 with
  | duplicate hd => intro f hf; cases hf
  | limitBuy hid _ hside hr =>
    intro f hf
    refine ⟨fun _ => ?_, fun hs => absurd (hside.symm.trans hs) buy_ne_sell⟩
    cases hr with
    | exit _ => cases hf
    | next hstep hrest =>
      have hfront := crossing_buy_alone hw hu hstep
      refine buy_fills (b := b) (o := o) (Run.next hstep hrest) (hw.pushBuy hid hside)
        (StemsFrom.refl _) hu (Or.inr ⟨o, rfl, hfront⟩) f hf
  | limitSell hid _ hside hr =>
    intro f hf
    refine ⟨fun hs => absurd (hs.symm.trans hside) buy_ne_sell, fun _ => ?_⟩
    cases hr with
    | exit _ => cases hf
    | next hstep hrest =>
      have hfront := crossing_sell_alone hw hu hstep
      refine sell_fills (b := b) (o := o) (Run.next hstep hrest) (hw.pushSell hid hside)
        (StemsFrom.refl _) hu (Or.inr ⟨o, rfl, hfront⟩) f hf
  | marketBuy _ hm _ _ _ => exact absurd (hlimit.symm.trans hm) limit_ne_market
  | marketSell _ hm _ _ _ => exact absurd (hlimit.symm.trans hm) limit_ne_market
  | invalidSide _ _ _ _ => intro f hf; cases hf
  | invalidType _ _ _ => intro f hf; cases hf

theorem reachable_bookBid : Reachable bookBid := ⟨[.add restingBid], [], rfl⟩

/-- C3 fails for an incoming sell: a limit sell at 99 against the resting bid at
100 is filled at 99, the incoming order's price, not at the resting order's 100. -/
theorem trade_price_counterexample :
    Reachable bookBid ∧ restingBid ∈ restingOrders bookBid ∧
      addOrder bookBid askLow = .ok ⟨.done, emptyBook, [⟨.cross, 5, 99, "BID", "ASK"⟩]⟩ ∧
      ¬ (∀ r, addOrder bookBid askLow = .ok r →
          ∀ f ∈ r.fills, f.buyId = restingBid.orderId → f.price = restingBid.price) := by
  refine ⟨reachable_bookBid, by decide, rfl, ?_⟩
  intro h
  have h1 := h ⟨.done, emptyBook, [⟨.cross, 5, 99, "BID", "ASK"⟩]⟩ rfl
    ⟨.cross, 5, 99, "BID", "ASK"⟩ (List.mem_cons_self _ _) rfl
  exact absurd h1 (by decide)

/-- Instance of `trade_price_is_ask_price` at the resting bid at 100 and the incoming sell at
99. -/
theorem trade_price_witness :
    Reachable bookBid ∧ askLow.type = "limit" ∧
      ∃ r, addOrder bookBid askLow = .ok r ∧ ∀ f ∈ r.fills,
        (askLow.side = "buy" → f.buyId = askLow.orderId ∧
          ∃ s ∈ sideOrders bookBid.sellOrders, s.orderId = f.sellId ∧ f.price = s.price) ∧
        (askLow.side = "sell" → f.sellId = askLow.orderId ∧ f.price = askLow.price ∧
          ∃ s ∈ sideOrders bookBid.buyOrders, s.orderId = f.buyId ∧ askLow.price ≤ s.price) :=
  ⟨reachable_bookBid, rfl, trade_price_is_ask_price bookBid reachable_bookBid askLow rfl⟩

/-! ## Quantity accounting -/

theorem filledFor_nil (x : String) : filledFor x [] = 0 := rfl

theorem filledFor_cons (x : String) (f : Fill) (fs : List Fill) :
    filledFor x (f :: fs) = fillWeight x f + filledFor x fs := by
  simp [filledFor]

theorem filledFor_append (x : String) (fs gs : List Fill) :
    filledFor x (fs ++ gs) = filledFor x fs + filledFor x gs := by
  simp [filledFor]

theorem remOf_nil (x : String) : remOf x [] = 0 := rfl

theorem remOf_cons (x : String) (o : Order) (l : List Order) :
    remOf x (o :: l) = (if o.orderId = x then o.quantity else 0) + remOf x l := by
  by_cases h : o.orderId = x
  · simp [remOf, List.filter_cons, h]
  · simp [remOf, List.filter_cons, h]

theorem remOf_append (x : String) (l1 l2 : List Order) :
    remOf x (l1 ++ l2) = remOf x l1 + remOf x l2 := by
  simp [remOf]

theorem remOf_perm (x : String) {l1 l2 : List Order} (h : l1.Perm l2) :
    remOf x l1 = remOf x l2 :=
  ((h.filter _).map _).sum_eq

theorem remOf_sublist (x : String) {l1 l2 : List Order} (h : l1.Sublist l2)
    (hpos : ∀ r ∈ l2, 0 ≤ r.quantity) : remOf x l1 ≤ remOf x l2 := by
  induction h with
  | slnil => exact le_refl _
  | cons a _ ih =>
    rw [remOf_cons]
    have h1 := ih (fun r hr => hpos r (List.mem_cons_of_mem _ hr))
    have h2 := hpos a (List.mem_cons_self _ _)
    split <;> omega
  | cons₂ a _ ih =>
    rw [remOf_cons, remOf_cons]
    have h1 := ih (fun r hr => hpos r (List.mem_cons_of_mem _ hr))
    omega

theorem remOf_eq_zero (x : String) {l : List Order} (h : ∀ r ∈ l, r.orderId ≠ x) :
    remOf x l = 0 := by
  induction l with
  | nil => rfl
  | cons o l ih =>
    rw [remOf_cons, if_neg (h o (List.mem_cons_self _ _)),
      ih (fun r hr => h r (List.mem_cons_of_mem _ hr))]
    rfl

theorem remOf_nonneg (x : String) {l : List Order} (hpos : ∀ r ∈ l, 0 ≤ r.quantity) :
    0 ≤ remOf x l := by
  induction l with
  | nil => exact le_refl _
  | cons o l ih =>
    rw [remOf_cons]
    have h1 := ih (fun r hr => hpos r (List.mem_cons_of_mem _ hr))
    have h2 := hpos o (List.mem_cons_self _ _)
    split <;> omega

theorem remOf_settleList (x : String) (nq : Int) (o : Order) (t : List Order) :
    remOf x (settleList nq (o :: t)) =
      remOf x (o :: t) - (if o.orderId = x then o.quantity - nq else 0) := by
  simp only [settleList]
  by_cases h0 : nq = 0
  · rw [if_pos h0, remOf_cons, h0]
    split <;> omega
  · rw [if_neg h0, remOf_cons, remOf_cons]
    simp only
    split <;> omega

theorem remOf_settleFront (x : String) (nq : Int) {m : PriceMap} {k : Int} {o : Order}
    {q : List Order} {rest : PriceMap} (hne : NoEmpty m) (hm : m = (k, o :: q) :: rest) :
    remOf x (sideOrders (settleFront nq m)) =
      remOf x (sideOrders m) - (if o.orderId = x then o.quantity - nq else 0) := by
  rw [sideOrders_settleFront nq hne]
  have : sideOrders m = o :: (q ++ sideOrders rest) := by rw [hm]; rfl
  rw [this]
  exact remOf_settleList x nq o _

/-- What is left of a positive quantity after a positive fill is taken from it. -/
theorem wrap32_sub_fill {q m : Int} (hq : 0 < q ∧ q < 2147483648) (hm : 0 < m ∧ m ≤ q) :
    wrap32 (q - m) = q - m := by
  unfold wrap32; omega

theorem posQty_settleList {nq : Int} {l : List Order} (hl : ∀ r ∈ l, PosQty r)
    (hnq : nq = 0 ∨ (0 < nq ∧ nq < 2147483648)) : ∀ r ∈ settleList nq l, PosQty r := by
  intro r hr
  cases l with
  | nil => cases hr
  | cons o t =>
    simp only [settleList] at hr
    by_cases h0 : nq = 0
    · rw [if_pos h0] at hr
      exact hl r (List.mem_cons_of_mem _ hr)
    · rw [if_neg h0] at hr
      rcases List.mem_cons.1 hr with he | hr
      · rw [he]
        rcases hnq with h | h
        · exact absurd h h0
        · exact h
      · exact hl r (List.mem_cons_of_mem _ hr)

theorem PosBook.buy_side {b : OrderBook} (h : PosBook b) :
    ∀ r ∈ sideOrders b.buyOrders, PosQty r :=
  fun r hr => h r (List.mem_append_left _ hr)

theorem PosBook.sell_side {b : OrderBook} (h : PosBook b) :
    ∀ r ∈ sideOrders b.sellOrders, PosQty r :=
  fun r hr => h r (List.mem_append_right _ hr)

theorem posBook_of_sides {b : OrderBook} (h1 : ∀ r ∈ sideOrders b.buyOrders, PosQty r)
    (h2 : ∀ r ∈ sideOrders b.sellOrders, PosQty r) : PosBook b := by
  intro r hr
  rcases List.mem_append.1 hr with hr | hr
  · exact h1 r hr
  · exact h2 r hr

theorem PosBook.settle_buy_pos {b : OrderBook} {nq : Int} (id : String) (hw : WF b)
    (h : PosBook b) (hnq : nq = 0 ∨ (0 < nq ∧ nq < 2147483648)) :
    PosBook (settleBuy nq id b) := by
  refine posBook_of_sides ?_ h.sell_side
  simp only [settleBuy]
  rw [sideOrders_settleFront nq hw.buy.noEmpty]
  exact posQty_settleList h.buy_side hnq

theorem PosBook.settle_sell_pos {b : OrderBook} {nq : Int} (id : String) (hw : WF b)
    (h : PosBook b) (hnq : nq = 0 ∨ (0 < nq ∧ nq < 2147483648)) :
    PosBook (settleSell nq id b) := by
  refine posBook_of_sides h.buy_side ?_
  simp only [settleSell]
  rw [sideOrders_settleFront nq hw.sell.noEmpty]
  exact posQty_settleList h.sell_side hnq

/-- The quantity left after a fill of `min q q1` is zero or again positive. -/
theorem left_after_fill {q q1 : Int} (hq : 0 < q ∧ q < 2147483648) (hq1 : 0 < q1) :
    wrap32 (q - min q q1) = q - min q q1 ∧
      (wrap32 (q - min q q1) = 0 ∨
        (0 < wrap32 (q - min q q1) ∧ wrap32 (q - min q q1) < 2147483648)) := by
  have h1 : 0 < min q q1 ∧ min q q1 ≤ q := ⟨lt_min hq.1 hq1, min_le_left _ _⟩
  rw [wrap32_sub_fill hq h1]
  refine ⟨rfl, ?_⟩
  omega

theorem left_after_fill_right {q q1 : Int} (hq : 0 < q) (hq1 : 0 < q1 ∧ q1 < 2147483648) :
    wrap32 (q1 - min q q1) = q1 - min q q1 ∧
      (wrap32 (q1 - min q q1) = 0 ∨
        (0 < wrap32 (q1 - min q q1) ∧ wrap32 (q1 - min q q1) < 2147483648)) := by
  rw [min_comm]; exact left_after_fill hq1 hq

theorem Run.acct {σ : Type} {step : σ → Step σ} (Inv : σ → Prop) (w : Fill → Int)
    (μ : σ → Int)
    (hnext : ∀ s s1 f, Inv s → step s = .next s1 f → Inv s1 ∧ 0 < f.quantity ∧ w f + μ s1 = μ s)
    {s s2 : σ} {fs : List Fill} (h : Run step s s2 fs) (hi : Inv s) :
    Inv s2 ∧ (∀ f ∈ fs, 0 < f.quantity) ∧ (fs.map w).sum + μ s2 = μ s := by
  induction h with
  | exit _ =>
    refine ⟨hi, ?_, by simp⟩
    intro f hf
    cases hf
  | next hs _ ih =>
    obtain ⟨hi1, hp, he⟩ := hnext _ _ _ hi hs
    obtain ⟨hi2, hp2, he2⟩ := ih hi1
    refine ⟨hi2, ?_, ?_⟩
    · intro f hf
      rcases List.mem_cons.1 hf with rfl | hf
      · exact hp
      · exact hp2 f hf
    · simp only [List.map_cons, List.sum_cons]
      omega

theorem remOf_settleBuy (x : String) (nq : Int) {b : OrderBook} {k : Int} {o : Order}
    {q : List Order} {rest : PriceMap} (hw : WF b) (hb : b.buyOrders = (k, o :: q) :: rest) :
    remOf x (restingOrders (settleBuy nq o.orderId b)) =
      remOf x (restingOrders b) - (if o.orderId = x then o.quantity - nq else 0) := by
  simp only [restingOrders, settleBuy, remOf_append]
  rw [remOf_settleFront x nq hw.buy.noEmpty hb]
  omega

theorem remOf_settleSell (x : String) (nq : Int) {b : OrderBook} {k : Int} {o : Order}
    {q : List Order} {rest : PriceMap} (hw : WF b) (hs : b.sellOrders = (k, o :: q) :: rest) :
    remOf x (restingOrders (settleSell nq o.orderId b)) =
      remOf x (restingOrders b) - (if o.orderId = x then o.quantity - nq else 0) := by
  simp only [restingOrders, settleSell, remOf_append]
  rw [remOf_settleFront x nq hw.sell.noEmpty hs]
  omega

theorem matchStep_acct (x : String) {b b1 : OrderBook} {f : Fill} (hw : WF b)
    (hp : PosBook b) (h : matchStep b = .next b1 f) :
    (WF b1 ∧ PosBook b1) ∧ 0 < f.quantity ∧
      fillWeight x f + remOf x (restingOrders b1) = remOf x (restingOrders b) := by
  obtain ⟨bp, bo, bq, brest, sp, so, sq, srest, hb, hs, _, h1, h2⟩ := matchStep_next h
  have hbo : PosQty bo := hp.buy_side bo (front_mem hb)
  have hso : PosQty so := hp.sell_side so (front_mem hs)
  obtain ⟨e1, c1⟩ := left_after_fill hbo hso.1
  obtain ⟨e2, c2⟩ := left_after_fill_right hbo.1 hso
  have hw1 := hw.settle_buy_wf (wrap32 (bo.quantity - min bo.quantity so.quantity)) hb
  have hs1 : (settleBuy (wrap32 (bo.quantity - min bo.quantity so.quantity)) bo.orderId
      b).sellOrders = (sp, so :: sq) :: srest := hs
  refine ⟨⟨matchStep_wf hw h, ?_⟩, ?_, ?_⟩
  · rw [h1]
    exact (hp.settle_buy_pos _ hw c1).settle_sell_pos _ hw1 c2
  · rw [h2]; exact lt_min hbo.1 hso.1
  · rw [h1, remOf_settleSell x _ hw1 hs1, remOf_settleBuy x _ hw hb, h2, e1, e2]
    simp only [fillWeight]
    split <;> split <;> omega

theorem Run.matchOrders_acct (x : String) {b b1 : OrderBook} {fs : List Fill}
    (h : Run matchStep b b1 fs) (hw : WF b) (hp : PosBook b) :
    (WF b1 ∧ PosBook b1) ∧ (∀ f ∈ fs, 0 < f.quantity) ∧
      filledFor x fs + remOf x (restingOrders b1) = remOf x (restingOrders b) :=
  h.acct (fun b => WF b ∧ PosBook b) (fillWeight x) (fun b => remOf x (restingOrders b))
    (fun _ _ _ hi hn => matchStep_acct x hi.1 hi.2 hn) ⟨hw, hp⟩

theorem marketBuyStep_acct (x : String) {id : String} {s s1 : OrderBook × Int} {f : Fill}
    (hw : WF s.1) (hp : PosBook s.1) (hq : 0 ≤ s.2 ∧ s.2 < 2147483648)
    (h : marketBuyStep id s = .next s1 f) :
    (WF s1.1 ∧ PosBook s1.1 ∧ 0 ≤ s1.2 ∧ s1.2 < 2147483648) ∧ 0 < f.quantity ∧
      fillWeight x f + (remOf x (restingOrders s1.1) + (if id = x then s1.2 else 0)) =
        remOf x (restingOrders s.1) + (if id = x then s.2 else 0) := by
  obtain ⟨sp, so, sq, srest, hs, hpos, h1, h2⟩ := marketBuyStep_next h
  have hso : PosQty so := hp.sell_side so (front_mem hs)
  obtain ⟨e1, c1⟩ := @left_after_fill s.2 so.quantity ⟨hpos, hq.2⟩ hso.1
  obtain ⟨e2, c2⟩ := left_after_fill_right hpos hso
  refine ⟨⟨marketBuyStep_wf hw h, ?_, ?_, ?_⟩, ?_, ?_⟩
  · rw [h1]; exact hp.settle_sell_pos _ hw c2
  · rw [h1]; simp only; rcases c1 with c | c <;> omega
  · rw [h1]; simp only; rcases c1 with c | c <;> omega
  · rw [h2]; exact lt_min hpos hso.1
  · rw [h1]
    simp only
    rw [remOf_settleSell x _ hw hs, h2, e1, e2]
    simp only [fillWeight]
    split <;> split <;> omega

theorem marketSellStep_acct (x : String) {id : String} {s s1 : OrderBook × Int} {f : Fill}
    (hw : WF s.1) (hp : PosBook s.1) (hq : 0 ≤ s.2 ∧ s.2 < 2147483648)
    (h : marketSellStep id s = .next s1 f) :
    (WF s1.1 ∧ PosBook s1.1 ∧ 0 ≤ s1.2 ∧ s1.2 < 2147483648) ∧ 0 < f.quantity ∧
      fillWeight x f + (remOf x (restingOrders s1.1) + (if id = x then s1.2 else 0)) =
        remOf x (restingOrders s.1) + (if id = x then s.2 else 0) := by
  obtain ⟨bp, bo, bq, brest, hb, hpos, h1, h2⟩ := marketSellStep_next h
  have hbo : PosQty bo := hp.buy_side bo (front_mem hb)
  obtain ⟨e1, c1⟩ := @left_after_fill s.2 bo.quantity ⟨hpos, hq.2⟩ hbo.1
  obtain ⟨e2, c2⟩ := left_after_fill_right hpos hbo
  refine ⟨⟨marketSellStep_wf hw h, ?_, ?_, ?_⟩, ?_, ?_⟩
  · rw [h1]; exact hp.settle_buy_pos _ hw c2
  · rw [h1]; simp only; rcases c1 with c | c <;> omega
  · rw [h1]; simp only; rcases c1 with c | c <;> omega
  · rw [h2]; exact lt_min hpos hbo.1
  · rw [h1]
    simp only
    rw [remOf_settleBuy x _ hw hb, h2, e1, e2]
    simp only [fillWeight]
    split <;> split <;> omega

theorem Run.marketBuy_acct (x : String) {id : String} {s s1 : OrderBook × Int}
    {fs : List Fill} (h : Run (marketBuyStep id) s s1 fs) (hw : WF s.1) (hp : PosBook s.1)
    (hq : 0 ≤ s.2 ∧ s.2 < 2147483648) :
    (WF s1.1 ∧ PosBook s1.1 ∧ 0 ≤ s1.2 ∧ s1.2 < 2147483648) ∧ (∀ f ∈ fs, 0 < f.quantity) ∧
      filledFor x fs + (remOf x (restingOrders s1.1) + (if id = x then s1.2 else 0)) =
        remOf x (restingOrders s.1) + (if id = x then s.2 else 0) :=
  h.acct (fun s => WF s.1 ∧ PosBook s.1 ∧ 0 ≤ s.2 ∧ s.2 < 2147483648) (fillWeight x)
    (fun s => remOf x (restingOrders s.1) + (if id = x then s.2 else 0))
    (fun _ _ _ hi hn => marketBuyStep_acct x hi.1 hi.2.1 hi.2.2 hn) ⟨hw, hp, hq⟩

theorem Run.marketSell_acct (x : String) {id : String} {s s1 : OrderBook × Int}
    {fs : List Fill} (h : Run (marketSellStep id) s s1 fs) (hw : WF s.1) (hp : PosBook s.1)
    (hq : 0 ≤ s.2 ∧ s.2 < 2147483648) :
    (WF s1.1 ∧ PosBook s1.1 ∧ 0 ≤ s1.2 ∧ s1.2 < 2147483648) ∧ (∀ f ∈ fs, 0 < f.quantity) ∧
      filledFor x fs + (remOf x (restingOrders s1.1) + (if id = x then s1.2 else 0)) =
        remOf x (restingOrders s.1) + (if id = x then s.2 else 0) :=
  h.acct (fun s => WF s.1 ∧ PosBook s.1 ∧ 0 ≤ s.2 ∧ s.2 < 2147483648) (fillWeight x)
    (fun s => remOf x (restingOrders s.1) + (if id = x then s.2 else 0))
    (fun _ _ _ hi hn => marketSellStep_acct x hi.1 hi.2.1 hi.2.2 hn) ⟨hw, hp, hq⟩

theorem PosQty.qty_nonneg {o : Order} (h : PosQty o) : 0 ≤ o.quantity := le_of_lt h.1

theorem PosBook.resting_nonneg {b : OrderBook} (h : PosBook b) :
    ∀ r ∈ restingOrders b, 0 ≤ r.quantity := fun r hr => (h r hr).qty_nonneg

theorem mem_sideOrders_of_cancelSide {desc : Bool} {p : Int} {id : String} {m : PriceMap}
    (hs : SortedKeys desc m) {r : Order} (h : r ∈ sideOrders (cancelSide desc p id m)) :
    r ∈ sideOrders m := by
  rcases (mem_sideOrders_cancelSide hs).1 h with h1 | h1
  · exact (mem_sideOrders_split p hs).2 (Or.inl h1.1)
  · exact (mem_sideOrders_split p hs).2 (Or.inr h1)

theorem remOf_cancelSide_le (x : String) {desc : Bool} (p : Int) (id : String) {m : PriceMap}
    (hs : SortedKeys desc m) (hpos : ∀ r ∈ sideOrders m, 0 ≤ r.quantity) :
    remOf x (sideOrders (cancelSide desc p id m)) ≤ remOf x (sideOrders m) := by
  rw [remOf_perm x (sideOrders_cancelSide_perm p id hs),
    remOf_perm x (sideOrders_perm_split p hs)]
  refine remOf_sublist x (List.Sublist.append (List.filter_sublist _) (List.Sublist.refl _)) ?_
  intro r hr
  exact hpos r ((sideOrders_perm_split p hs).symm.subset hr)

theorem cancelOrder_acct (x : String) {b : OrderBook} (id : String) (hw : WF b)
    (hp : PosBook b) :
    PosBook (cancelOrder b id).2 ∧
      remOf x (restingOrders (cancelOrder b id).2) ≤ remOf x (restingOrders b) := by
  unfold cancelOrder
  cases he : indexFind id b.activeOrders with
  | none => exact ⟨hp, le_refl _⟩
  | some e =>
    simp only
    by_cases hb : e.side = "buy"
    · rw [if_pos hb]
      refine ⟨posBook_of_sides
        (fun r hr => hp.buy_side r (mem_sideOrders_of_cancelSide hw.buy.sorted hr))
        hp.sell_side, ?_⟩
      simp only [restingOrders, remOf_append]
      have := remOf_cancelSide_le x e.price id hw.buy.sorted
        (fun r hr => (hp.buy_side r hr).qty_nonneg)
      omega
    · rw [if_neg hb]
      by_cases hs : e.side = "sell"
      · rw [if_pos hs]
        refine ⟨posBook_of_sides hp.buy_side
          (fun r hr => hp.sell_side r (mem_sideOrders_of_cancelSide hw.sell.sorted hr)), ?_⟩
        simp only [restingOrders, remOf_append]
        have := remOf_cancelSide_le x e.price id hw.sell.sorted
          (fun r hr => (hp.sell_side r hr).qty_nonneg)
        omega
      · rw [if_neg hs]; exact ⟨hp, le_refl _⟩

theorem removeExpiredOrders_acct (x : String) {b : OrderBook} (now : Int) (hp : PosBook b) :
    PosBook (removeExpiredOrders b now) ∧
      remOf x (restingOrders (removeExpiredOrders b now)) ≤ remOf x (restingOrders b) := by
  have hsub : (restingOrders (removeExpiredOrders b now)).Sublist (restingOrders b) :=
    List.Sublist.append (sideOrders_sweepSide_sublist now _)
      (sideOrders_sweepSide_sublist now _)
  exact ⟨fun r hr => hp r (hsub.subset hr), remOf_sublist x hsub hp.resting_nonneg⟩

theorem restingOrders_pushBuy_perm {b : OrderBook} (o : Order) (hw : WF b) :
    (restingOrders { (registered b o) with buyOrders := pushOrder true o b.buyOrders }).Perm
      (o :: restingOrders b) := by
  simp only [restingOrders, registered]
  exact (List.Perm.append_right _ (sideOrders_pushOrder_perm o hw.buy.sorted))

theorem restingOrders_pushSell_perm {b : OrderBook} (o : Order) (hw : WF b) :
    (restingOrders { (registered b o) with sellOrders := pushOrder false o b.sellOrders }).Perm
      (o :: restingOrders b) := by
  simp only [restingOrders, registered]
  refine (List.Perm.append_left _ (sideOrders_pushOrder_perm o hw.sell.sorted)).trans ?_
  exact List.perm_middle

theorem AddSpec.acct_raw (x : String) {b : OrderBook} {o : Order} {r : AddResult}
    (h : AddSpec b o r) (hw : WF b) (hp : PosBook b) (hq : PosQty o) :
    PosBook r.book ∧ (∀ f ∈ r.fills, 0 < f.quantity) ∧
      filledFor x r.fills + remOf x (restingOrders r.book) ≤
        remOf x (restingOrders b) + (if o.orderId = x then o.quantity else 0) := by
  have hq0 := hq.qty_nonneg
  have hnone : ∀ f ∈ ([] : List Fill), 0 < f.quantity := fun f hf => by cases hf
  cases h with
  | duplicate _ =>
    refine ⟨hp, hnone, ?_⟩
    simp only [filledFor_nil]; split <;> omega
  | limitBuy hid _ hside hr =>
    have hperm := restingOrders_pushBuy_perm o hw
    have hp0 : PosBook { (registered b o) with buyOrders := pushOrder true o b.buyOrders } := by
      intro r hr
      rcases List.mem_cons.1 (hperm.subset hr) with h1 | h1
      · rw [h1]; exact hq
      · exact hp r h1
    obtain ⟨⟨_, hp1⟩, hf, he⟩ := hr.matchOrders_acct x (hw.pushBuy hid hside) hp0
    refine ⟨hp1, hf, ?_⟩
    rw [remOf_perm x hperm, remOf_cons] at he
    simp only; omega
  | limitSell hid _ hside hr =>
    have hperm := restingOrders_pushSell_perm o hw
    have hp0 : PosBook { (registered b o) with sellOrders := pushOrder false o b.sellOrders } := by
      intro r hr
      rcases List.mem_cons.1 (hperm.subset hr) with h1 | h1
      · rw [h1]; exact hq
      · exact hp r h1
    obtain ⟨⟨_, hp1⟩, hf, he⟩ := hr.matchOrders_acct x (hw.pushSell hid hside) hp0
    refine ⟨hp1, hf, ?_⟩
    rw [remOf_perm x hperm, remOf_cons] at he
    simp only; omega
  | marketBuy hid _ _ h1 h2 =>
    obtain ⟨⟨hw1, hp1, hs0, _⟩, hf1, he1⟩ :=
      h1.marketBuy_acct x (hw.register_wf o hid) hp ⟨hq0, hq.2⟩
    obtain ⟨⟨_, hp2⟩, hf2, he2⟩ := h2.matchOrders_acct x hw1 hp1
    refine ⟨hp2, ?_, ?_⟩
    · intro f hf
      rcases List.mem_append.1 hf with hf | hf
      · exact hf1 f hf
      · exact hf2 f hf
    · simp only [filledFor_append]
      have he1' : filledFor x _ + (remOf x (restingOrders _) + _) =
          remOf x (restingOrders b) + (if o.orderId = x then o.quantity else 0) := he1
      by_cases hx : o.orderId = x
      · simp only [if_pos hx] at he1' ⊢; omega
      · simp only [if_neg hx] at he1' ⊢; omega
  | marketSell hid _ _ h1 h2 =>
    obtain ⟨⟨hw1, hp1, hs0, _⟩, hf1, he1⟩ :=
      h1.marketSell_acct x (hw.register_wf o hid) hp ⟨hq0, hq.2⟩
    obtain ⟨⟨_, hp2⟩, hf2, he2⟩ := h2.matchOrders_acct x hw1 hp1
    refine ⟨hp2, ?_, ?_⟩
    · intro f hf
      rcases List.mem_append.1 hf with hf | hf
      · exact hf1 f hf
      · exact hf2 f hf
    · simp only [filledFor_append]
      have he1' : filledFor x _ + (remOf x (restingOrders _) + _) =
          remOf x (restingOrders b) + (if o.orderId = x then o.quantity else 0) := he1
      by_cases hx : o.orderId = x
      · simp only [if_pos hx] at he1' ⊢; omega
      · simp only [if_neg hx] at he1' ⊢; omega
  | invalidSide _ _ _ _ =>
    refine ⟨hp, hnone, ?_⟩
    simp only [filledFor_nil, registered, restingOrders]; split <;> omega
  | invalidType _ _ _ =>
    refine ⟨hp, hnone, ?_⟩
    simp only [filledFor_nil, registered, restingOrders]; split <;> omega

theorem AddSpec.fresh_or_duplicate {b : OrderBook} {o : Order} {r : AddResult}
    (h : AddSpec b o r) :
    (indexHas o.orderId b.activeOrders = true ∧ r = ⟨.duplicate, b, []⟩) ∨
      indexHas o.orderId b.activeOrders = false := by
  cases h with
  | duplicate hd => exact Or.inl ⟨hd, rfl⟩
  | limitBuy hid _ _ _ => exact Or.inr hid
  | limitSell hid _ _ _ => exact Or.inr hid
  | marketBuy hid _ _ _ _ => exact Or.inr hid
  | marketSell hid _ _ _ _ => exact Or.inr hid
  | invalidSide hid _ _ _ => exact Or.inr hid
  | invalidType hid _ _ => exact Or.inr hid

theorem AddSpec.acct_add (x : String) {b : OrderBook} {o : Order} {r : AddResult}
    (h : AddSpec b o r) (hw : WF b) (hp : PosBook b) (hq : PosQty o) :
    PosBook r.book ∧ (∀ f ∈ r.fills, 0 < f.quantity) ∧
      filledFor x r.fills + remOf x (restingOrders r.book) ≤
        remOf x (restingOrders b) + acceptedBy x b (.add o) := by
  obtain ⟨hp1, hf, he⟩ := h.acct_raw x hw hp hq
  refine ⟨hp1, hf, ?_⟩
  simp only [acceptedBy]
  rcases h.fresh_or_duplicate with ⟨hd, hr⟩ | hid
  · have hq0 := hq.1
    subst hr
    simp only [filledFor_nil]
    split <;> omega
  · by_cases hx : o.orderId = x
    · rw [if_pos hx] at he
      rw [if_pos ⟨hx, hx ▸ hid⟩]
      exact he
    · rw [if_neg hx] at he
      rw [if_neg (fun hc => hx hc.1)]
      exact he

theorem accepted_cons (x : String) (b : OrderBook) (op : Op) (ops : List Op) {b1 : OrderBook}
    {fs : List Fill} (h : applyOp b op = .ok (b1, fs)) :
    accepted x b (op :: ops) = acceptedBy x b op + accepted x b1 ops := by
  simp only [accepted, h]

theorem no_fills_pos : ∀ f ∈ ([] : List Fill), 0 < f.quantity := by
  intro f hf; cases hf

theorem posBook_emptyBook : PosBook emptyBook := by
  intro r hr; cases hr

theorem applyOp_acct (x : String) {b : OrderBook} (op : Op) (hw : WF b) (hp : PosBook b)
    (hop : ∀ o, op = Op.add o → PosQty o) :
    ∃ b1 fs, applyOp b op = .ok (b1, fs) ∧ WF b1 ∧ PosBook b1 ∧ (∀ f ∈ fs, 0 < f.quantity) ∧
      filledFor x fs + remOf x (restingOrders b1) ≤
        remOf x (restingOrders b) + acceptedBy x b op := by
  cases op with
  | add o =>
    obtain ⟨r, h1, h2⟩ := addOrder_spec o hw
    obtain ⟨hp1, hf, he⟩ := h2.acct_add x hw hp (hop o rfl)
    exact ⟨r.book, r.fills, by simp [applyOp, h1], h2.wf_add hw, hp1, hf, he⟩
  | cancel id =>
    obtain ⟨hp1, he⟩ := cancelOrder_acct x id hw hp
    refine ⟨_, _, rfl, cancelOrder_wf id hw, hp1, no_fills_pos, ?_⟩
    simp only [filledFor_nil, acceptedBy]; omega
  | expire now =>
    obtain ⟨hp1, he⟩ := removeExpiredOrders_acct x now hp
    refine ⟨_, _, rfl, removeExpiredOrders_wf now hw, hp1, no_fills_pos, ?_⟩
    simp only [filledFor_nil, acceptedBy]; omega

theorem runOps_acct (x : String) (ops : List Op) :
    ∀ {b : OrderBook}, WF b → PosBook b → SubmitsOnly PosQty ops →
      ∃ b1 fs, runOps b ops = .ok (b1, fs) ∧ WF b1 ∧ PosBook b1 ∧
        (∀ f ∈ fs, 0 < f.quantity) ∧
        filledFor x fs + remOf x (restingOrders b1) ≤
          remOf x (restingOrders b) + accepted x b ops := by
  induction ops with
  | nil =>
    intro b hw hp _
    exact ⟨b, [], rfl, hw, hp, no_fills_pos, by simp [filledFor_nil, accepted]⟩
  | cons op ops ih =>
    intro b hw hp hsub
    obtain ⟨b1, fs, h1, hw1, hp1, hf1, he1⟩ := applyOp_acct x op hw hp
      (fun o ho => hsub o (ho ▸ List.mem_cons_self _ _))
    obtain ⟨b2, gs, h2, hw2, hp2, hf2, he2⟩ := ih hw1 hp1
      (fun o ho => hsub o (List.mem_cons_of_mem _ ho))
    refine ⟨b2, fs ++ gs, by simp [runOps, h1, h2], hw2, hp2, ?_, ?_⟩
    · intro f hf
      rcases List.mem_append.1 hf with hf | hf
      · exact hf1 f hf
      · exact hf2 f hf
    · rw [filledFor_append, accepted_cons x b op ops h1]; omega

theorem PosReachable.posBook {b : OrderBook} (h : PosReachable b) : WF b ∧ PosBook b := by
  obtain ⟨ops, fs, hsub, h⟩ := h
  obtain ⟨b1, gs, h1, hw, hp, _, _⟩ := runOps_acct "" ops wf_emptyBook posBook_emptyBook hsub
  rw [h] at h1
  cases h1
  exact ⟨hw, hp⟩

theorem remOf_of_absent {b : OrderBook} {x : String} (hw : WF b)
    (h : indexHas x b.activeOrders = false) : remOf x (restingOrders b) = 0 := by
  refine remOf_eq_zero x ?_
  intro r hr he
  refine hw.linked.not_mem_of_absent h ?_
  rw [← he]
  rcases List.mem_append.1 hr with hr | hr
  · exact List.mem_append_left _ (mem_ids.2 ⟨r, hr, rfl⟩)
  · exact List.mem_append_right _ (mem_ids.2 ⟨r, hr, rfl⟩)

/-- C4 (quantity conservation): let the book be reachable by calls that submit
positive quantities only, let the order `o` with a positive quantity and an id
not in the index be submitted, and let any further calls follow that submit
positive quantities, `o` being the only order accepted under its id (a later
order with the id of `o` is rejected as a duplicate).  Then the calls run to
completion, the quantities of all fills that involve `o` sum to at most the
original quantity of `o`, every fill quantity is positive, and every order that
rests in the resulting book has a positive (hence non-negative) remaining
quantity. -/
theorem quantity_conservation (b : OrderBook) (hb : PosReachable b) (o : Order)
    (hq : PosQty o) (hnew : indexHas o.orderId b.activeOrders = false) (ops : List Op)
    (hpos : SubmitsOnly PosQty ops)
    (honly : accepted o.orderId b (.add o :: ops) = o.quantity) :
    ∃ b1 fs, runOps b (.add o :: ops) = .ok (b1, fs) ∧
      filledFor o.orderId fs ≤ o.quantity ∧
      (∀ f ∈ fs, 0 < f.quantity) ∧
      (∀ r ∈ restingOrders b1, 0 < r.quantity) := by
  obtain ⟨hw, hp⟩ := hb.posBook
  have hsub : SubmitsOnly PosQty (.add o :: ops) := by
    intro o1 ho1
    rcases List.mem_cons.1 ho1 with h | h
    · cases h; exact hq
    · exact hpos o1 h
  obtain ⟨b1, fs, h1, _, hp1, hf, he⟩ := runOps_acct o.orderId (.add o :: ops) hw hp hsub
  refine ⟨b1, fs, h1, ?_, hf, fun r hr => (hp1 r hr).1⟩
  rw [remOf_of_absent hw hnew, honly] at he
  have h0 := remOf_nonneg o.orderId hp1.resting_nonneg
  omega

theorem submitsOnly_one {ok : Order → Prop} {o : Order} (h : ok o) :
    SubmitsOnly ok [.add o] := by
  intro o1 ho1
  simp only [List.mem_singleton, Op.add.injEq] at ho1
  rw [ho1]; exact h

theorem posReachable_bookA : PosReachable bookA :=
  ⟨[.add askA], [], submitsOnly_one (by decide), rfl⟩

/-- Instance of `quantity_conservation` at `askB`, submitted to the book holding `askA` and
followed by a rejected second order with the id "B" and by a bid of 12 units
that fills `askA` and 2 units of `askB`. -/
theorem quantity_conservation_witness :
    PosReachable bookA ∧ PosQty askB ∧ indexHas askB.orderId bookA.activeOrders = false ∧
      SubmitsOnly PosQty [.add askBagain, .add bidTwelve] ∧
      accepted askB.orderId bookA [.add askB, .add askBagain, .add bidTwelve] =
        askB.quantity ∧
      ∃ b1 fs, runOps bookA [.add askB, .add askBagain, .add bidTwelve] = .ok (b1, fs) ∧
        filledFor askB.orderId fs ≤ askB.quantity ∧
        (∀ f ∈ fs, 0 < f.quantity) ∧
        (∀ r ∈ restingOrders b1, 0 < r.quantity) := by
  have hpos : SubmitsOnly PosQty [.add askBagain, .add bidTwelve] := by
    intro o ho
    simp only [List.mem_cons, Op.add.injEq, List.mem_singleton, List.not_mem_nil,
      or_false] at ho
    rcases ho with h | h <;> rw [h] <;> decide
  exact ⟨posReachable_bookA, by decide, rfl, hpos, rfl,
    quantity_conservation bookA posReachable_bookA askB (by decide) rfl
      [.add askBagain, .add bidTwelve] hpos rfl⟩

/-! ## Rejections -/

/-- C5 (duplicate id rejection): whatever the book and the order, if the order's
id is in the index then `addOrder` takes the early return: the bid side, the ask
side and the index are what they were, and no fill is emitted. -/
theorem duplicate_rejected (b : OrderBook) (o : Order)
    (h : indexHas o.orderId b.activeOrders = true) :
    addOrder b o = .ok ⟨.duplicate, b, []⟩ := by
  unfold addOrder
  rw [if_pos h]

/-- Instance of `duplicate_rejected` at the book holding `askA` and a second order with the
id "A". -/
theorem duplicate_rejected_witness :
    indexHas "A" bookA.activeOrders = true ∧
      addOrder bookA ⟨"A", "market", "buy", 0, 7, 0⟩ = .ok ⟨.duplicate, bookA, []⟩ :=
  ⟨rfl, duplicate_rejected bookA ⟨"A", "market", "buy", 0, 7, 0⟩ rfl⟩

/-- C10 fails on the code: an order with an unknown side is registered in the
index before the throw, so the index is not what it was, and the same id
submitted again with a valid side is rejected as a duplicate. -/
theorem invalid_side_leaves_id :
    addOrder emptyBook orderHold = .ok ⟨.invalidSide, ⟨[], [], [("X", orderHold)]⟩, []⟩ ∧
      (⟨[], [], [("X", orderHold)]⟩ : OrderBook) ≠ emptyBook ∧
      addOrder ⟨[], [], [("X", orderHold)]⟩ orderRetry =
        .ok ⟨.duplicate, ⟨[], [], [("X", orderHold)]⟩, []⟩ :=
  ⟨rfl, by decide, rfl⟩

/-! ## Cancellation -/

theorem cancelOrder_index_absent (b : OrderBook) (id : String) :
    indexHas id (cancelOrder b id).2.activeOrders = false := by
  rw [indexHas_eq_false]
  unfold cancelOrder
  cases he : indexFind id b.activeOrders with
  | none => exact he
  | some e =>
    simp only
    split
    · exact indexFind_indexErase_self id _
    · split
      · exact indexFind_indexErase_self id _
      · exact indexFind_indexErase_self id _

theorem cancelOrder_found {b : OrderBook} {id : String}
    (h : indexHas id b.activeOrders = true) : (cancelOrder b id).1 = true := by
  obtain ⟨e, he⟩ := indexHas_eq_true.1 h
  unfold cancelOrder
  rw [he]
  simp only
  split
  · rfl
  · split <;> rfl

theorem WF.indexed_of_resting {b : OrderBook} (hw : WF b) {o : Order}
    (ho : o ∈ restingOrders b) : indexHas o.orderId b.activeOrders = true := by
  rcases List.mem_append.1 ho with h | h
  · exact hw.linked.covX.indexed (mem_ids.2 ⟨o, h, rfl⟩)
  · exact hw.linked.covY.indexed (mem_ids.2 ⟨o, h, rfl⟩)

theorem not_mem_keys_cancelSide {desc : Bool} {p : Int} {id : String} {m : PriceMap}
    (h : (mapGet p m).filter (fun o => decide (o.orderId ≠ id)) = []) :
    p ∉ keys (cancelSide desc p id m) := by
  rw [cancelSide_eq, if_pos h]
  intro hm
  obtain ⟨q, hq⟩ := mem_keys.1 hm
  simp [mapErase] at hq

theorem accepted_of_absent {b : OrderBook} (o : Order) (hw : WF b)
    (h : indexHas o.orderId b.activeOrders = false) :
    ∃ r, addOrder b o = .ok r ∧ r.status ≠ .duplicate := by
  obtain ⟨r, h1, h2⟩ := addOrder_spec o hw
  refine ⟨r, h1, ?_⟩
  cases h2 with
  | duplicate hd => rw [hd] at h; exact Bool.noConfusion h
  | limitBuy _ _ _ _ => exact fun hc => AddStatus.noConfusion hc
  | limitSell _ _ _ _ => exact fun hc => AddStatus.noConfusion hc
  | marketBuy _ _ _ _ _ => exact fun hc => AddStatus.noConfusion hc
  | marketSell _ _ _ _ _ => exact fun hc => AddStatus.noConfusion hc
  | invalidSide _ _ _ _ => exact fun hc => AddStatus.noConfusion hc
  | invalidType _ _ _ => exact fun hc => AddStatus.noConfusion hc

/-- The level of a resting order loses its key when the order was alone in it. -/
theorem cancelOrder_level_deleted {b : OrderBook} (hw : WF b) {o : Order}
    (ho : o ∈ restingOrders b) (halone : mapGet o.price (sideMap b o.side) = [o]) :
    o.price ∉ keys (sideMap (cancelOrder b o.orderId).2 o.side) := by
  obtain ⟨e, he⟩ := indexHas_eq_true.1 (hw.indexed_of_resting ho)
  have hfilter : ∀ m : PriceMap, mapGet o.price m = [o] →
      (mapGet o.price m).filter (fun r => decide (r.orderId ≠ o.orderId)) = [] := by
    intro m hm; rw [hm]; simp
  rcases List.mem_append.1 ho with h | h
  · have hside := (hw.resting_buy h).1
    obtain ⟨h1, h2⟩ := hw.entry_buy h he
    simp only [sideMap, hside, if_true] at halone ⊢
    unfold cancelOrder
    rw [he]
    simp only [if_pos h1, h2]
    exact not_mem_keys_cancelSide (hfilter _ halone)
  · have hside := (hw.resting_sell h).1
    obtain ⟨h1, h2⟩ := hw.entry_sell h he
    have hnb : o.side ≠ "buy" := by rw [hside]; decide
    have hnb1 : e.side ≠ "buy" := by rw [h1]; decide
    simp only [sideMap, if_neg hnb] at halone ⊢
    unfold cancelOrder
    rw [he]
    simp only [if_neg hnb1, if_pos h1, h2]
    exact not_mem_keys_cancelSide (hfilter _ halone)

/-- C6 (cancel removes from book and index): let `o` rest in a reachable book.
Then `cancelOrder` on its id reports success; afterwards no order with that id is
in any price-level queue, the id is not in the index, the price level of `o` is
deleted if `o` was alone in it, and an `addOrder` with the same id returns
without being rejected as a duplicate. -/
theorem cancel_removes (b : OrderBook) (hb : Reachable b) (o : Order)
    (ho : o ∈ restingOrders b) :
    (cancelOrder b o.orderId).1 = true ∧
      (∀ r ∈ restingOrders (cancelOrder b o.orderId).2, r.orderId ≠ o.orderId) ∧
      indexHas o.orderId (cancelOrder b o.orderId).2.activeOrders = false ∧
      (mapGet o.price (sideMap b o.side) = [o] →
        o.price ∉ keys (sideMap (cancelOrder b o.orderId).2 o.side)) ∧
      ∀ o2 : Order, o2.orderId = o.orderId →
        ∃ r, addOrder (cancelOrder b o.orderId).2 o2 = .ok r ∧ r.status ≠ .duplicate := by
  obtain ⟨hw, _⟩ := hb.wf_uncrossed
  refine ⟨cancelOrder_found (hw.indexed_of_resting ho), ?_, cancelOrder_index_absent b _,
    cancelOrder_level_deleted hw ho, ?_⟩
  · intro r hr he
    refine cancelOrder_not_rests o.orderId hw ?_
    unfold Rests
    exact List.mem_map.2 ⟨r, hr, he⟩
  · intro o2 ho2
    refine accepted_of_absent o2 (cancelOrder_wf _ hw) ?_
    rw [ho2]; exact cancelOrder_index_absent b _

/-- Instance of `cancel_removes` at `askA`, alone in its level of `bookA`. -/
theorem cancel_removes_witness :
    Reachable bookA ∧ askA ∈ restingOrders bookA ∧
      (cancelOrder bookA "A").1 = true ∧
      (∀ r ∈ restingOrders (cancelOrder bookA "A").2, r.orderId ≠ "A") ∧
      indexHas "A" (cancelOrder bookA "A").2.activeOrders = false ∧
      (mapGet 100 (sideMap bookA "sell") = [askA] →
        (100 : Int) ∉ keys (sideMap (cancelOrder bookA "A").2 "sell")) ∧
      ∀ o2 : Order, o2.orderId = "A" →
        ∃ r, addOrder (cancelOrder bookA "A").2 o2 = .ok r ∧ r.status ≠ .duplicate :=
  ⟨reachable_bookA, by decide, cancel_removes bookA reachable_bookA askA (by decide)⟩

/-! ## Market sweeps -/

theorem Run.of_exit {σ : Type} {step : σ → Step σ} {s s2 : σ} {fs : List Fill}
    (h : Run step s s2 fs) (he : step s = .exit) : s2 = s ∧ fs = [] := by
  cases h with
  | exit _ => exact ⟨rfl, rfl⟩
  | next hn _ => rw [he] at hn; cases hn

theorem matchStep_of_uncrossed {b : OrderBook} (hu : Uncrossed b) : matchStep b = .exit := by
  unfold matchStep
  split
  · rename_i bp bq brest sp sq srest hb hs
    have := hu bp (head_mem_keys hb) sp (head_mem_keys hs)
    rw [if_neg (by omega)]
  · rfl

theorem liquidity_cons (o : Order) (l : List Order) :
    liquidity (o :: l) = o.quantity + liquidity l := by
  simp [liquidity]

theorem liquidity_settleList (nq : Int) (o : Order) (t : List Order) :
    liquidity (settleList nq (o :: t)) = liquidity (o :: t) - (o.quantity - nq) := by
  simp only [settleList]
  by_cases h0 : nq = 0
  · rw [if_pos h0, liquidity_cons, h0]; omega
  · rw [if_neg h0, liquidity_cons, liquidity_cons]; simp only; omega

theorem liquidity_settleFront (nq : Int) {m : PriceMap} {k : Int} {o : Order}
    {q : List Order} {rest : PriceMap} (hne : NoEmpty m) (hm : m = (k, o :: q) :: rest) :
    liquidity (sideOrders (settleFront nq m)) =
      liquidity (sideOrders m) - (o.quantity - nq) := by
  rw [sideOrders_settleFront nq hne]
  have : sideOrders m = o :: (q ++ sideOrders rest) := by rw [hm]; rfl
  rw [this]
  exact liquidity_settleList nq o _

theorem liquidity_pos {l : List Order} (hl : ∀ r ∈ l, PosQty r) (hne : l ≠ []) :
    0 < liquidity l := by
  induction l with
  | nil => exact absurd rfl hne
  | cons o t ih =>
    rw [liquidity_cons]
    have h1 := (hl o (List.mem_cons_self _ _)).1
    by_cases ht : t = []
    · subst ht; simp [liquidity]; exact h1
    · have := ih (fun r hr => hl r (List.mem_cons_of_mem _ hr)) ht
      omega

theorem sideOrders_eq_nil {m : PriceMap} (hne : NoEmpty m) (h : sideOrders m = []) :
    m = [] := by
  cases m with
  | nil => rfl
  | cons l m =>
    obtain ⟨k, q⟩ := l
    simp only [sideOrders, List.append_eq_nil] at h
    exact absurd h.1 (hne (k, q) (List.mem_cons_self _ _))

theorem totalFilled_nil : totalFilled [] = 0 := rfl

theorem totalFilled_append (fs gs : List Fill) :
    totalFilled (fs ++ gs) = totalFilled fs + totalFilled gs := by
  simp [totalFilled]

/-- One step of the market-buy sweep over asks of positive quantity: what it
fills comes off the incoming quantity and off the ask side alike; the bid side
is not touched and no ask level is created. -/
theorem marketBuyStep_sweep {id : String} {t t1 : OrderBook × Int} {f : Fill} {m : PriceMap}
    (hi : WF t.1 ∧ (∀ r ∈ sideOrders t.1.sellOrders, PosQty r) ∧
      (0 ≤ t.2 ∧ t.2 < 2147483648) ∧ t.1.buyOrders = m)
    (hn : marketBuyStep id t = .next t1 f) :
    (WF t1.1 ∧ (∀ r ∈ sideOrders t1.1.sellOrders, PosQty r) ∧
        (0 ≤ t1.2 ∧ t1.2 < 2147483648) ∧ t1.1.buyOrders = m) ∧
      0 < f.quantity ∧ f.quantity + t1.2 = t.2 ∧
      f.quantity + liquidity (sideOrders t1.1.sellOrders) =
        liquidity (sideOrders t.1.sellOrders) ∧
      (keys t1.1.sellOrders).Sublist (keys t.1.sellOrders) := by
  obtain ⟨hwt, hpt, hqt, hbt⟩ := hi
  obtain ⟨sp, so, sq, srest, hs, hpos, h1, h2⟩ := marketBuyStep_next hn
  have hso : PosQty so := hpt so (front_mem hs)
  obtain ⟨e1, c1⟩ := @left_after_fill t.2 so.quantity ⟨hpos, hqt.2⟩ hso.1
  obtain ⟨e2, c2⟩ := left_after_fill_right hpos hso
  refine ⟨⟨marketBuyStep_wf hwt hn, ?_, ?_, ?_⟩, ?_, ?_, ?_, ?_⟩
  · rw [h1]; simp only [settleSell]
    rw [sideOrders_settleFront _ hwt.sell.noEmpty]
    exact posQty_settleList hpt c2
  · rw [h1]; simp only; rcases c1 with c | c <;> omega
  · rw [h1]; exact hbt
  · rw [h2]; exact lt_min hpos hso.1
  · rw [h1, h2]; simp only; rw [e1]; omega
  · rw [h1, h2]; simp only [settleSell]
    rw [liquidity_settleFront _ hwt.sell.noEmpty hs, e2]; omega
  · rw [h1]; exact keys_settleFront_sublist _ _

/-- One step of the market-sell sweep over bids of positive quantity. -/
theorem marketSellStep_sweep {id : String} {t t1 : OrderBook × Int} {f : Fill} {m : PriceMap}
    (hi : WF t.1 ∧ (∀ r ∈ sideOrders t.1.buyOrders, PosQty r) ∧
      (0 ≤ t.2 ∧ t.2 < 2147483648) ∧ t.1.sellOrders = m)
    (hn : marketSellStep id t = .next t1 f) :
    (WF t1.1 ∧ (∀ r ∈ sideOrders t1.1.buyOrders, PosQty r) ∧
        (0 ≤ t1.2 ∧ t1.2 < 2147483648) ∧ t1.1.sellOrders = m) ∧
      0 < f.quantity ∧ f.quantity + t1.2 = t.2 ∧
      f.quantity + liquidity (sideOrders t1.1.buyOrders) =
        liquidity (sideOrders t.1.buyOrders) ∧
      (keys t1.1.buyOrders).Sublist (keys t.1.buyOrders) := by
  obtain ⟨hwt, hpt, hqt, hbt⟩ := hi
  obtain ⟨bp, bo, bq, brest, hb, hpos, h1, h2⟩ := marketSellStep_next hn
  have hbo : PosQty bo := hpt bo (front_mem hb)
  obtain ⟨e1, c1⟩ := @left_after_fill t.2 bo.quantity ⟨hpos, hqt.2⟩ hbo.1
  obtain ⟨e2, c2⟩ := left_after_fill_right hpos hbo
  refine ⟨⟨marketSellStep_wf hwt hn, ?_, ?_, ?_⟩, ?_, ?_, ?_, ?_⟩
  · rw [h1]; simp only [settleBuy]
    rw [sideOrders_settleFront _ hwt.buy.noEmpty]
    exact posQty_settleList hpt c2
  · rw [h1]; simp only; rcases c1 with c | c <;> omega
  · rw [h1]; exact hbt
  · rw [h2]; exact lt_min hpos hbo.1
  · rw [h1, h2]; simp only; rw [e1]; omega
  · rw [h1, h2]; simp only [settleBuy]
    rw [liquidity_settleFront _ hwt.buy.noEmpty hb, e2]; omega
  · rw [h1]; exact keys_settleFront_sublist _ _

/-- The market-buy sweep over asks of positive quantity. -/
theorem Run.marketBuy_sweep {id : String} {s s1 : OrderBook × Int} {fs : List Fill}
    (h : Run (marketBuyStep id) s s1 fs) (hw : WF s.1)
    (hp : ∀ r ∈ sideOrders s.1.sellOrders, PosQty r) (hq : 0 ≤ s.2 ∧ s.2 < 2147483648) :
    (WF s1.1 ∧ (∀ r ∈ sideOrders s1.1.sellOrders, PosQty r) ∧ 0 ≤ s1.2 ∧
        s1.1.buyOrders = s.1.buyOrders ∧
        (keys s1.1.sellOrders).Sublist (keys s.1.sellOrders)) ∧
      totalFilled fs + s1.2 = s.2 ∧
      totalFilled fs + liquidity (sideOrders s1.1.sellOrders) =
        liquidity (sideOrders s.1.sellOrders) := by
  have hinv : WF s.1 ∧ (∀ r ∈ sideOrders s.1.sellOrders, PosQty r) ∧
      (0 ≤ s.2 ∧ s.2 < 2147483648) ∧ s.1.buyOrders = s.1.buyOrders := ⟨hw, hp, hq, rfl⟩
  obtain ⟨hi, _, e1⟩ := h.acct _ (fun f => f.quantity) (fun t => t.2)
    (fun t t1 f hi hn => ⟨(marketBuyStep_sweep hi hn).1, (marketBuyStep_sweep hi hn).2.1,
      (marketBuyStep_sweep hi hn).2.2.1⟩) hinv
  obtain ⟨_, _, e2⟩ := h.acct _ (fun f => f.quantity)
    (fun t => liquidity (sideOrders t.1.sellOrders))
    (fun t t1 f hi hn => ⟨(marketBuyStep_sweep hi hn).1, (marketBuyStep_sweep hi hn).2.1,
      (marketBuyStep_sweep hi hn).2.2.2.1⟩) hinv
  have hk := h.inv
    (fun t => (WF t.1 ∧ (∀ r ∈ sideOrders t.1.sellOrders, PosQty r) ∧
      (0 ≤ t.2 ∧ t.2 < 2147483648) ∧ t.1.buyOrders = s.1.buyOrders) ∧
      (keys t.1.sellOrders).Sublist (keys s.1.sellOrders))
    (fun t t1 f hi hn => ⟨(marketBuyStep_sweep hi.1 hn).1,
      (marketBuyStep_sweep hi.1 hn).2.2.2.2.trans hi.2⟩) ⟨hinv, List.Sublist.refl _⟩
  exact ⟨⟨hi.1, hi.2.1, hi.2.2.1.1, hi.2.2.2, hk.1.2⟩, e1, e2⟩

/-- The market-sell sweep over bids of positive quantity. -/
theorem Run.marketSell_sweep {id : String} {s s1 : OrderBook × Int} {fs : List Fill}
    (h : Run (marketSellStep id) s s1 fs) (hw : WF s.1)
    (hp : ∀ r ∈ sideOrders s.1.buyOrders, PosQty r) (hq : 0 ≤ s.2 ∧ s.2 < 2147483648) :
    (WF s1.1 ∧ (∀ r ∈ sideOrders s1.1.buyOrders, PosQty r) ∧ 0 ≤ s1.2 ∧
        s1.1.sellOrders = s.1.sellOrders ∧
        (keys s1.1.buyOrders).Sublist (keys s.1.buyOrders)) ∧
      totalFilled fs + s1.2 = s.2 ∧
      totalFilled fs + liquidity (sideOrders s1.1.buyOrders) =
        liquidity (sideOrders s.1.buyOrders) := by
  have hinv : WF s.1 ∧ (∀ r ∈ sideOrders s.1.buyOrders, PosQty r) ∧
      (0 ≤ s.2 ∧ s.2 < 2147483648) ∧ s.1.sellOrders = s.1.sellOrders := ⟨hw, hp, hq, rfl⟩
  obtain ⟨hi, _, e1⟩ := h.acct _ (fun f => f.quantity) (fun t => t.2)
    (fun t t1 f hi hn => ⟨(marketSellStep_sweep hi hn).1, (marketSellStep_sweep hi hn).2.1,
      (marketSellStep_sweep hi hn).2.2.1⟩) hinv
  obtain ⟨_, _, e2⟩ := h.acct _ (fun f => f.quantity)
    (fun t => liquidity (sideOrders t.1.buyOrders))
    (fun t t1 f hi hn => ⟨(marketSellStep_sweep hi hn).1, (marketSellStep_sweep hi hn).2.1,
      (marketSellStep_sweep hi hn).2.2.2.1⟩) hinv
  have hk := h.inv
    (fun t => (WF t.1 ∧ (∀ r ∈ sideOrders t.1.buyOrders, PosQty r) ∧
      (0 ≤ t.2 ∧ t.2 < 2147483648) ∧ t.1.sellOrders = s.1.sellOrders) ∧
      (keys t.1.buyOrders).Sublist (keys s.1.buyOrders))
    (fun t t1 f hi hn => ⟨(marketSellStep_sweep hi.1 hn).1,
      (marketSellStep_sweep hi.1 hn).2.2.2.2.trans hi.2⟩) ⟨hinv, List.Sublist.refl _⟩
  exact ⟨⟨hi.1, hi.2.1, hi.2.2.1.1, hi.2.2.2, hk.1.2⟩, e1, e2⟩

theorem liquidity_nonneg {l : List Order} (hl : ∀ r ∈ l, PosQty r) : 0 ≤ liquidity l := by
  by_cases h : l = []
  · subst h; exact le_refl _
  · exact le_of_lt (liquidity_pos hl h)

theorem Run.exits {σ : Type} {step : σ → Step σ} {s s2 : σ} {fs : List Fill}
    (h : Run step s s2 fs) : step s2 = .exit :=
  (h.inv (fun _ => True) (fun _ _ _ _ _ => trivial) trivial).2

/-- The arithmetic of a sweep: the fills sum to `min q l`, and a swept side with
no liquidity left is empty. -/
theorem sweep_total {m : PriceMap} {q l t left : Int} (hne : NoEmpty m)
    (hpos : ∀ r ∈ sideOrders m, PosQty r) (hleft : 0 ≤ left) (e1 : t + left = q)
    (e2 : t + liquidity (sideOrders m) = l) (hexit : m = [] ∨ left ≤ 0) :
    t = min q l ∧ (l ≤ q → m = []) := by
  have hliq := liquidity_nonneg hpos
  rcases hexit with h | h
  · have h0 : liquidity (sideOrders m) = 0 := by rw [h]; rfl
    refine ⟨?_, fun _ => h⟩
    rw [h0] at e2
    rw [min_eq_right (by omega)]; omega
  · refine ⟨?_, fun hle => ?_⟩
    · rw [min_eq_left (by omega)]; omega
    · refine sideOrders_eq_nil hne ?_
      by_contra hc
      have := liquidity_pos hpos hc
      omega

/-- C7, amended (market sweep exhaustion): for a reachable (hence uncrossed)
book in which every order resting on the opposite side has a positive remaining
quantity, and a market order with a positive quantity `Q` whose id is not in the
index, `addOrder` returns; with `L` the total remaining quantity on the opposite
side, its fills sum to `min Q L`; if `L ≤ Q` the opposite side is empty
afterwards; the order's own side is exactly what it was; and no price level is
created on the opposite side. -/
theorem market_sweep_exhaustion (b : OrderBook) (hb : Reachable b) (o : Order)
    (hq : PosQty o) (htype : o.type = "market")
    (hnew : indexHas o.orderId b.activeOrders = false) :
    ∃ r, addOrder b o = .ok r ∧
      (o.side = "buy" → (∀ s ∈ sideOrders b.sellOrders, PosQty s) →
        totalFilled r.fills = min o.quantity (liquidity (sideOrders b.sellOrders)) ∧
        (liquidity (sideOrders b.sellOrders) ≤ o.quantity → r.book.sellOrders = []) ∧
        r.book.buyOrders = b.buyOrders ∧
        (keys r.book.sellOrders).Sublist (keys b.sellOrders)) ∧
      (o.side = "sell" → (∀ s ∈ sideOrders b.buyOrders, PosQty s) →
        totalFilled r.fills = min o.quantity (liquidity (sideOrders b.buyOrders)) ∧
        (liquidity (sideOrders b.buyOrders) ≤ o.quantity → r.book.buyOrders = []) ∧
        r.book.sellOrders = b.sellOrders ∧
        (keys r.book.buyOrders).Sublist (keys b.buyOrders)) := by
  obtain ⟨hw, hu⟩ := hb.wf_uncrossed
  obtain ⟨r, h1, h2⟩ := addOrder_spec o hw
  refine ⟨r, h1, ?_⟩
  cases h2 with
  | duplicate hd => rw [hd] at hnew; exact Bool.noConfusion hnew
  | limitBuy _ hl _ _ => exact absurd (hl.symm.trans htype) limit_ne_market
  | limitSell _ hl _ _ => exact absurd (hl.symm.trans htype) limit_ne_market
  | @marketBuy s pre b1 fs hid _ hside hs hm =>
    refine ⟨fun _ hp => ?_, fun hc => absurd (hside.symm.trans hc) buy_ne_sell⟩
    obtain ⟨⟨hws, hps, hs0, hbuy, hkeys⟩, e1, e2⟩ :=
      hs.marketBuy_sweep (hw.register_wf o hid) hp ⟨hq.qty_nonneg, hq.2⟩
    have hus : Uncrossed s.1 :=
      hu.of_keys (fun k hk => by rw [hbuy] at hk; exact hk) (fun _ hk => hkeys.subset hk)
    obtain ⟨hb1, hfs⟩ := hm.of_exit (matchStep_of_uncrossed hus)
    subst hb1 hfs
    obtain ⟨t1, t2⟩ := sweep_total hws.sell.noEmpty hps hs0 e1 e2
      (marketBuyStep_exit hs.exits)
    rw [List.append_nil]
    exact ⟨t1, t2, hbuy, hkeys⟩
  | @marketSell s pre b1 fs hid _ hside hs hm =>
    refine ⟨fun hc => absurd (hc.symm.trans hside) buy_ne_sell, fun _ hp => ?_⟩
    obtain ⟨⟨hws, hps, hs0, hsell, hkeys⟩, e1, e2⟩ :=
      hs.marketSell_sweep (hw.register_wf o hid) hp ⟨hq.qty_nonneg, hq.2⟩
    have hus : Uncrossed s.1 :=
      hu.of_keys (fun _ hk => hkeys.subset hk) (fun k hk => by rw [hsell] at hk; exact hk)
    obtain ⟨hb1, hfs⟩ := hm.of_exit (matchStep_of_uncrossed hus)
    subst hb1 hfs
    obtain ⟨t1, t2⟩ := sweep_total hws.buy.noEmpty hps hs0 e1 e2
      (marketSellStep_exit hs.exits)
    rw [List.append_nil]
    exact ⟨t1, t2, hsell, hkeys⟩
  | invalidSide _ _ h3 h4 =>
    exact ⟨fun hc => absurd hc h3, fun hc => absurd hc h4⟩
  | invalidType _ _ h3 => exact absurd htype h3

theorem reachable_bookNegative : Reachable bookNegative :=
  ⟨[.add askThree, .add askNegative], [], rfl⟩

/-- C7 fails as stated, in two ways.  A market buy of 5 that reuses the id of the
resting ask "A" (10 units) is rejected as a duplicate and fills nothing, not
`min 5 10`.  And in the reachable book that holds asks of 3 and of -5 units
(`L = -2`), a market buy of 2 fills 2 units, not `min 2 (-2)`, and the ask side
is not empty afterwards although `L ≤ Q`. -/
theorem market_sweep_counterexample :
    (Reachable bookA ∧ PosQty marketDup ∧
      addOrder bookA marketDup = .ok ⟨.duplicate, bookA, []⟩ ∧
      totalFilled [] ≠ min marketDup.quantity (liquidity (sideOrders bookA.sellOrders))) ∧
    (Reachable bookNegative ∧ PosQty marketTwo ∧
      indexHas marketTwo.orderId bookNegative.activeOrders = false ∧
      addOrder bookNegative marketTwo =
        .ok ⟨.done,
          ⟨[], [(100, [{ askThree with quantity := 1 }, askNegative])],
            [("M", marketTwo), ("N", askNegative), ("A", askThree)]⟩,
          [⟨.marketBuy, 2, 100, "M", "A"⟩]⟩ ∧
      totalFilled [⟨.marketBuy, 2, 100, "M", "A"⟩] ≠
        min marketTwo.quantity (liquidity (sideOrders bookNegative.sellOrders)) ∧
      liquidity (sideOrders bookNegative.sellOrders) ≤ marketTwo.quantity) :=
  ⟨⟨reachable_bookA, by decide, rfl, by decide⟩,
    ⟨reachable_bookNegative, by decide, rfl, rfl, by decide, by decide⟩⟩

/-- Instance of `market_sweep_exhaustion` at a market buy of 100 units against
the 15 units of `askA` and `askB`: it fills 15 and the ask side is empty
afterwards. -/
theorem market_sweep_witness :
    Reachable bookAB ∧ PosQty marketBig ∧ marketBig.type = "market" ∧
      indexHas marketBig.orderId bookAB.activeOrders = false ∧
      marketBig.side = "buy" ∧ (∀ s ∈ sideOrders bookAB.sellOrders, PosQty s) ∧
      ∃ r, addOrder bookAB marketBig = .ok r ∧
        totalFilled r.fills =
          min marketBig.quantity (liquidity (sideOrders bookAB.sellOrders)) ∧
        (liquidity (sideOrders bookAB.sellOrders) ≤ marketBig.quantity →
          r.book.sellOrders = []) ∧
        r.book.buyOrders = bookAB.buyOrders ∧
        (keys r.book.sellOrders).Sublist (keys bookAB.sellOrders) := by
  have hp : ∀ s ∈ sideOrders bookAB.sellOrders, PosQty s := by decide
  obtain ⟨r, h1, h2, _⟩ :=
    market_sweep_exhaustion bookAB reachable_bookAB marketBig (by decide) rfl rfl
  exact ⟨reachable_bookAB, by decide, rfl, rfl, rfl, hp, r, h1, h2 rfl hp⟩

/-! ## Expiry -/

theorem expired_mono {now : Int} {o o1 : Order} (h : o1.timestamp ≤ o.timestamp)
    (he : expired now o = true) : expired now o1 = true := by
  rw [expired_iff] at he ⊢
  omega

theorem not_expired_of_age_le {now : Int} {o : Order}
    (h : now - o.timestamp ≤ 60 * ticksPerSecond) : expired now o = false := by
  cases he : expired now o
  · rfl
  · rw [expired_iff] at he
    unfold ticksPerSecond at h he
    omega

theorem dropWhile_fresh {now : Int} {q : List Order}
    (hq : q.Pairwise (fun a c => a.timestamp ≤ c.timestamp)) :
    ∀ o ∈ q.dropWhile (expired now), expired now o = false := by
  induction q with
  | nil => intro o ho; cases ho
  | cons x t ih =>
    obtain ⟨hx, ht⟩ := List.pairwise_cons.1 hq
    intro o ho
    by_cases hex : expired now x = true
    · rw [List.dropWhile_cons_of_pos hex] at ho
      exact ih ht o ho
    · rw [List.dropWhile_cons_of_neg hex] at ho
      rcases List.mem_cons.1 ho with rfl | ho
      · simpa using hex
      · cases he : expired now o
        · rfl
        · exact absurd (expired_mono (hx o ho) he) hex

theorem mem_dropWhile_of_fresh {now : Int} {q : List Order} {o : Order} (ho : o ∈ q)
    (hf : expired now o = false) : o ∈ q.dropWhile (expired now) := by
  induction q with
  | nil => cases ho
  | cons x t ih =>
    by_cases hex : expired now x = true
    · rw [List.dropWhile_cons_of_pos hex]
      rcases List.mem_cons.1 ho with rfl | ho
      · rw [hf] at hex; exact Bool.noConfusion hex
      · exact ih ho
    · rw [List.dropWhile_cons_of_neg hex]; exact ho

theorem Aged.mono {t t1 : Int} {m : PriceMap} (h : Aged t m) (ht : t ≤ t1) : Aged t1 m :=
  ⟨h.1, fun r hr => le_trans (h.2 r hr) ht⟩

theorem aged_nil (t : Int) : Aged t [] := by
  refine ⟨?_, ?_⟩
  · intro l hl; cases hl
  · intro r hr; cases hr

theorem Aged.settle_aged {t : Int} {m : PriceMap} (nq : Int) (hne : NoEmpty m)
    (h : Aged t m) : Aged t (settleFront nq m) := by
  refine ⟨?_, ?_⟩
  · intro l hl
    rcases mem_settleFront hl with h1 | ⟨o, q, hm, h1 | h1⟩
    · exact h.1 l h1
    · rw [h1.1]; exact (List.pairwise_cons.1 (h.1 _ hm)).2
    · rw [h1]
      obtain ⟨h2, h3⟩ := List.pairwise_cons.1 (h.1 _ hm)
      exact List.pairwise_cons.2 ⟨h2, h3⟩
  · intro r hr
    rw [sideOrders_settleFront nq hne] at hr
    obtain ⟨r0, hr0, he | he⟩ := mem_settleList hr
    · rw [he]; exact h.2 r0 hr0
    · rw [he]; exact h.2 r0 hr0

theorem Aged.push_aged {desc : Bool} {t : Int} {m : PriceMap} {o : Order}
    (hs : SortedKeys desc m) (h : Aged t m) (ht : t ≤ o.timestamp) :
    Aged o.timestamp (pushOrder desc o m) := by
  refine ⟨?_, ?_⟩
  · intro l hl
    rcases (mem_pushOrder hs l).1 hl with h1 | ⟨h1, _⟩
    · rw [h1]
      refine List.pairwise_append.2 ⟨?_, List.pairwise_singleton _ _, ?_⟩
      · by_cases hne : mapGet o.price m = []
        · rw [hne]; exact List.Pairwise.nil
        · exact h.1 _ (mapGet_mem hne)
      · intro a ha c hc
        rw [List.mem_singleton.1 hc]
        have hne : mapGet o.price m ≠ [] := List.ne_nil_of_mem ha
        exact le_trans (h.2 a (mem_sideOrders.2 ⟨_, mapGet_mem hne, ha⟩)) ht
    · exact h.1 l h1
  · intro r hr
    rcases List.mem_cons.1 ((sideOrders_pushOrder_perm o hs).subset hr) with h1 | h1
    · rw [h1]
    · exact le_trans (h.2 r h1) ht

theorem Aged.cancel_aged {desc : Bool} {t : Int} {m : PriceMap} (p : Int) (id : String)
    (hs : SortedKeys desc m) (h : Aged t m) : Aged t (cancelSide desc p id m) := by
  refine ⟨?_, fun r hr => h.2 r (mem_sideOrders_of_cancelSide hs hr)⟩
  intro l hl
  rcases (mem_cancelSide hs l).1 hl with ⟨h1, _⟩ | ⟨h1, h2⟩
  · exact h.1 l h1
  · rw [h1]
    have hne : mapGet p m ≠ [] := by
      intro h0; rw [h1, h0] at h2; exact h2 rfl
    exact (h.1 _ (mapGet_mem hne)).sublist (List.filter_sublist _)

theorem Aged.sweep_aged {t : Int} {m : PriceMap} (now : Int) (h : Aged t m) :
    Aged t (sweepSide now m) := by
  refine ⟨?_, fun r hr => h.2 r ((sideOrders_sweepSide_sublist now m).subset hr)⟩
  intro l hl
  obtain ⟨q, hq, h1, _⟩ := (mem_sweepSide l).1 hl
  rw [h1]
  exact (h.1 _ hq).sublist (List.dropWhile_sublist _)

theorem Run.matchOrders_aged {t : Int} {b b1 : OrderBook} {fs : List Fill}
    (h : Run matchStep b b1 fs) (hw : WF b) (hb : Aged t b.buyOrders)
    (hs : Aged t b.sellOrders) : Aged t b1.buyOrders ∧ Aged t b1.sellOrders := by
  have := h.inv (fun b => WF b ∧ Aged t b.buyOrders ∧ Aged t b.sellOrders) (by
    rintro s s1 f ⟨hws, hbs, hss⟩ hn
    refine ⟨matchStep_wf hws hn, ?_⟩
    obtain ⟨bp, bo, bq, brest, sp, so, sq, srest, _, _, _, h1, _⟩ := matchStep_next hn
    rw [h1]
    exact ⟨hbs.settle_aged _ hws.buy.noEmpty, hss.settle_aged _ hws.sell.noEmpty⟩)
    ⟨hw, hb, hs⟩
  exact this.1.2

theorem Run.marketBuy_aged {t : Int} {id : String} {s s1 : OrderBook × Int} {fs : List Fill}
    (h : Run (marketBuyStep id) s s1 fs) (hw : WF s.1) (hb : Aged t s.1.buyOrders)
    (hs : Aged t s.1.sellOrders) : Aged t s1.1.buyOrders ∧ Aged t s1.1.sellOrders := by
  have := h.inv (fun s => WF s.1 ∧ Aged t s.1.buyOrders ∧ Aged t s.1.sellOrders) (by
    rintro s s1 f ⟨hws, hbs, hss⟩ hn
    refine ⟨marketBuyStep_wf hws hn, ?_⟩
    obtain ⟨sp, so, sq, srest, _, _, h1, _⟩ := marketBuyStep_next hn
    rw [h1]
    exact ⟨hbs, hss.settle_aged _ hws.sell.noEmpty⟩) ⟨hw, hb, hs⟩
  exact this.1.2

theorem Run.marketSell_aged {t : Int} {id : String} {s s1 : OrderBook × Int}
    {fs : List Fill} (h : Run (marketSellStep id) s s1 fs) (hw : WF s.1)
    (hb : Aged t s.1.buyOrders) (hs : Aged t s.1.sellOrders) :
    Aged t s1.1.buyOrders ∧ Aged t s1.1.sellOrders := by
  have := h.inv (fun s => WF s.1 ∧ Aged t s.1.buyOrders ∧ Aged t s.1.sellOrders) (by
    rintro s s1 f ⟨hws, hbs, hss⟩ hn
    refine ⟨marketSellStep_wf hws hn, ?_⟩
    obtain ⟨bp, bo, bq, brest, _, _, h1, _⟩ := marketSellStep_next hn
    rw [h1]
    exact ⟨hbs.settle_aged _ hws.buy.noEmpty, hss⟩) ⟨hw, hb, hs⟩
  exact this.1.2

theorem AddSpec.aged {t : Int} {b : OrderBook} {o : Order} {r : AddResult}
    (h : AddSpec b o r) (hw : WF b) (hb : Aged t b.buyOrders) (hs : Aged t b.sellOrders)
    (ht : t ≤ o.timestamp) :
    Aged o.timestamp r.book.buyOrders ∧ Aged o.timestamp r.book.sellOrders := by
  have hb1 := hb.mono ht
  have hs1 := hs.mono ht
  cases h with
  | duplicate _ => exact ⟨hb1, hs1⟩
  | limitBuy hid _ hside hr =>
    exact hr.matchOrders_aged (hw.pushBuy hid hside) (hb.push_aged hw.buy.sorted ht) hs1
  | limitSell hid _ hside hr =>
    exact hr.matchOrders_aged (hw.pushSell hid hside) hb1 (hs.push_aged hw.sell.sorted ht)
  | marketBuy hid _ _ h1 h2 =>
    have hw1 := hw.register_wf o hid
    obtain ⟨h3, h4⟩ := h1.marketBuy_aged hw1 hb1 hs1
    exact h2.matchOrders_aged (h1.marketBuy_wf hw1) h3 h4
  | marketSell hid _ _ h1 h2 =>
    have hw1 := hw.register_wf o hid
    obtain ⟨h3, h4⟩ := h1.marketSell_aged hw1 hb1 hs1
    exact h2.matchOrders_aged (h1.marketSell_wf hw1) h3 h4
  | invalidSide _ _ _ _ => exact ⟨hb1, hs1⟩
  | invalidType _ _ _ => exact ⟨hb1, hs1⟩

theorem cancelOrder_aged {t : Int} {b : OrderBook} (id : String) (hw : WF b)
    (hb : Aged t b.buyOrders) (hs : Aged t b.sellOrders) :
    Aged t (cancelOrder b id).2.buyOrders ∧ Aged t (cancelOrder b id).2.sellOrders := by
  unfold cancelOrder
  cases he : indexFind id b.activeOrders with
  | none => exact ⟨hb, hs⟩
  | some e =>
    simp only
    split
    · exact ⟨hb.cancel_aged _ _ hw.buy.sorted, hs⟩
    · split
      · exact ⟨hb, hs.cancel_aged _ _ hw.sell.sorted⟩
      · exact ⟨hb, hs⟩

theorem runOps_aged (ops : List Op) :
    ∀ {b b1 : OrderBook} {fs : List Fill} {t : Int}, WF b → Aged t b.buyOrders →
      Aged t b.sellOrders → (∀ u ∈ submitTimes ops, t ≤ u) → TimeOrdered ops →
      runOps b ops = .ok (b1, fs) →
      ∃ t1, Aged t1 b1.buyOrders ∧ Aged t1 b1.sellOrders := by
  induction ops with
  | nil =>
    intro b b1 fs t _ hb hs _ _ hrun
    simp only [runOps, Except.ok.injEq, Prod.mk.injEq] at hrun
    rw [← hrun.1]; exact ⟨t, hb, hs⟩
  | cons op ops ih =>
    intro b b1 fs t hw hb hs hlo hord hrun
    cases op with
    | add o =>
      obtain ⟨r, h1, h2⟩ := addOrder_spec o hw
      have ht : t ≤ o.timestamp := hlo _ (by simp [submitTimes])
      obtain ⟨hb1, hs1⟩ := h2.aged hw hb hs ht
      have hord1 : (o.timestamp :: submitTimes ops).Pairwise (fun s t => s ≤ t) := hord
      obtain ⟨hlo1, hord2⟩ := List.pairwise_cons.1 hord1
      simp only [runOps, applyOp, h1] at hrun
      cases hr : runOps r.book ops with
      | error e => rw [hr] at hrun; cases hrun
      | ok res =>
        obtain ⟨b2, gs⟩ := res
        rw [hr] at hrun
        simp only [Except.ok.injEq, Prod.mk.injEq] at hrun
        rw [← hrun.1]
        exact ih (h2.wf_add hw) hb1 hs1 hlo1 hord2 hr
    | cancel id =>
      obtain ⟨hb1, hs1⟩ := cancelOrder_aged id hw hb hs
      simp only [runOps, applyOp] at hrun
      cases hr : runOps (cancelOrder b id).2 ops with
      | error e => rw [hr] at hrun; cases hrun
      | ok res =>
        obtain ⟨b2, gs⟩ := res
        rw [hr] at hrun
        simp only [Except.ok.injEq, Prod.mk.injEq] at hrun
        rw [← hrun.1]
        exact ih (cancelOrder_wf id hw) hb1 hs1 hlo hord hr
    | expire now =>
      simp only [runOps, applyOp] at hrun
      cases hr : runOps (removeExpiredOrders b now) ops with
      | error e => rw [hr] at hrun; cases hrun
      | ok res =>
        obtain ⟨b2, gs⟩ := res
        rw [hr] at hrun
        simp only [Except.ok.injEq, Prod.mk.injEq] at hrun
        rw [← hrun.1]
        exact ih (removeExpiredOrders_wf now hw) (hb.sweep_aged now) (hs.sweep_aged now)
          hlo hord hr

/-- Orders submitted in the order of their construction are queued by age. -/
theorem timeOrdered_queuesByAge {ops : List Op} (hord : TimeOrdered ops) {b : OrderBook}
    {fs : List Fill} (hrun : runOps emptyBook ops = .ok (b, fs)) : QueuesByAge b := by
  have hlow : ∃ t, ∀ u ∈ submitTimes ops, t ≤ u := by
    cases hst : submitTimes ops with
    | nil => exact ⟨0, fun u hu => by cases hu⟩
    | cons u0 us =>
      refine ⟨u0, fun u hu => ?_⟩
      have hp : (u0 :: us).Pairwise (fun s t => s ≤ t) := by rw [← hst]; exact hord
      rcases List.mem_cons.1 hu with rfl | hu
      · exact le_refl _
      · exact (List.pairwise_cons.1 hp).1 u hu
  obtain ⟨t, ht⟩ := hlow
  obtain ⟨t1, hb1, hs1⟩ := runOps_aged ops wf_emptyBook (aged_nil t) (aged_nil t) ht hord hrun
  rintro l (hl | hl)
  · exact hb1.1 l hl
  · exact hs1.1 l hl

theorem sweepSide_fresh_of_sorted {m : PriceMap} (now : Int)
    (h : ∀ l ∈ m, l.2.Pairwise (fun a c => a.timestamp ≤ c.timestamp)) :
    ∀ o ∈ sideOrders (sweepSide now m), expired now o = false := by
  intro o ho
  obtain ⟨l, hl, hol⟩ := mem_sideOrders.1 ho
  obtain ⟨q, hq, h1, _⟩ := (mem_sweepSide l).1 hl
  rw [h1] at hol
  exact dropWhile_fresh (h _ hq) o hol

/-- C8, amended (expiry removes stale orders): for every book in which each
price-level queue holds its orders in non-decreasing order of `createdAt`, front
first (as in every book produced by calls that submit the orders in the order of
their construction), and for every time `now`: after the expiry sweep at `now`
no order whose age in whole seconds, rounded towards zero as the sweep computes
it, exceeds 60 is present in any price-level queue on either side. -/
theorem expiry_removes_stale (b : OrderBook) (hage : QueuesByAge b) (now : Int) :
    ∀ o ∈ restingOrders (removeExpiredOrders b now), ¬ (ageSeconds now o.timestamp > 60) := by
  intro o ho
  have hfresh : expired now o = false := by
    rcases List.mem_append.1 ho with h | h
    · exact sweepSide_fresh_of_sorted now (fun l hl => hage l (Or.inl hl)) o h
    · exact sweepSide_fresh_of_sorted now (fun l hl => hage l (Or.inr hl)) o h
  intro hc
  have : expired now o = true := by unfold expired; exact decide_eq_true hc
  rw [hfresh] at this
  exact Bool.noConfusion this

theorem reachable_bookYoungOld : Reachable bookYoungOld :=
  ⟨[.add askYoung, .add askOld], [], rfl⟩

theorem reachable_bookOld : Reachable bookOld := ⟨[.add askOld], [], rfl⟩

/-- C8 fails as stated, in two ways.  In the book where `askOld`, constructed at
time 0, was submitted after `askYoung`, constructed at 100 s, the sweep at 100 s
stops at the fresh front order and leaves `askOld`, aged 100 s, in the queue.
And the sweep at 60.5 s leaves an order constructed at time 0 in the queue,
because its age in whole seconds is 60. -/
theorem expiry_counterexample :
    (Reachable bookYoungOld ∧
      askOld ∈ restingOrders (removeExpiredOrders bookYoungOld 100000000000) ∧
      100000000000 - askOld.timestamp > 60 * ticksPerSecond) ∧
    (Reachable bookOld ∧
      askOld ∈ restingOrders (removeExpiredOrders bookOld 60500000000) ∧
      60500000000 - askOld.timestamp > 60 * ticksPerSecond) :=
  ⟨⟨reachable_bookYoungOld, by decide, by decide⟩, ⟨reachable_bookOld, by decide, by decide⟩⟩

/-- Instance of `expiry_removes_stale` at the book built by submitting `askOld`
and then `askYoung`, swept at 100 s: `askOld` is removed and `askYoung` stays. -/
theorem expiry_removes_stale_witness :
    TimeOrdered [.add askOld, .add askYoung] ∧
      runOps emptyBook [.add askOld, .add askYoung] = .ok (bookOldYoung, []) ∧
      QueuesByAge bookOldYoung ∧
      restingOrders (removeExpiredOrders bookOldYoung 100000000000) = [askYoung] ∧
      ∀ o ∈ restingOrders (removeExpiredOrders bookOldYoung 100000000000),
        ¬ (ageSeconds 100000000000 o.timestamp > 60) := by
  have hord : TimeOrdered [.add askOld, .add askYoung] := by
    unfold TimeOrdered
    simp only [submitTimes]
    decide
  have hrun : runOps emptyBook [.add askOld, .add askYoung] = .ok (bookOldYoung, []) := rfl
  have hage : QueuesByAge bookOldYoung := timeOrdered_queuesByAge hord hrun
  exact ⟨hord, hrun, hage, by decide, expiry_removes_stale bookOldYoung hage 100000000000⟩

/-! ### Expiry leaves fresh orders alone -/

/-- C9 (expiry never touches non-expired orders): in a reachable book let `o`
be in the queue `q` of the level at price `k` on either side, and let `o` not be
expired at `now` (which holds whenever `now - createdAt` is at most 60 seconds).
After the sweep the level at `k` still exists on that side, its queue is `q`
without a prefix of expired orders, so the survivors keep their order, `o` is in
it unchanged, and the id of `o` is still in the index. -/
theorem expiry_keeps_fresh (b : OrderBook) (hb : Reachable b) (now : Int) (side : String)
    (k : Int) (q : List Order) (o : Order) (hlevel : (k, q) ∈ sideMap b side) (ho : o ∈ q)
    (hfresh : expired now o = false) :
    (k, q.dropWhile (expired now)) ∈ sideMap (removeExpiredOrders b now) side ∧
      mapGet k (sideMap (removeExpiredOrders b now) side) = q.dropWhile (expired now) ∧
      (∃ pre, q = pre ++ q.dropWhile (expired now) ∧ ∀ x ∈ pre, expired now x = true) ∧
      o ∈ q.dropWhile (expired now) ∧
      indexHas o.orderId (removeExpiredOrders b now).activeOrders = true := by
  obtain ⟨hw, _⟩ := hb.wf_uncrossed
  have hw1 := removeExpiredOrders_wf now hw
  have hmem := mem_dropWhile_of_fresh ho hfresh
  have hne : q.dropWhile (expired now) ≠ [] := List.ne_nil_of_mem hmem
  have hpre : ∃ pre, q = pre ++ q.dropWhile (expired now) ∧ ∀ x ∈ pre, expired now x = true :=
    ⟨q.takeWhile (expired now), (List.takeWhile_append_dropWhile _ _).symm,
      fun x hx => List.mem_takeWhile_imp hx⟩
  by_cases hside : side = "buy"
  · simp only [sideMap, hside, if_true] at hlevel ⊢
    have h1 : (k, q.dropWhile (expired now)) ∈ sweepSide now b.buyOrders :=
      (mem_sweepSide _).2 ⟨q, hlevel, rfl, hne⟩
    refine ⟨h1, mapGet_of_mem hw1.buy.sorted h1, hpre, hmem, ?_⟩
    exact hw1.indexed_of_resting
      (List.mem_append_left _ (mem_sideOrders.2 ⟨_, h1, hmem⟩))
  · simp only [sideMap, if_neg hside] at hlevel ⊢
    have h1 : (k, q.dropWhile (expired now)) ∈ sweepSide now b.sellOrders :=
      (mem_sweepSide _).2 ⟨q, hlevel, rfl, hne⟩
    refine ⟨h1, mapGet_of_mem hw1.sell.sorted h1, hpre, hmem, ?_⟩
    exact hw1.indexed_of_resting
      (List.mem_append_right _ (mem_sideOrders.2 ⟨_, h1, hmem⟩))

/-- Instance of `expiry_keeps_fresh` at `askYoung`, standing in front of the stale `askOld`
and swept at 100 s. -/
theorem expiry_keeps_fresh_witness :
    Reachable bookYoungOld ∧ (100, [askYoung, askOld]) ∈ sideMap bookYoungOld "sell" ∧
      askYoung ∈ [askYoung, askOld] ∧ expired 100000000000 askYoung = false ∧
      ((100, [askYoung, askOld].dropWhile (expired 100000000000)) ∈
          sideMap (removeExpiredOrders bookYoungOld 100000000000) "sell" ∧
        mapGet 100 (sideMap (removeExpiredOrders bookYoungOld 100000000000) "sell") =
          [askYoung, askOld].dropWhile (expired 100000000000) ∧
        (∃ pre, [askYoung, askOld] = pre ++ [askYoung, askOld].dropWhile (expired 100000000000) ∧
          ∀ x ∈ pre, expired 100000000000 x = true) ∧
        askYoung ∈ [askYoung, askOld].dropWhile (expired 100000000000) ∧
        indexHas askYoung.orderId
          (removeExpiredOrders bookYoungOld 100000000000).activeOrders = true) :=
  ⟨reachable_bookYoungOld, by decide, by decide, by decide,
    expiry_keeps_fresh bookYoungOld reachable_bookYoungOld 100000000000 "sell" 100
      [askYoung, askOld] askYoung (by decide) (by decide) (by decide)⟩

/-! ## Orders with a non-positive quantity -/

theorem marketBuyStep_of_nonpos (id : String) (b : OrderBook) {q : Int} (hq : q ≤ 0) :
    marketBuyStep id (b, q) = .exit := by
  unfold marketBuyStep
  cases h : b.sellOrders with
  | nil => rfl
  | cons l rest =>
    obtain ⟨sp, sq⟩ := l
    have : ¬ (0 < q) := by omega
    simp [this]

theorem marketSellStep_of_nonpos (id : String) (b : OrderBook) {q : Int} (hq : q ≤ 0) :
    marketSellStep id (b, q) = .exit := by
  unfold marketSellStep
  cases h : b.buyOrders with
  | nil => rfl
  | cons l rest =>
    obtain ⟨sp, sq⟩ := l
    have : ¬ (0 < q) := by omega
    simp [this]

theorem uncrossed_registered {b : OrderBook} (o : Order) (hu : Uncrossed b) :
    Uncrossed (registered b o) := hu

theorem uncrossed_pushBuy {b : OrderBook} {o : Order} (hw : WF b) (hu : Uncrossed b)
    (h : ∀ sp ∈ keys b.sellOrders, o.price < sp) :
    Uncrossed { (registered b o) with buyOrders := pushOrder true o b.buyOrders } := by
  intro bp hbp sp hsp
  rcases (mem_keys_pushOrder hw.buy.sorted).1 hbp with rfl | hk
  · exact h sp hsp
  · exact hu bp hk sp hsp

theorem uncrossed_pushSell {b : OrderBook} {o : Order} (hw : WF b) (hu : Uncrossed b)
    (h : ∀ bp ∈ keys b.buyOrders, bp < o.price) :
    Uncrossed { (registered b o) with sellOrders := pushOrder false o b.sellOrders } := by
  intro bp hbp sp hsp
  rcases (mem_keys_pushOrder hw.sell.sorted).1 hsp with rfl | hk
  · exact h bp hbp
  · exact hu bp hbp sp hk

/-- C11 (amended): `addOrder` never looks at the quantity.  An order with a
quantity `≤ 0`, an id that is not in the index and a valid type and side is
accepted: its id is registered and the call returns normally.  A market order
then emits no fill and leaves both sides as they were; a limit order that does
not cross the opposite side is appended to the queue of its price level and
emits no fill. -/
theorem nonpositive_quantity_accepted (b : OrderBook) (hb : Reachable b) (o : Order)
    (hq : o.quantity ≤ 0) (hnew : indexHas o.orderId b.activeOrders = false)
    (htype : o.type = "limit" ∨ o.type = "market") (hside : o.side = "buy" ∨ o.side = "sell") :
    ∃ r, addOrder b o = .ok r ∧ r.status = .done ∧
      (o.type = "market" → r.book = registered b o ∧ r.fills = []) ∧
      (o.type = "limit" → o.side = "buy" → (∀ sp ∈ keys b.sellOrders, o.price < sp) →
        r.book = { (registered b o) with buyOrders := pushOrder true o b.buyOrders } ∧
          r.fills = []) ∧
      (o.type = "limit" → o.side = "sell" → (∀ bp ∈ keys b.buyOrders, bp < o.price) →
        r.book = { (registered b o) with sellOrders := pushOrder false o b.sellOrders } ∧
          r.fills = []) := by
  obtain ⟨hw, hu⟩ := hb.wf_uncrossed
  obtain ⟨r, hr, hspec⟩ := addOrder_spec o hw
  refine ⟨r, hr, ?_⟩
  cases hspec with
  | duplicate hd => rw [hnew] at hd; cases hd
  | limitBuy _ ht hs hm =>
    refine ⟨rfl, fun h => ?_, fun _ _ hc => ?_, fun _ h => ?_⟩
    · rw [ht] at h; exact absurd h (by decide)
    · exact Run.of_exit hm (matchStep_of_uncrossed (uncrossed_pushBuy hw hu hc))
    · rw [hs] at h; exact absurd h (by decide)
  | limitSell _ ht hs hm =>
    refine ⟨rfl, fun h => ?_, fun _ h => ?_, fun _ _ hc => ?_⟩
    · rw [ht] at h; exact absurd h (by decide)
    · rw [hs] at h; exact absurd h (by decide)
    · exact Run.of_exit hm (matchStep_of_uncrossed (uncrossed_pushSell hw hu hc))
  | @marketBuy s pre b1 fs _ ht _ hs hm =>
    obtain ⟨rfl, rfl⟩ := Run.of_exit hs (marketBuyStep_of_nonpos _ _ hq)
    obtain ⟨rfl, rfl⟩ := Run.of_exit hm (matchStep_of_uncrossed (uncrossed_registered o hu))
    refine ⟨rfl, fun _ => ⟨rfl, rfl⟩, fun h => ?_, fun h => ?_⟩ <;>
    · rw [ht] at h; exact absurd h (by decide)
  | @marketSell s pre b1 fs _ ht _ hs hm =>
    obtain ⟨rfl, rfl⟩ := Run.of_exit hs (marketSellStep_of_nonpos _ _ hq)
    obtain ⟨rfl, rfl⟩ := Run.of_exit hm (matchStep_of_uncrossed (uncrossed_registered o hu))
    refine ⟨rfl, fun _ => ⟨rfl, rfl⟩, fun h => ?_, fun h => ?_⟩ <;>
    · rw [ht] at h; exact absurd h (by decide)
  | invalidSide _ _ h1 h2 => rcases hside with h | h <;> contradiction
  | invalidType _ h1 h2 => rcases htype with h | h <;> contradiction

/-- C11 fails as stated: on the empty book a limit buy with the quantity 0 is not
rejected; it is queued at its price level and registered in the index.  A market
buy with the quantity -5 is registered in the index as well. -/
theorem invalid_quantity_counterexample :
    (bidZero.quantity ≤ 0 ∧
      addOrder emptyBook bidZero =
        .ok ⟨.done, ⟨[(99, [bidZero])], [], [("Z", bidZero)]⟩, []⟩ ∧
      (⟨[(99, [bidZero])], [], [("Z", bidZero)]⟩ : OrderBook) ≠ emptyBook) ∧
    (marketNegative.quantity ≤ 0 ∧
      addOrder emptyBook marketNegative =
        .ok ⟨.done, ⟨[], [], [("M", marketNegative)]⟩, []⟩ ∧
      (⟨[], [], [("M", marketNegative)]⟩ : OrderBook).activeOrders ≠ emptyBook.activeOrders) :=
  ⟨⟨by decide, rfl, by decide⟩, ⟨by decide, rfl, by decide⟩⟩

/-- Instance of `nonpositive_quantity_accepted` at the limit buy `bidZero` (0 units at
99) on the book that holds the ask `askA` at 100. -/
theorem nonpositive_quantity_witness :
    Reachable bookA ∧ bidZero.quantity ≤ 0 ∧
      indexHas bidZero.orderId bookA.activeOrders = false ∧
      addOrder bookA bidZero =
        .ok ⟨.done, ⟨[(99, [bidZero])], [(100, [askA])], [("Z", bidZero), ("A", askA)]⟩, []⟩ ∧
      ∃ r, addOrder bookA bidZero = .ok r ∧ r.status = .done ∧ r.fills = [] := by
  obtain ⟨r, hr, hs, _, h2, _⟩ :=
    nonpositive_quantity_accepted bookA reachable_bookA bidZero
      (by decide) rfl (Or.inl rfl) (Or.inl rfl)
  exact ⟨reachable_bookA, by decide, rfl, rfl, r, hr, hs, (h2 rfl rfl (by decide)).2⟩

/-! ## Ids in the index that do not rest -/

theorem cancelOrder_absent {b : OrderBook} {id : String}
    (h : indexHas id b.activeOrders = false) : cancelOrder b id = (false, b) := by
  unfold cancelOrder
  rw [indexHas_eq_false.1 h]

theorem reachable_bookAfterMarket : Reachable bookAfterMarket :=
  ⟨[.add askA, .add marketTwo], [⟨.marketBuy, 2, 100, "M", "A"⟩], rfl⟩

/-- C12 at the failing input: after the market buy `marketTwo` has returned, its
id "M" belongs to no resting order, yet `cancelOrder("M")` reports the id as found
("Canceled") and changes the index. -/
theorem cancel_of_market_id_found :
    runOps emptyBook [.add askA, .add marketTwo] =
        .ok (bookAfterMarket, [⟨.marketBuy, 2, 100, "M", "A"⟩]) ∧
      ¬ Rests bookAfterMarket "M" ∧
      cancelOrder bookAfterMarket "M" = (true, bookAfterCancel) ∧
      bookAfterCancel.activeOrders ≠ bookAfterMarket.activeOrders :=
  ⟨rfl, by decide, rfl, by decide⟩

/-- C13 at the failing input: after `addOrder` has returned for the market buy
`marketTwo`, its id "M" is still in the index although no order with that id rests
in any price-level queue. -/
theorem market_id_stays_indexed :
    addOrder bookA marketTwo =
        .ok ⟨.done, bookAfterMarket, [⟨.marketBuy, 2, 100, "M", "A"⟩]⟩ ∧
      indexHas "M" bookAfterMarket.activeOrders = true ∧
      ¬ Rests bookAfterMarket "M" :=
  ⟨rfl, by decide, by decide⟩

/-! ## No empty level -/

/-- C17: after every sequence of `addOrder`, `cancelOrder` and expiry-sweep calls from
the empty book, the run returns and every price level on either side holds a
non-empty queue. -/
theorem no_dangling_levels (ops : List Op) :
    ∃ b fs, runOps emptyBook ops = .ok (b, fs) ∧
      (∀ l ∈ b.buyOrders, l.2 ≠ []) ∧ (∀ l ∈ b.sellOrders, l.2 ≠ []) := by
  obtain ⟨b, fs, h, hw, _⟩ := runOps_ok ops wf_emptyBook uncrossed_emptyBook
  exact ⟨b, fs, h, hw.buy.noEmpty, hw.sell.noEmpty⟩

/-! ## Calls under the mutex -/

theorem finishAddLocked_held (b : OrderBook) (pre : List Fill) :
    finishAddLocked true b pre = .selfDeadlock := rfl

theorem sweepAddLocked_held {step : OrderBook × Int → Step (OrderBook × Int)} {b : OrderBook}
    {order : Order} {opposite : PriceMap} {r : (OrderBook × Int) × List Fill}
    (h : iterate step ((sideOrders opposite).length + 2) (b, order.quantity) = .ok r) :
    sweepAddLocked true step b order opposite = .selfDeadlock := by
  unfold sweepAddLocked
  rw [h]
  rfl

/-- Every call of `addOrder` that reaches its last line locks `mtx` a second time:
on a well-formed book, with the mutex free, a valid order whose id is not in the
index never returns. -/
theorem addOrderLocked_valid {b : OrderBook} (hw : WF b) {o : Order}
    (hnew : indexHas o.orderId b.activeOrders = false)
    (htype : o.type = "limit" ∨ o.type = "market") (hside : o.side = "buy" ∨ o.side = "sell") :
    addOrderLocked false b o = .selfDeadlock := by
  unfold addOrderLocked
  simp only [hnew, Bool.false_eq_true, if_false]
  rcases htype with ht | ht <;> rcases hside with hs | hs
  · simp only [ht, hs, if_true]; rfl
  · have : ¬ (o.side = "buy") := by rw [hs]; decide
    simp only [ht, this, hs, if_true, if_false]; rfl
  · have hl : ¬ (o.type = "limit") := by rw [ht]; decide
    simp only [hl, ht, hs, if_true, if_false]
    obtain ⟨s, pre, h, _⟩ := marketBuy_ok o.orderId o.quantity (WF.register_wf o hw hnew)
    exact sweepAddLocked_held h
  · have hl : ¬ (o.type = "limit") := by rw [ht]; decide
    have hb : ¬ (o.side = "buy") := by rw [hs]; decide
    simp only [hl, ht, hs, hb, if_true, if_false]
    obtain ⟨s, pre, h, _⟩ := marketSell_ok o.orderId o.quantity (WF.register_wf o hw hnew)
    exact sweepAddLocked_held h

/-- The calls that return with the mutex free: `cancelOrder`, `removeExpiredOrders`, and
`addOrder` when it is left by the duplicate check. -/
theorem single_lock_calls_return (b : OrderBook) (id : String) (now : Int) (o : Order)
    (h : indexHas o.orderId b.activeOrders = true) :
    cancelOrderLocked false b id = .returns (cancelOrder b id) ∧
      removeExpiredOrdersLocked false b now = .returns (removeExpiredOrders b now) ∧
      addOrderLocked false b o = .returns ⟨.duplicate, b, []⟩ := by
  refine ⟨rfl, rfl, ?_⟩
  unfold addOrderLocked
  simp [h]

/-- C15 at the failing input: on the empty book with the mutex free, `addOrder` of
the valid limit sell `askA` (10 units at 100, id "A") locks `mtx`, and its call of
`matchOrders()` locks `mtx` again while the guard of `addOrder` is alive: the call
does not return.  Without the second lock the same call returns at once. -/
theorem addOrder_relocks_mutex :
    indexHas askA.orderId emptyBook.activeOrders = false ∧
      addOrderLocked false emptyBook askA = .selfDeadlock ∧
      matchOrdersLocked true ⟨[], [(100, [askA])], [("A", askA)]⟩ = .selfDeadlock ∧
      addOrder emptyBook askA = .ok ⟨.done, bookA, []⟩ :=
  ⟨rfl, rfl, rfl, rfl⟩

/-! ## A limit order filled at once -/

theorem indexErase_of_absent {id : String} {idx : Index} (h : indexFind id idx = none) :
    indexErase id idx = idx := by
  induction idx with
  | nil => rfl
  | cons e rest ih =>
    obtain ⟨k, o⟩ := e
    simp only [indexFind] at h
    by_cases hk : k = id
    · simp [hk] at h
    · simp only [hk, if_false] at h
      have hp : (fun e : String × Order => decide (e.1 ≠ id)) (k, o) = true := by
        simpa using hk
      have hr : List.filter (fun e : String × Order => decide (e.1 ≠ id)) rest = rest := ih h
      show List.filter _ ((k, o) :: rest) = _
      rw [List.filter_cons, if_pos hp, hr]

theorem indexErase_indexSet_of_absent {id : String} (o : Order) {idx : Index}
    (h : indexFind id idx = none) : indexErase id (indexSet id o idx) = idx := by
  have h1 : indexErase id idx = idx := indexErase_of_absent h
  have hp : ¬ ((fun e : String × Order => decide (e.1 ≠ id)) (id, o) = true) := by simp
  show List.filter _ ((id, o) :: indexErase id idx) = _
  rw [List.filter_cons, if_neg hp, h1]
  exact h1

theorem Run.single {σ : Type} {step : σ → Step σ} {s s1 s2 : σ} {f : Fill} {fs : List Fill}
    (h : Run step s s2 fs) (h1 : step s = .next s1 f) (h2 : step s1 = .exit) :
    s2 = s1 ∧ fs = [f] := by
  cases h with
  | exit he => rw [he] at h1; cases h1
  | next hn hr =>
    rw [hn] at h1
    cases h1
    obtain ⟨rfl, rfl⟩ := Run.of_exit hr h2
    exact ⟨rfl, rfl⟩

theorem matchStep_fill_buy {b : OrderBook} {o s : Order} {sp : Int} {sq : List Order}
    {rest : PriceMap} (hu : Uncrossed b) (hq : PosQty o)
    (hnew : indexHas o.orderId b.activeOrders = false)
    (hs : b.sellOrders = (sp, s :: sq) :: rest) (hle : sp ≤ o.price)
    (hlt : o.quantity < s.quantity) (hmax : s.quantity < 2147483648) :
    matchStep { (registered b o) with buyOrders := pushOrder true o b.buyOrders } =
      .next
        { b with sellOrders := (sp, { s with quantity := s.quantity - o.quantity } :: sq) :: rest }
        ⟨.cross, o.quantity, sp, o.orderId, s.orderId⟩ := by
  have hfront : pushOrder true o b.buyOrders = (o.price, [o]) :: b.buyOrders := by
    refine pushOrder_front o ?_
    intro k hk
    have := hu k hk sp (head_mem_keys hs)
    simp [keyBefore]
    omega
  obtain ⟨h0, h1⟩ := hq
  have hmin : min o.quantity s.quantity = o.quantity := min_eq_left (by omega)
  have hb0 : wrap32 (o.quantity - o.quantity) = 0 := by simp [wrap32_zero]
  have hs0 : wrap32 (s.quantity - o.quantity) = s.quantity - o.quantity :=
    wrap32_of_int32 ⟨by omega, by omega⟩
  have hne : s.quantity - o.quantity ≠ 0 := by omega
  have hidx := indexErase_indexSet_of_absent o (indexHas_eq_false.1 hnew)
  simp only [matchStep, registered, hfront, hs, hle, if_true, hmin, hb0, hs0, settleBuy,
    settleSell, settleFront, settleIndex, hne, if_false, hidx]

theorem matchStep_fill_sell {b : OrderBook} {o s : Order} {bp : Int} {bq : List Order}
    {rest : PriceMap} (hu : Uncrossed b) (hq : PosQty o)
    (hnew : indexHas o.orderId b.activeOrders = false)
    (hs : b.buyOrders = (bp, s :: bq) :: rest) (hle : o.price ≤ bp)
    (hlt : o.quantity < s.quantity) (hmax : s.quantity < 2147483648) :
    matchStep { (registered b o) with sellOrders := pushOrder false o b.sellOrders } =
      .next
        { b with buyOrders := (bp, { s with quantity := s.quantity - o.quantity } :: bq) :: rest }
        ⟨.cross, o.quantity, o.price, s.orderId, o.orderId⟩ := by
  have hfront : pushOrder false o b.sellOrders = (o.price, [o]) :: b.sellOrders := by
    refine pushOrder_front o ?_
    intro k hk
    have := hu bp (head_mem_keys hs) k hk
    simp [keyBefore]
    omega
  obtain ⟨h0, h1⟩ := hq
  have hmin : min s.quantity o.quantity = o.quantity := min_eq_right (by omega)
  have hb0 : wrap32 (o.quantity - o.quantity) = 0 := by simp [wrap32_zero]
  have hs0 : wrap32 (s.quantity - o.quantity) = s.quantity - o.quantity :=
    wrap32_of_int32 ⟨by omega, by omega⟩
  have hne : s.quantity - o.quantity ≠ 0 := by omega
  have hidx := indexErase_indexSet_of_absent o (indexHas_eq_false.1 hnew)
  simp only [matchStep, registered, hfront, hs, hle, if_true, hmin, hb0, hs0, settleBuy,
    settleSell, settleFront, settleIndex, hne, if_false, hidx]

theorem not_rests_front_ask {b : OrderBook} {id : String} {s : Order} {sp : Int}
    {sq : List Order} {rest : PriceMap} (nq : Int) (h : ¬ Rests b id)
    (hs : b.sellOrders = (sp, s :: sq) :: rest) :
    ¬ Rests { b with sellOrders := (sp, { s with quantity := nq } :: sq) :: rest } id := by
  intro h1
  apply h
  simp only [Rests, restingOrders, hs, sideOrders] at h1 ⊢
  simpa using h1

theorem not_rests_front_bid {b : OrderBook} {id : String} {s : Order} {bp : Int}
    {bq : List Order} {rest : PriceMap} (nq : Int) (h : ¬ Rests b id)
    (hs : b.buyOrders = (bp, s :: bq) :: rest) :
    ¬ Rests { b with buyOrders := (bp, { s with quantity := nq } :: bq) :: rest } id := by
  intro h1
  apply h
  simp only [Rests, restingOrders, hs, sideOrders] at h1 ⊢
  simpa using h1

theorem not_rests_of_absent {b : OrderBook} (hw : WF b) {id : String}
    (h : indexHas id b.activeOrders = false) : ¬ Rests b id :=
  fun hr => hw.linked.not_mem_of_absent h (rests_iff.1 hr)

/-- C14: the end-to-end scenario, and the general rule behind it.  From the empty
book, the limit sells `S1` (10 at 100) and `S2` (5 at 101) and the limit buy `B1`
(8 at 100) produce exactly one fill, 8 units at 100 between `B1` and `S1`; `S1` then
rests with 2 units at 100 and `S2` with 5 at 101, the bid side is empty, and the
index holds `S1` and `S2` but not `B1`.  In general, on a reachable book a limit
order with a new id that crosses the best opposite level, whose front order has
strictly more quantity, yields exactly one fill for its whole quantity, leaves the
front order with the difference, and neither rests nor stays in the index. -/
theorem end_to_end_scenario :
    runOps emptyBook [.add askS1, .add askS2, .add bidB1] =
        .ok (⟨[], [(100, [{ askS1 with quantity := 2 }]), (101, [askS2])],
              [("S2", askS2), ("S1", askS1)]⟩,
            [⟨.cross, 8, 100, "B1", "S1"⟩]) ∧
      ∀ (b : OrderBook), Reachable b → ∀ (o : Order), PosQty o → o.type = "limit" →
        indexHas o.orderId b.activeOrders = false →
        (o.side = "buy" → ∀ sp s sq rest, b.sellOrders = (sp, s :: sq) :: rest →
          sp ≤ o.price → o.quantity < s.quantity → s.quantity < 2147483648 →
          ∃ r, addOrder b o = .ok r ∧ r.status = .done ∧
            r.fills = [⟨.cross, o.quantity, sp, o.orderId, s.orderId⟩] ∧
            r.book = { b with sellOrders :=
              (sp, { s with quantity := s.quantity - o.quantity } :: sq) :: rest } ∧
            ¬ Rests r.book o.orderId ∧ indexHas o.orderId r.book.activeOrders = false) ∧
        (o.side = "sell" → ∀ bp s bq rest, b.buyOrders = (bp, s :: bq) :: rest →
          o.price ≤ bp → o.quantity < s.quantity → s.quantity < 2147483648 →
          ∃ r, addOrder b o = .ok r ∧ r.status = .done ∧
            r.fills = [⟨.cross, o.quantity, o.price, s.orderId, o.orderId⟩] ∧
            r.book = { b with buyOrders :=
              (bp, { s with quantity := s.quantity - o.quantity } :: bq) :: rest } ∧
            ¬ Rests r.book o.orderId ∧ indexHas o.orderId r.book.activeOrders = false) := by
  refine ⟨rfl, ?_⟩
  intro b hb o hq hlimit hnew
  obtain ⟨hw, hu⟩ := hb.wf_uncrossed
  obtain ⟨r, hr, hspec⟩ := addOrder_spec o hw
  have hnr : ¬ Rests b o.orderId := not_rests_of_absent hw hnew
  constructor
  · intro hside sp s sq rest hs hle hlt hmax
    have hstep := matchStep_fill_buy hu hq hnew hs hle hlt hmax
    have hexit : matchStep { b with sellOrders :=
        (sp, { s with quantity := s.quantity - o.quantity } :: sq) :: rest } = .exit := by
      apply matchStep_of_uncrossed
      refine Uncrossed.of_keys hu (fun k hk => hk) (fun k hk => ?_)
      rw [hs]; exact hk
    refine ⟨r, hr, ?_⟩
    cases hspec with
    | duplicate hd => rw [hnew] at hd; cases hd
    | limitBuy _ _ _ hm =>
      obtain ⟨rfl, rfl⟩ := hm.single hstep hexit
      exact ⟨rfl, rfl, rfl, not_rests_front_ask _ hnr hs, hnew⟩
    | limitSell _ _ h _ => rw [hside] at h; exact absurd h (by decide)
    | marketBuy _ h _ _ _ => rw [hlimit] at h; exact absurd h (by decide)
    | marketSell _ h _ _ _ => rw [hlimit] at h; exact absurd h (by decide)
    | invalidSide _ _ h _ => exact absurd hside h
    | invalidType _ h _ => exact absurd hlimit h
  · intro hside bp s bq rest hs hle hlt hmax
    have hstep := matchStep_fill_sell hu hq hnew hs hle hlt hmax
    have hexit : matchStep { b with buyOrders :=
        (bp, { s with quantity := s.quantity - o.quantity } :: bq) :: rest } = .exit := by
      apply matchStep_of_uncrossed
      refine Uncrossed.of_keys hu (fun k hk => ?_) (fun k hk => hk)
      rw [hs]; exact hk
    refine ⟨r, hr, ?_⟩
    cases hspec with
    | duplicate hd => rw [hnew] at hd; cases hd
    | limitBuy _ _ h _ => rw [hside] at h; exact absurd h (by decide)
    | limitSell _ _ _ hm =>
      obtain ⟨rfl, rfl⟩ := hm.single hstep hexit
      exact ⟨rfl, rfl, rfl, not_rests_front_bid _ hnr hs, hnew⟩
    | marketBuy _ h _ _ _ => rw [hlimit] at h; exact absurd h (by decide)
    | marketSell _ h _ _ _ => rw [hlimit] at h; exact absurd h (by decide)
    | invalidSide _ _ _ h => exact absurd hside h
    | invalidType _ h _ => exact absurd hlimit h

theorem reachable_bookS1S2 : Reachable bookS1S2 := ⟨[.add askS1, .add askS2], [], rfl⟩

/-- Instance of the general part of `end_to_end_scenario` at the book holding `S1` and
`S2` and the incoming bid `B1`. -/
theorem end_to_end_witness :
    Reachable bookS1S2 ∧ PosQty bidB1 ∧ bidB1.type = "limit" ∧
      indexHas bidB1.orderId bookS1S2.activeOrders = false ∧
      ∃ r, addOrder bookS1S2 bidB1 = .ok r ∧ r.status = .done ∧
        r.fills = [⟨.cross, 8, 100, "B1", "S1"⟩] ∧
        r.book = ⟨[], [(100, [{ askS1 with quantity := 2 }]), (101, [askS2])],
          [("S2", askS2), ("S1", askS1)]⟩ ∧
        ¬ Rests r.book "B1" ∧ indexHas "B1" r.book.activeOrders = false :=
  ⟨reachable_bookS1S2, by decide, rfl, rfl,
    (end_to_end_scenario.2 bookS1S2 reachable_bookS1S2 bidB1 (by decide) rfl rfl).1 rfl
      100 askS1 [] [(101, [askS2])] rfl (by decide) (by decide) (by decide)⟩

/-! ## Cancellation is local -/

theorem sideOrders_append (x y : PriceMap) :
    sideOrders (x ++ y) = sideOrders x ++ sideOrders y := by
  induction x with
  | nil => rfl
  | cons l rest ih =>
    obtain ⟨k, q⟩ := l
    show sideOrders ((k, q) :: (rest ++ y)) = _
    simp only [sideOrders, ih, List.append_assoc]

theorem keys_append (x y : PriceMap) : keys (x ++ y) = keys x ++ keys y := by
  simp [keys]

theorem SortedKeys.before_mid {desc : Bool} {pre post : PriceMap} {p : Int} {q : List Order}
    (hs : SortedKeys desc (pre ++ (p, q) :: post)) :
    (∀ k ∈ keys pre, keyBefore desc k p = true) ∧ (∀ k ∈ keys post, keyBefore desc p k = true) := by
  unfold SortedKeys at hs
  rw [keys_append, List.pairwise_append] at hs
  obtain ⟨_, h2, h3⟩ := hs
  constructor
  · intro k hk
    exact h3 k hk p (by simp [keys])
  · intro k hk
    have h4 : (keys ((p, q) :: post)).Pairwise (fun a b => keyBefore desc a b = true) := h2
    simp only [keys, List.map_cons, List.pairwise_cons] at h4
    exact h4.1 k hk

theorem mapSet_at {desc : Bool} {p : Int} (q : List Order) {q0 : List Order} :
    ∀ {pre post : PriceMap}, SortedKeys desc (pre ++ (p, q0) :: post) →
      mapSet desc p q (pre ++ (p, q0) :: post) = pre ++ (p, q) :: post := by
  intro pre
  induction pre with
  | nil => intro post _; simp [mapSet]
  | cons l rest ih =>
    intro post hs
    obtain ⟨k, qk⟩ := l
    have hk : keyBefore desc k p = true := by
      have := (sortedKeys_cons.1 (by simpa using hs)).1 p (by simp [keys])
      exact this
    have hne : k ≠ p := keyBefore_ne hk
    have hnb : keyBefore desc p k = false := keyBefore_asymm hk
    have htail : SortedKeys desc (rest ++ (p, q0) :: post) := SortedKeys.tail (by simpa using hs)
    show mapSet desc p q ((k, qk) :: (rest ++ (p, q0) :: post)) = _
    simp only [mapSet, hne, if_false, hnb, Bool.false_eq_true, ih htail, List.cons_append]

theorem mapErase_at {desc : Bool} {p : Int} {q0 : List Order} {pre post : PriceMap}
    (hs : SortedKeys desc (pre ++ (p, q0) :: post)) :
    mapErase p (pre ++ (p, q0) :: post) = pre ++ post := by
  obtain ⟨h1, h2⟩ := hs.before_mid
  have e1 : mapErase p pre = pre :=
    mapErase_of_not_mem (fun hk => keyBefore_ne (h1 p hk) rfl)
  have e2 : mapErase p post = post :=
    mapErase_of_not_mem (fun hk => keyBefore_ne (h2 p hk) rfl)
  have hp : ¬ ((fun l : Int × List Order => decide (l.1 ≠ p)) (p, q0) = true) := by simp
  show List.filter _ (pre ++ (p, q0) :: post) = _
  rw [List.filter_append, List.filter_cons, if_neg hp]
  exact congrArg₂ _ e1 e2

theorem filter_ne_at {id : String} {o : Order} {q1 q2 : List Order} (ho : o.orderId = id)
    (h1 : ∀ r ∈ q1, r.orderId ≠ id) (h2 : ∀ r ∈ q2, r.orderId ≠ id) :
    (q1 ++ o :: q2).filter (fun r => decide (r.orderId ≠ id)) = q1 ++ q2 := by
  have e1 : q1.filter (fun r => decide (r.orderId ≠ id)) = q1 :=
    List.filter_eq_self.2 (fun r hr => by simpa using h1 r hr)
  have e2 : q2.filter (fun r => decide (r.orderId ≠ id)) = q2 :=
    List.filter_eq_self.2 (fun r hr => by simpa using h2 r hr)
  have hp : ¬ ((fun r : Order => decide (r.orderId ≠ id)) o = true) := by simp [ho]
  rw [List.filter_append, List.filter_cons, if_neg hp, e1, e2]

/-- The queue rebuild of `cancelOrder`, for an order `o` that rests on a well-formed
side whose ids are pairwise distinct: the level of `o` loses `o` and nothing else,
and is erased when `o` was alone; all other levels stay where they are. -/
theorem cancelSide_at {desc : Bool} {side : String} {m : PriceMap} (hw : SideWF desc side m)
    (hnd : (ids m).Nodup) {o : Order} (ho : o ∈ sideOrders m) :
    ∃ pre q1 q2 post, m = pre ++ (o.price, q1 ++ o :: q2) :: post ∧
      cancelSide desc o.price o.orderId m =
        pre ++ (if q1 ++ q2 = [] then post else (o.price, q1 ++ q2) :: post) := by
  obtain ⟨l, hl, hol⟩ := mem_sideOrders.1 ho
  obtain ⟨pre, post, rfl⟩ := List.append_of_mem hl
  obtain ⟨q1, q2, hq⟩ := List.append_of_mem hol
  obtain ⟨k, q⟩ := l
  have hk : o.price = k := (hw.levelOK _ hl o hol).2
  simp only at hq
  subst hq
  subst hk
  refine ⟨pre, q1, q2, post, rfl, ?_⟩
  have hget : mapGet o.price (pre ++ (o.price, q1 ++ o :: q2) :: post) = q1 ++ o :: q2 :=
    mapGet_of_mem hw.sorted hl
  have hnd1 : ((q1 ++ o :: q2).map (fun r => r.orderId)).Nodup := by
    unfold ids at hnd
    rw [sideOrders_append, List.map_append] at hnd
    have h1 := (List.nodup_append.1 hnd).2.1
    simp only [sideOrders] at h1
    rw [List.map_append] at h1
    exact (List.nodup_append.1 h1).1
  rw [List.map_append, List.map_cons] at hnd1
  have hq1 : ∀ r ∈ q1, r.orderId ≠ o.orderId := by
    intro r hr he
    have := (List.nodup_append.1 hnd1).2.2
    exact this (List.mem_map_of_mem _ hr) (by rw [he]; exact List.mem_cons_self _ _)
  have hq2 : ∀ r ∈ q2, r.orderId ≠ o.orderId := by
    intro r hr he
    have h3 := (List.nodup_cons.1 (List.nodup_append.1 hnd1).2.1).1
    exact h3 (by rw [← he]; exact List.mem_map_of_mem _ hr)
  rw [cancelSide_eq, hget, filter_ne_at rfl hq1 hq2]
  by_cases he : q1 ++ q2 = []
  · rw [if_pos he, if_pos he, mapErase_at hw.sorted]
  · rw [if_neg he, if_neg he, mapSet_at _ hw.sorted]

theorem cancelOrder_resting_buy {b : OrderBook} (hw : WF b) {o : Order}
    (ho : o ∈ sideOrders b.buyOrders) :
    cancelOrder b o.orderId =
      (true, { buyOrders := cancelSide true o.price o.orderId b.buyOrders
               sellOrders := b.sellOrders
               activeOrders := indexErase o.orderId b.activeOrders }) := by
  obtain ⟨e, he, hside, hprice⟩ := hw.linked.covX o ho
  have hs : e.side = "buy" := hside.trans (hw.resting_buy ho).1
  unfold cancelOrder
  rw [he]
  simp only [hs, if_true, hprice]

theorem cancelOrder_resting_sell {b : OrderBook} (hw : WF b) {o : Order}
    (ho : o ∈ sideOrders b.sellOrders) :
    cancelOrder b o.orderId =
      (true, { buyOrders := b.buyOrders
               sellOrders := cancelSide false o.price o.orderId b.sellOrders
               activeOrders := indexErase o.orderId b.activeOrders }) := by
  obtain ⟨e, he, hside, hprice⟩ := hw.linked.covY o ho
  have hs : e.side = "sell" := hside.trans (hw.resting_sell ho).1
  have hb : ¬ (e.side = "buy") := by rw [hs]; decide
  unfold cancelOrder
  rw [he]
  simp only [if_neg hb, if_pos hs, hprice]

theorem indexFind_indexErase (id x : String) (idx : Index) :
    indexFind id (indexErase x idx) = if id = x then none else indexFind id idx := by
  by_cases h : id = x
  · rw [if_pos h, h]; exact indexFind_indexErase_self x idx
  · rw [if_neg h]; exact indexFind_indexErase_ne h idx

/-- C16: cancelling a resting order changes nothing but that order.  On a reachable
book, for an order `o` resting in it: the side of `o` is the same list of levels as
before, except that the queue of the level of `o` has lost `o`, the orders before
and behind it keeping their places, their quantities and their relative order, and
that this level is erased when `o` was alone in it; the opposite side is unchanged;
and the index answers every lookup as before, except that the id of `o` is gone. -/
theorem cancel_is_local (b : OrderBook) (hb : Reachable b) (o : Order)
    (ho : o ∈ restingOrders b) :
    (o.side = "buy" ∨ o.side = "sell") ∧
      (∃ pre q1 q2 post,
        sideMap b o.side = pre ++ (o.price, q1 ++ o :: q2) :: post ∧
        sideMap (cancelOrder b o.orderId).2 o.side =
          pre ++ (if q1 ++ q2 = [] then post else (o.price, q1 ++ q2) :: post)) ∧
      (o.side = "buy" → (cancelOrder b o.orderId).2.sellOrders = b.sellOrders) ∧
      (o.side = "sell" → (cancelOrder b o.orderId).2.buyOrders = b.buyOrders) ∧
      ∀ id, indexFind id (cancelOrder b o.orderId).2.activeOrders =
        if id = o.orderId then none else indexFind id b.activeOrders := by
  obtain ⟨hw, _⟩ := hb.wf_uncrossed
  rcases List.mem_append.1 ho with h | h
  · have hside : o.side = "buy" := (hw.resting_buy h).1
    have hne : ¬ (o.side = "sell") := by rw [hside]; decide
    rw [cancelOrder_resting_buy hw h]
    refine ⟨Or.inl hside, ?_, fun _ => rfl, fun hs => absurd hs hne,
      fun id => indexFind_indexErase id _ _⟩
    simp only [sideMap, hside, if_true]
    exact cancelSide_at hw.buy hw.nodup_buy h
  · have hside : o.side = "sell" := (hw.resting_sell h).1
    have hne : ¬ (o.side = "buy") := by rw [hside]; decide
    rw [cancelOrder_resting_sell hw h]
    refine ⟨Or.inr hside, ?_, fun hs => absurd hs hne, fun _ => rfl,
      fun id => indexFind_indexErase id _ _⟩
    simp only [sideMap, hne, if_false]
    exact cancelSide_at hw.sell hw.nodup_sell h

/-- Instance of `cancel_is_local` at the book in which `askA` rests in front of `askB`:
cancelling "A" leaves `askB` alone in the level at 100. -/
theorem cancel_is_local_witness :
    Reachable bookAB ∧ askA ∈ restingOrders bookAB ∧
      cancelOrder bookAB "A" = (true, ⟨[], [(100, [askB])], [("B", askB)]⟩) ∧
      ∃ pre q1 q2 post,
        sideMap bookAB askA.side = pre ++ (askA.price, q1 ++ askA :: q2) :: post ∧
        sideMap (cancelOrder bookAB askA.orderId).2 askA.side =
          pre ++ (if q1 ++ q2 = [] then post else (askA.price, q1 ++ q2) :: post) :=
  ⟨reachable_bookAB, by decide, rfl,
    (cancel_is_local bookAB reachable_bookAB askA (by decide)).2.1⟩

/-! ## Orders that reach zero leave the queue and the index -/

theorem indexHas_settleIndex_of_absent {x : String} {idx : Index} (nq : Int) (id : String)
    (h : indexHas x idx = false) : indexHas x (settleIndex nq id idx) = false := by
  rw [indexHas_eq_false] at h ⊢
  unfold settleIndex
  split
  · rw [indexFind_indexErase, h]; simp
  · exact h

theorem mem_ids_settleFront {m : PriceMap} {k : Int} {o : Order} {q : List Order}
    {rest : PriceMap} {nq : Int} {x : String} (hne : NoEmpty m) (hm : m = (k, o :: q) :: rest)
    (hx : x ∈ ids m) (h : x ≠ o.orderId ∨ nq ≠ 0) : x ∈ ids (settleFront nq m) := by
  unfold ids at hx ⊢
  rw [sideOrders_settleFront nq hne, ids_settleList]
  split
  · next h0 =>
    rcases h with h | h
    · rw [hm] at hx ⊢
      simp only [sideOrders, List.cons_append, List.map_cons, List.mem_cons, h, false_or] at hx
      simpa [sideOrders] using hx
    · exact absurd h0 h
  · exact hx

theorem restsOrGone_settleBuy {b : OrderBook} {k : Int} {o : Order} {q : List Order}
    {rest : PriceMap} (nq : Int) {x : String} (hw : WF b)
    (hb : b.buyOrders = (k, o :: q) :: rest) (h : RestsOrGone b x) :
    RestsOrGone (settleBuy nq o.orderId b) x := by
  rcases h with hr | hg
  · by_cases hx : x = o.orderId ∧ nq = 0
    · right
      rw [hx.1, indexHas_eq_false]
      simp only [settleBuy, settleIndex, hx.2, if_true]
      exact indexFind_indexErase_self _ _
    · left
      have hx1 : x ≠ o.orderId ∨ nq ≠ 0 := by
        by_cases h1 : x = o.orderId
        · exact Or.inr (fun h2 => hx ⟨h1, h2⟩)
        · exact Or.inl h1
      rw [rests_iff] at hr ⊢
      rcases List.mem_append.1 hr with h1 | h1
      · exact List.mem_append_left _ (mem_ids_settleFront hw.buy.noEmpty hb h1 hx1)
      · exact List.mem_append_right _ h1
  · right
    exact indexHas_settleIndex_of_absent nq _ hg

theorem restsOrGone_settleSell {b : OrderBook} {k : Int} {o : Order} {q : List Order}
    {rest : PriceMap} (nq : Int) {x : String} (hw : WF b)
    (hb : b.sellOrders = (k, o :: q) :: rest) (h : RestsOrGone b x) :
    RestsOrGone (settleSell nq o.orderId b) x := by
  rcases h with hr | hg
  · by_cases hx : x = o.orderId ∧ nq = 0
    · right
      rw [hx.1, indexHas_eq_false]
      simp only [settleSell, settleIndex, hx.2, if_true]
      exact indexFind_indexErase_self _ _
    · left
      have hx1 : x ≠ o.orderId ∨ nq ≠ 0 := by
        by_cases h1 : x = o.orderId
        · exact Or.inr (fun h2 => hx ⟨h1, h2⟩)
        · exact Or.inl h1
      rw [rests_iff] at hr ⊢
      rcases List.mem_append.1 hr with h1 | h1
      · exact List.mem_append_left _ h1
      · exact List.mem_append_right _ (mem_ids_settleFront hw.sell.noEmpty hb h1 hx1)
  · right
    exact indexHas_settleIndex_of_absent nq _ hg

theorem matchStep_restsOrGone {x : String} {b b1 : OrderBook} {f : Fill}
    (hi : WF b ∧ RestsOrGone b x) (h : matchStep b = .next b1 f) :
    WF b1 ∧ RestsOrGone b1 x := by
  refine ⟨matchStep_wf hi.1 h, ?_⟩
  obtain ⟨bp, bo, bq, brest, sp, so, sq, srest, hb, hs, _, rfl, _⟩ := matchStep_next h
  exact restsOrGone_settleSell _ (hi.1.settle_buy_wf _ hb) hs
    (restsOrGone_settleBuy _ hi.1 hb hi.2)

theorem marketBuyStep_restsOrGone {x id : String} {s s1 : OrderBook × Int} {f : Fill}
    (hi : WF s.1 ∧ RestsOrGone s.1 x) (h : marketBuyStep id s = .next s1 f) :
    WF s1.1 ∧ RestsOrGone s1.1 x := by
  refine ⟨marketBuyStep_wf hi.1 h, ?_⟩
  obtain ⟨sp, so, sq, srest, hs, _, rfl, _⟩ := marketBuyStep_next h
  exact restsOrGone_settleSell _ hi.1 hs hi.2

theorem marketSellStep_restsOrGone {x id : String} {s s1 : OrderBook × Int} {f : Fill}
    (hi : WF s.1 ∧ RestsOrGone s.1 x) (h : marketSellStep id s = .next s1 f) :
    WF s1.1 ∧ RestsOrGone s1.1 x := by
  refine ⟨marketSellStep_wf hi.1 h, ?_⟩
  obtain ⟨bp, bo, bq, brest, hb, _, rfl, _⟩ := marketSellStep_next h
  exact restsOrGone_settleBuy _ hi.1 hb hi.2

/-- Through a call of `addOrder`, an id that rests in the book, or that is newly
queued by the call, either still rests afterwards or has left the index. -/
theorem AddSpec.restsOrGone {b : OrderBook} {o : Order} {r : AddResult} (h : AddSpec b o r)
    (hw : WF b) {x : String}
    (hx : Rests b x ∨ (x = o.orderId ∧ indexHas o.orderId b.activeOrders = false ∧
      o.type = "limit" ∧ (o.side = "buy" ∨ o.side = "sell"))) :
    RestsOrGone r.book x := by
  cases h with
  | duplicate hd =>
    rcases hx with hx | ⟨_, hn, _⟩
    · exact Or.inl hx
    · rw [hn] at hd; cases hd
  | limitBuy hn _ hs hm =>
    refine (Run.inv (fun s => WF s ∧ RestsOrGone s x)
      (fun s s1 f hi hn => matchStep_restsOrGone hi hn) hm ⟨hw.pushBuy hn hs, Or.inl ?_⟩).1.2
    have hp := (restingOrders_pushBuy_perm o hw).symm
    rcases hx with hx | ⟨hx, _⟩
    · exact (hp.map _).subset (List.mem_cons_of_mem _ hx)
    · rw [hx]; exact (hp.map _).subset (List.mem_cons_self _ _)
  | limitSell hn _ hs hm =>
    refine (Run.inv (fun s => WF s ∧ RestsOrGone s x)
      (fun s s1 f hi hn => matchStep_restsOrGone hi hn) hm ⟨hw.pushSell hn hs, Or.inl ?_⟩).1.2
    have hp := (restingOrders_pushSell_perm o hw).symm
    rcases hx with hx | ⟨hx, _⟩
    · exact (hp.map _).subset (List.mem_cons_of_mem _ hx)
    · rw [hx]; exact (hp.map _).subset (List.mem_cons_self _ _)
  | @marketBuy s pre b1 fs hn ht _ hs hm =>
    have hx1 : Rests b x := by
      rcases hx with hx | ⟨_, _, h1, _⟩
      · exact hx
      · rw [ht] at h1; exact absurd h1 (by decide)
    have h1 := (Run.inv (fun t : OrderBook × Int => WF t.1 ∧ RestsOrGone t.1 x)
      (fun s s1 f hi hn => marketBuyStep_restsOrGone hi hn) hs
      ⟨WF.register_wf o hw hn, Or.inl hx1⟩).1
    exact (Run.inv (fun s => WF s ∧ RestsOrGone s x)
      (fun s s1 f hi hn => matchStep_restsOrGone hi hn) hm h1).1.2
  | @marketSell s pre b1 fs hn ht _ hs hm =>
    have hx1 : Rests b x := by
      rcases hx with hx | ⟨_, _, h1, _⟩
      · exact hx
      · rw [ht] at h1; exact absurd h1 (by decide)
    have h1 := (Run.inv (fun t : OrderBook × Int => WF t.1 ∧ RestsOrGone t.1 x)
      (fun s s1 f hi hn => marketSellStep_restsOrGone hi hn) hs
      ⟨WF.register_wf o hw hn, Or.inl hx1⟩).1
    exact (Run.inv (fun s => WF s ∧ RestsOrGone s x)
      (fun s s1 f hi hn => matchStep_restsOrGone hi hn) hm h1).1.2
  | invalidSide hn ht h1 h2 =>
    rcases hx with hx | ⟨_, _, _, hs⟩
    · exact Or.inl hx
    · rcases hs with hs | hs <;> contradiction
  | invalidType hn h1 h2 =>
    rcases hx with hx | ⟨_, _, ht, _⟩
    · exact Or.inl hx
    · contradiction

theorem remOf_of_unique {l : List Order} (hnd : (l.map (fun o => o.orderId)).Nodup)
    {r : Order} (hr : r ∈ l) : remOf r.orderId l = r.quantity := by
  induction l with
  | nil => cases hr
  | cons a t ih =>
    rw [List.map_cons, List.nodup_cons] at hnd
    rw [remOf_cons]
    rcases List.mem_cons.1 hr with rfl | hr1
    · have h0 : remOf r.orderId t = 0 :=
        remOf_eq_zero _ (fun r1 hr1 he => hnd.1 (by rw [← he]; exact List.mem_map_of_mem _ hr1))
      simp [h0]
    · have hne : a.orderId ≠ r.orderId := fun he =>
        hnd.1 (by rw [he]; exact List.mem_map_of_mem _ hr1)
      simp [hne, ih hnd.2 hr1]

theorem remOf_pos {x : String} {l : List Order} (hpos : ∀ r ∈ l, 0 < r.quantity)
    (hx : x ∈ l.map (fun o => o.orderId)) : 0 < remOf x l := by
  induction l with
  | nil => cases hx
  | cons a t ih =>
    have ht : ∀ r ∈ t, 0 < r.quantity := fun r hr => hpos r (List.mem_cons_of_mem _ hr)
    have h0 : 0 ≤ remOf x t := remOf_nonneg x (fun r hr => le_of_lt (ht r hr))
    have ha : 0 < a.quantity := hpos a (List.mem_cons_self _ _)
    rw [remOf_cons]
    by_cases he : a.orderId = x
    · rw [if_pos he]; omega
    · rw [if_neg he]
      rw [List.map_cons, List.mem_cons] at hx
      rcases hx with hx | hx
      · exact absurd hx.symm he
      · have := ih ht hx
        omega

theorem WF.nodup_resting {b : OrderBook} (hw : WF b) :
    ((restingOrders b).map (fun o => o.orderId)).Nodup := by
  have := hw.linked.nodup
  simpa [ids, restingOrders] using this

theorem not_rests_of_filled {b1 : OrderBook} {x : String} (hp : PosBook b1)
    (h : remOf x (restingOrders b1) ≤ 0) : ¬ Rests b1 x := by
  intro hr
  have := remOf_pos (fun r hr => (hp r hr).1) hr
  omega

/-- C18: resting orders have a positive quantity, and an order that reaches zero
is gone.  On a book reached by submissions of positive quantities, after any
further call that submits a positive quantity (or cancels, or sweeps): every
resting order has a quantity `> 0`; a resting order whose fills in this call sum
to its remaining quantity neither rests nor is in the index afterwards; and the
same holds for an incoming limit order whose fills sum to its quantity. -/
theorem resting_quantity_positive (b : OrderBook) (hb : PosReachable b) (op : Op)
    (hop : ∀ o, op = Op.add o → PosQty o) :
    ∃ b1 fs, applyOp b op = .ok (b1, fs) ∧
      (∀ r ∈ restingOrders b1, 0 < r.quantity) ∧
      (∀ r ∈ restingOrders b, filledFor r.orderId fs = r.quantity →
        ¬ Rests b1 r.orderId ∧ indexHas r.orderId b1.activeOrders = false) ∧
      (∀ o, op = Op.add o → o.type = "limit" → (o.side = "buy" ∨ o.side = "sell") →
        indexHas o.orderId b.activeOrders = false → filledFor o.orderId fs = o.quantity →
        ¬ Rests b1 o.orderId ∧ indexHas o.orderId b1.activeOrders = false) := by
  obtain ⟨hw, hp⟩ := hb.posBook
  cases op with
  | add o =>
    obtain ⟨r, h1, h2⟩ := addOrder_spec o hw
    have hq := hop o rfl
    have hp1 : PosBook r.book := (h2.acct_add "" hw hp hq).1
    refine ⟨r.book, r.fills, by simp [applyOp, h1], fun r0 hr0 => (hp1 r0 hr0).1, ?_, ?_⟩
    · intro r0 hr0 hfill
      have hacc := (h2.acct_add r0.orderId hw hp hq).2.2
      have hidx : indexHas r0.orderId b.activeOrders = true := hw.indexed_of_resting hr0
      have h0 : acceptedBy r0.orderId b (.add o) = 0 := by simp [acceptedBy, hidx]
      rw [remOf_of_unique hw.nodup_resting hr0, h0, hfill] at hacc
      have hnr : ¬ Rests r.book r0.orderId := not_rests_of_filled hp1 (by omega)
      have hrest : Rests b r0.orderId := List.mem_map_of_mem _ hr0
      rcases h2.restsOrGone hw (Or.inl hrest) with h3 | h3
      · exact absurd h3 hnr
      · exact ⟨hnr, h3⟩
    · intro o1 ho1 hlimit hside hnew hfill
      cases ho1
      have hacc := (h2.acct_add o.orderId hw hp hq).2.2
      have h0 : acceptedBy o.orderId b (.add o) = o.quantity := by simp [acceptedBy, hnew]
      rw [remOf_of_absent hw hnew, h0, hfill] at hacc
      have hnr : ¬ Rests r.book o.orderId := not_rests_of_filled hp1 (by omega)
      rcases h2.restsOrGone hw (Or.inr ⟨rfl, hnew, hlimit, hside⟩) with h3 | h3
      · exact absurd h3 hnr
      · exact ⟨hnr, h3⟩
  | cancel id =>
    obtain ⟨b1, fs, h1, _, hp1, _, _⟩ := applyOp_acct "" (.cancel id) hw hp hop
    have hfs : fs = [] := by
      have h4 := h1
      simp [applyOp] at h4
      exact h4.2
    subst hfs
    refine ⟨b1, [], h1, fun r0 hr0 => (hp1 r0 hr0).1, ?_, fun o ho => by cases ho⟩
    intro r0 hr0 hfill
    have := (hp r0 hr0).1
    rw [filledFor_nil] at hfill
    omega
  | expire now =>
    obtain ⟨b1, fs, h1, _, hp1, _, _⟩ := applyOp_acct "" (.expire now) hw hp hop
    have hfs : fs = [] := by
      have h4 := h1
      simp [applyOp] at h4
      exact h4.2
    subst hfs
    refine ⟨b1, [], h1, fun r0 hr0 => (hp1 r0 hr0).1, ?_, fun o ho => by cases ho⟩
    intro r0 hr0 hfill
    have := (hp r0 hr0).1
    rw [filledFor_nil] at hfill
    omega

/-- Instance of `resting_quantity_positive` at the bid of 12 units submitted to the book
holding `askA` (10 units): `askA` is filled whole and leaves the queue and the
index; the bid rests with 2 units. -/
theorem resting_quantity_witness :
    PosReachable bookA ∧ PosQty bidTwelve ∧
      applyOp bookA (.add bidTwelve) =
        .ok (⟨[(100, [{ bidTwelve with quantity := 2 }])], [], [("D", bidTwelve)]⟩,
          [⟨.cross, 10, 100, "D", "A"⟩]) ∧
      ∃ b1 fs, applyOp bookA (.add bidTwelve) = .ok (b1, fs) ∧
        (∀ r ∈ restingOrders b1, 0 < r.quantity) ∧
        (∀ r ∈ restingOrders bookA, filledFor r.orderId fs = r.quantity →
          ¬ Rests b1 r.orderId ∧ indexHas r.orderId b1.activeOrders = false) := by
  obtain ⟨b1, fs, h1, h2, h3, _⟩ :=
    resting_quantity_positive bookA posReachable_bookA (.add bidTwelve)
      (fun o ho => by cases ho; decide)
  exact ⟨posReachable_bookA, by decide, rfl, b1, fs, h1, h2, h3⟩

/-! ## Market sweeps take the best price first -/

theorem pairwise_of_all {α : Type} {S : α → α → Prop} {l : List α}
    (h : ∀ a ∈ l, ∀ d ∈ l, S a d) : l.Pairwise S := by
  induction l with
  | nil => exact List.Pairwise.nil
  | cons x t ih =>
    refine List.pairwise_cons.2 ⟨fun d hd => h x (List.mem_cons_self _ _) d
      (List.mem_cons_of_mem _ hd), ih (fun a ha d hd => ?_)⟩
    exact h a (List.mem_cons_of_mem _ ha) d (List.mem_cons_of_mem _ hd)

theorem priceOrdered_of_sorted {desc : Bool} {side : String} {m : PriceMap}
    (hs : SortedKeys desc m) (hl : LevelOK side m) : PriceOrdered desc (sideOrders m) := by
  induction m with
  | nil => exact List.Pairwise.nil
  | cons l rest ih =>
    obtain ⟨k, q⟩ := l
    have hl1 : LevelOK side rest := fun l hl1 => hl l (List.mem_cons_of_mem _ hl1)
    have ih1 := ih hs.tail hl1
    unfold PriceOrdered at ih1 ⊢
    simp only [sideOrders]
    rw [List.pairwise_append]
    refine ⟨pairwise_of_all ?_, ih1, ?_⟩
    · intro a ha d hd
      left
      rw [(hl _ (List.mem_cons_self _ _) a ha).2, (hl _ (List.mem_cons_self _ _) d hd).2]
    · intro a ha d hd
      right
      obtain ⟨l1, hl1m, hd1⟩ := mem_sideOrders.1 hd
      rw [(hl _ (List.mem_cons_self _ _) a ha).2,
        (hl _ (List.mem_cons_of_mem _ hl1m) d hd1).2]
      exact (sortedKeys_cons.1 hs).1 _ (mem_keys_of_mem hl1m)

theorem priceOrdered_sideOrders {desc : Bool} {side : String} {m : PriceMap}
    (hw : SideWF desc side m) : PriceOrdered desc (sideOrders m) :=
  priceOrdered_of_sorted hw.sorted hw.levelOK

theorem consumedFrom_nil (l : List Order) : ConsumedFrom l [] l := ⟨l, rfl, Or.inl rfl⟩

theorem ConsumedFrom.cons {o : Order} {t c after : List Order} (h : ConsumedFrom t c after) :
    ConsumedFrom (o :: t) (o :: c) after := by
  obtain ⟨rest, h1, h2⟩ := h
  refine ⟨rest, by rw [h1]; rfl, ?_⟩
  rcases h2 with h2 | ⟨init, last, nq, h3, h4⟩
  · exact Or.inl h2
  · exact Or.inr ⟨o :: init, last, nq, by rw [h3]; rfl, h4⟩

theorem consumedFrom_partial (o : Order) (t : List Order) (nq : Int) :
    ConsumedFrom (o :: t) [o] ({ o with quantity := nq } :: t) :=
  ⟨t, rfl, Or.inr ⟨[], o, nq, rfl, rfl⟩⟩

theorem settle_cases {a b : Int} (h : wrap32 (b - min a b) ≠ 0) : wrap32 (a - min a b) = 0 := by
  rcases min_settles a b with h1 | h1
  · exact h1
  · exact absurd h1 h

/-- The market-buy sweep consumes the asks in the order of the book: best level
first, each level from the front; every fill carries the id and the price of the
order it consumes. -/
theorem Run.marketBuy_consumes {id : String} {s s1 : OrderBook × Int} {fs : List Fill}
    (h : Run (marketBuyStep id) s s1 fs) (hw : WF s.1) :
    ∃ consumed, ConsumedFrom (sideOrders s.1.sellOrders) consumed (sideOrders s1.1.sellOrders) ∧
      fs.map (fun f => (f.sellId, f.price)) = consumed.map (fun r => (r.orderId, r.price)) := by
  induction h with
  | exit _ => exact ⟨[], consumedFrom_nil _, rfl⟩
  | @next s s2 s3 f fs hn hr ih =>
    obtain ⟨sp, so, sq, srest, hs, hpos, hs2, hf⟩ := marketBuyStep_next hn
    have hw2 : WF s2.1 := marketBuyStep_wf hw hn
    have hprice : so.price = sp := front_price hw.sell.levelOK hs
    have hside : sideOrders s.1.sellOrders = so :: (sq ++ sideOrders srest) := by
      rw [hs]; rfl
    have hside2 : sideOrders s2.1.sellOrders =
        settleList (wrap32 (so.quantity - min s.2 so.quantity)) (so :: (sq ++ sideOrders srest)) := by
      rw [hs2, ← hside]
      exact sideOrders_settleFront _ hw.sell.noEmpty
    by_cases hz : wrap32 (so.quantity - min s.2 so.quantity) = 0
    · obtain ⟨c, hc, hfs⟩ := ih hw2
      rw [hside2] at hc
      simp only [settleList, hz, if_true] at hc
      refine ⟨so :: c, by rw [hside]; exact hc.cons, ?_⟩
      rw [List.map_cons, List.map_cons, hfs, hf, hprice]
    · have hq0 : s2.2 = 0 := by rw [hs2]; exact settle_cases hz
      have hexit : marketBuyStep id s2 = .exit := by
        have := marketBuyStep_of_nonpos id s2.1 (le_of_eq hq0)
        exact this
      obtain ⟨rfl, rfl⟩ := Run.of_exit hr hexit
      refine ⟨[so], ?_, ?_⟩
      · rw [hside, hside2]
        simp only [settleList, hz, if_false]
        exact consumedFrom_partial _ _ _
      · simp [hf, hprice]

/-- The market-sell sweep consumes the bids in the order of the book. -/
theorem Run.marketSell_consumes {id : String} {s s1 : OrderBook × Int} {fs : List Fill}
    (h : Run (marketSellStep id) s s1 fs) (hw : WF s.1) :
    ∃ consumed, ConsumedFrom (sideOrders s.1.buyOrders) consumed (sideOrders s1.1.buyOrders) ∧
      fs.map (fun f => (f.buyId, f.price)) = consumed.map (fun r => (r.orderId, r.price)) := by
  induction h with
  | exit _ => exact ⟨[], consumedFrom_nil _, rfl⟩
  | @next s s2 s3 f fs hn hr ih =>
    obtain ⟨bp, bo, bq, brest, hs, hpos, hs2, hf⟩ := marketSellStep_next hn
    have hw2 : WF s2.1 := marketSellStep_wf hw hn
    have hprice : bo.price = bp := front_price hw.buy.levelOK hs
    have hside : sideOrders s.1.buyOrders = bo :: (bq ++ sideOrders brest) := by
      rw [hs]; rfl
    have hside2 : sideOrders s2.1.buyOrders =
        settleList (wrap32 (bo.quantity - min s.2 bo.quantity)) (bo :: (bq ++ sideOrders brest)) := by
      rw [hs2, ← hside]
      exact sideOrders_settleFront _ hw.buy.noEmpty
    by_cases hz : wrap32 (bo.quantity - min s.2 bo.quantity) = 0
    · obtain ⟨c, hc, hfs⟩ := ih hw2
      rw [hside2] at hc
      simp only [settleList, hz, if_true] at hc
      refine ⟨bo :: c, by rw [hside]; exact hc.cons, ?_⟩
      rw [List.map_cons, List.map_cons, hfs, hf, hprice]
    · have hq0 : s2.2 = 0 := by rw [hs2]; exact settle_cases hz
      have hexit : marketSellStep id s2 = .exit := by
        have := marketSellStep_of_nonpos id s2.1 (le_of_eq hq0)
        exact this
      obtain ⟨rfl, rfl⟩ := Run.of_exit hr hexit
      refine ⟨[bo], ?_, ?_⟩
      · rw [hside, hside2]
        simp only [settleList, hz, if_false]
        exact consumedFrom_partial _ _ _
      · simp [hf, hprice]

theorem Run.marketBuy_frame {id : String} {s s1 : OrderBook × Int} {fs : List Fill}
    (h : Run (marketBuyStep id) s s1 fs) :
    s1.1.buyOrders = s.1.buyOrders ∧ (keys s1.1.sellOrders).Sublist (keys s.1.sellOrders) := by
  refine (Run.inv (fun t : OrderBook × Int => t.1.buyOrders = s.1.buyOrders ∧
    (keys t.1.sellOrders).Sublist (keys s.1.sellOrders)) ?_ h ⟨rfl, List.Sublist.refl _⟩).1
  intro t t1 f hi hn
  obtain ⟨sp, so, sq, srest, _, _, rfl, _⟩ := marketBuyStep_next hn
  exact ⟨hi.1, (keys_settleFront_sublist _ _).trans hi.2⟩

theorem Run.marketSell_frame {id : String} {s s1 : OrderBook × Int} {fs : List Fill}
    (h : Run (marketSellStep id) s s1 fs) :
    s1.1.sellOrders = s.1.sellOrders ∧ (keys s1.1.buyOrders).Sublist (keys s.1.buyOrders) := by
  refine (Run.inv (fun t : OrderBook × Int => t.1.sellOrders = s.1.sellOrders ∧
    (keys t.1.buyOrders).Sublist (keys s.1.buyOrders)) ?_ h ⟨rfl, List.Sublist.refl _⟩).1
  intro t t1 f hi hn
  obtain ⟨bp, bo, bq, brest, _, _, rfl, _⟩ := marketSellStep_next hn
  exact ⟨hi.1, (keys_settleFront_sublist _ _).trans hi.2⟩

theorem last_mem_of_append {α : Type} {init c1 t : List α} {last c : α}
    (h : c1 ++ c :: t = init ++ [last]) : last ∈ c :: t := by
  rcases List.append_eq_append_iff.1 h with ⟨a, h1, h2⟩ | ⟨a, h1, h2⟩
  · rw [h2]; simp
  · cases a with
    | nil =>
      simp only [List.nil_append] at h2
      cases h2
      exact List.mem_cons_self _ _
    | cons x a1 =>
      have h3 := congrArg List.length h2
      simp at h3

/-- What the consumption order gives: the fill prices follow the price order of
the side, and when a fill is made every resting order at a better price has been
consumed by an earlier fill and is not on the side afterwards. -/
theorem sweep_order {desc : Bool} {before consumed after : List Order} {fills : List Fill}
    (key : Fill → String) (hc : ConsumedFrom before consumed after)
    (hpo : PriceOrdered desc before) (hnd : (before.map (fun r => r.orderId)).Nodup)
    (hf : fills.map (fun f => (key f, f.price)) = consumed.map (fun r => (r.orderId, r.price))) :
    (fills.map (fun f => f.price)).Pairwise (fun p q => p = q ∨ keyBefore desc p q = true) ∧
      ∀ fs1 f fs2, fills = fs1 ++ f :: fs2 → ∀ s ∈ before,
        keyBefore desc s.price f.price = true →
          s.orderId ∈ fs1.map key ∧ s.orderId ∉ after.map (fun r => r.orderId) := by
  obtain ⟨rest, hb, hafter⟩ := hc
  constructor
  · have h1 : PriceOrdered desc consumed := by
      unfold PriceOrdered at hpo ⊢
      rw [hb] at hpo
      exact (List.pairwise_append.1 hpo).1
    have h2 : fills.map (fun f => f.price) = consumed.map (fun r => r.price) := by
      have := congrArg (List.map Prod.snd) hf
      simpa [List.map_map, Function.comp] using this
    rw [h2, List.pairwise_map]
    exact h1
  · intro fs1 f fs2 hfs s hs hlt
    rw [hfs, List.map_append, List.map_cons] at hf
    obtain ⟨c1, c', hcs, hm1, hm2⟩ := List.map_eq_append_iff.1 hf.symm
    obtain ⟨c, c2, hc', hmc, _⟩ := List.map_eq_cons_iff.1 hm2
    subst hc'
    subst hcs
    have hcp : c.price = f.price := congrArg Prod.snd hmc
    rw [← hcp] at hlt
    have hb1 : before = c1 ++ (c :: (c2 ++ rest)) := by rw [hb]; simp
    have hin : s ∈ c1 := by
      rw [hb1] at hs hpo
      unfold PriceOrdered at hpo
      obtain ⟨_, h2, _⟩ := List.pairwise_append.1 hpo
      rcases List.mem_append.1 hs with h | h
      · exact h
      · exfalso
        rcases List.mem_cons.1 h with h | h
        · rw [h, keyBefore_irrefl] at hlt; cases hlt
        · rcases (List.pairwise_cons.1 h2).1 s h with h3 | h3
          · rw [h3, keyBefore_irrefl] at hlt; cases hlt
          · rw [keyBefore_asymm h3] at hlt; cases hlt
    constructor
    · have : (s.orderId, s.price) ∈ c1.map (fun r => (r.orderId, r.price)) :=
        List.mem_map_of_mem _ hin
      rw [hm1] at this
      obtain ⟨f1, hf1, he⟩ := List.mem_map.1 this
      exact List.mem_map.2 ⟨f1, hf1, congrArg Prod.fst he⟩
    · rw [hb1, List.map_append] at hnd
      have hdis := (List.nodup_append.1 hnd).2.2
      have hs1 : s.orderId ∈ c1.map (fun r => r.orderId) := List.mem_map_of_mem _ hin
      intro hmem
      apply hdis hs1
      rcases hafter with h | ⟨init, last, nq, h1, h2⟩
      · rw [h] at hmem
        simp only [List.map_cons, List.map_append, List.mem_cons, List.mem_append]
        exact Or.inr (Or.inr hmem)
      · rw [h2, List.map_cons, List.mem_cons] at hmem
        rcases hmem with h | h
        · have hl : last ∈ c :: c2 := last_mem_of_append h1
          have : last ∈ c :: (c2 ++ rest) := by
            rcases List.mem_cons.1 hl with h4 | h4
            · rw [h4]; exact List.mem_cons_self _ _
            · exact List.mem_cons_of_mem _ (List.mem_append_left _ h4)
          rw [h]
          exact List.mem_map.2 ⟨last, this, rfl⟩
        · simp only [List.map_cons, List.map_append, List.mem_cons, List.mem_append]
          exact Or.inr (Or.inr h)

theorem keyBefore_asc {p q : Int} : keyBefore false p q = true ↔ p < q := by
  simp [keyBefore]

theorem keyBefore_desc {p q : Int} : keyBefore true p q = true ↔ q < p := by
  simp [keyBefore]

theorem pairwise_le_of_asc {l : List Int}
    (h : l.Pairwise (fun p q => p = q ∨ keyBefore false p q = true)) :
    l.Pairwise (fun p q => p ≤ q) := by
  refine h.imp ?_
  intro p q hpq
  rcases hpq with h1 | h1
  · exact le_of_eq h1
  · exact le_of_lt (keyBefore_asc.1 h1)

theorem pairwise_ge_of_desc {l : List Int}
    (h : l.Pairwise (fun p q => p = q ∨ keyBefore true p q = true)) :
    l.Pairwise (fun p q => q ≤ p) := by
  refine h.imp ?_
  intro p q hpq
  rcases hpq with h1 | h1
  · exact le_of_eq h1.symm
  · exact le_of_lt (keyBefore_desc.1 h1)

/-- The conclusion of `market_sweep_best_first` for a market buy whose sweep is the
run `hs`. -/
theorem marketBuy_best_first {b : OrderBook} {o : Order} {s : OrderBook × Int}
    {pre : List Fill} (hw : WF b) (hid : indexHas o.orderId b.activeOrders = false)
    (hs : Run (marketBuyStep o.orderId) (registered b o, o.quantity) s pre) :
    (∃ consumed rest, sideOrders b.sellOrders = consumed ++ rest ∧
        pre.map (fun f => (f.sellId, f.price)) = consumed.map (fun r => (r.orderId, r.price))) ∧
      (pre.map (fun f => f.price)).Pairwise (fun p q => p ≤ q) ∧
      ∀ fs1 f fs2, pre = fs1 ++ f :: fs2 → ∀ r ∈ sideOrders b.sellOrders, r.price < f.price →
        r.orderId ∈ fs1.map (fun g => g.sellId) ∧ ¬ Rests s.1 r.orderId := by
  have hw0 : WF (registered b o) := hw.register_wf o hid
  obtain ⟨consumed, hc, hf⟩ := hs.marketBuy_consumes hw0
  obtain ⟨hbuy, _⟩ := hs.marketBuy_frame
  have hc0 := hc
  obtain ⟨rest, hrest, _⟩ := hc0
  obtain ⟨h1, h2⟩ := sweep_order (fun g => g.sellId) hc (priceOrdered_sideOrders hw.sell)
    hw.nodup_sell hf
  refine ⟨⟨consumed, rest, hrest, hf⟩, pairwise_le_of_asc h1, ?_⟩
  intro fs1 f fs2 hfs r hr hlt
  obtain ⟨h3, h4⟩ := h2 fs1 f fs2 hfs r hr (keyBefore_asc.2 hlt)
  refine ⟨h3, fun hrests => ?_⟩
  rcases List.mem_append.1 (rests_iff.1 hrests) with h5 | h5
  · rw [hbuy] at h5
    exact hw.disjoint h5 (mem_ids.2 ⟨r, hr, rfl⟩)
  · exact h4 h5

/-- The conclusion of `market_sweep_best_first` for a market sell whose sweep is the
run `hs`. -/
theorem marketSell_best_first {b : OrderBook} {o : Order} {s : OrderBook × Int}
    {pre : List Fill} (hw : WF b) (hid : indexHas o.orderId b.activeOrders = false)
    (hs : Run (marketSellStep o.orderId) (registered b o, o.quantity) s pre) :
    (∃ consumed rest, sideOrders b.buyOrders = consumed ++ rest ∧
        pre.map (fun f => (f.buyId, f.price)) = consumed.map (fun r => (r.orderId, r.price))) ∧
      (pre.map (fun f => f.price)).Pairwise (fun p q => q ≤ p) ∧
      ∀ fs1 f fs2, pre = fs1 ++ f :: fs2 → ∀ r ∈ sideOrders b.buyOrders, f.price < r.price →
        r.orderId ∈ fs1.map (fun g => g.buyId) ∧ ¬ Rests s.1 r.orderId := by
  have hw0 : WF (registered b o) := hw.register_wf o hid
  obtain ⟨consumed, hc, hf⟩ := hs.marketSell_consumes hw0
  obtain ⟨hsell, _⟩ := hs.marketSell_frame
  have hc0 := hc
  obtain ⟨rest, hrest, _⟩ := hc0
  obtain ⟨h1, h2⟩ := sweep_order (fun g => g.buyId) hc (priceOrdered_sideOrders hw.buy)
    hw.nodup_buy hf
  refine ⟨⟨consumed, rest, hrest, hf⟩, pairwise_ge_of_desc h1, ?_⟩
  intro fs1 f fs2 hfs r hr hlt
  obtain ⟨h3, h4⟩ := h2 fs1 f fs2 hfs r hr (keyBefore_desc.2 hlt)
  refine ⟨h3, fun hrests => ?_⟩
  rcases List.mem_append.1 (rests_iff.1 hrests) with h5 | h5
  · exact h4 h5
  · rw [hsell] at h5
    exact hw.disjoint (mem_ids.2 ⟨r, hr, rfl⟩) h5

theorem Run.marketBuy_uncrossed {id : String} {s s1 : OrderBook × Int} {fs : List Fill}
    (h : Run (marketBuyStep id) s s1 fs) (hu : Uncrossed s.1) : Uncrossed s1.1 := by
  obtain ⟨h1, h2⟩ := h.marketBuy_frame
  exact hu.of_keys (fun k hk => by rw [h1] at hk; exact hk) (fun _ hk => h2.subset hk)

theorem Run.marketSell_uncrossed {id : String} {s s1 : OrderBook × Int} {fs : List Fill}
    (h : Run (marketSellStep id) s s1 fs) (hu : Uncrossed s.1) : Uncrossed s1.1 := by
  obtain ⟨h1, h2⟩ := h.marketSell_frame
  exact hu.of_keys (fun _ hk => h2.subset hk) (fun k hk => by rw [h1] at hk; exact hk)

/-- C19: a market sweep takes the best price first, at the resting price.  On a
reachable book, the fills of a market order consume the resting orders of the
opposite side in the order of the book (best level first, each level from the
front) and each fill carries the price of the order it consumes; so the fill
prices never decrease for a market buy and never increase for a market sell, and
when a fill is made every order that rested at a better price has been consumed
by an earlier fill and does not rest in the book afterwards. -/
theorem market_sweep_best_first (b : OrderBook) (hb : Reachable b) (o : Order)
    (htype : o.type = "market") :
    ∃ r, addOrder b o = .ok r ∧
      (o.side = "buy" →
        (∃ consumed rest, sideOrders b.sellOrders = consumed ++ rest ∧
          r.fills.map (fun f => (f.sellId, f.price)) =
            consumed.map (fun s => (s.orderId, s.price))) ∧
        (r.fills.map (fun f => f.price)).Pairwise (fun p q => p ≤ q) ∧
        ∀ fs1 f fs2, r.fills = fs1 ++ f :: fs2 →
          ∀ s ∈ sideOrders b.sellOrders, s.price < f.price →
            s.orderId ∈ fs1.map (fun g => g.sellId) ∧ ¬ Rests r.book s.orderId) ∧
      (o.side = "sell" →
        (∃ consumed rest, sideOrders b.buyOrders = consumed ++ rest ∧
          r.fills.map (fun f => (f.buyId, f.price)) =
            consumed.map (fun s => (s.orderId, s.price))) ∧
        (r.fills.map (fun f => f.price)).Pairwise (fun p q => q ≤ p) ∧
        ∀ fs1 f fs2, r.fills = fs1 ++ f :: fs2 →
          ∀ s ∈ sideOrders b.buyOrders, f.price < s.price →
            s.orderId ∈ fs1.map (fun g => g.buyId) ∧ ¬ Rests r.book s.orderId) := by
  obtain ⟨hw, hu⟩ := hb.wf_uncrossed
  obtain ⟨r, h1, h2⟩ := addOrder_spec o hw
  refine ⟨r, h1, ?_⟩
  cases h2 with
  | duplicate hd =>
    exact ⟨fun _ => ⟨⟨[], _, rfl, rfl⟩, List.Pairwise.nil,
        fun fs1 f fs2 h => by cases fs1 <;> cases h⟩,
      fun _ => ⟨⟨[], _, rfl, rfl⟩, List.Pairwise.nil,
        fun fs1 f fs2 h => by cases fs1 <;> cases h⟩⟩
  | limitBuy _ hl _ _ => exact absurd (hl.symm.trans htype) limit_ne_market
  | limitSell _ hl _ _ => exact absurd (hl.symm.trans htype) limit_ne_market
  | @marketBuy s pre b1 fs hid _ hside hs hm =>
    refine ⟨fun _ => ?_, fun hc => absurd (hside.symm.trans hc) buy_ne_sell⟩
    obtain ⟨rfl, rfl⟩ := hm.of_exit (matchStep_of_uncrossed (hs.marketBuy_uncrossed hu))
    rw [List.append_nil]
    exact marketBuy_best_first hw hid hs
  | @marketSell s pre b1 fs hid _ hside hs hm =>
    refine ⟨fun hc => absurd (hc.symm.trans hside) buy_ne_sell, fun _ => ?_⟩
    obtain ⟨rfl, rfl⟩ := hm.of_exit (matchStep_of_uncrossed (hs.marketSell_uncrossed hu))
    rw [List.append_nil]
    exact marketSell_best_first hw hid hs
  | invalidSide _ _ h3 h4 =>
    exact ⟨fun hc => absurd hc h3, fun hc => absurd hc h4⟩
  | invalidType _ _ h3 => exact absurd htype h3

/-- Instance of `market_sweep_best_first` at a market buy of 12 units against the asks
`S1` (10 at 100) and `S2` (5 at 101): 10 units are filled at 100, then 2 at 101. -/
theorem market_sweep_best_first_witness :
    Reachable bookS1S2 ∧ marketTwelve.type = "market" ∧
      addOrder bookS1S2 marketTwelve =
        .ok ⟨.done,
          ⟨[], [(101, [{ askS2 with quantity := 3 }])], [("M", marketTwelve), ("S2", askS2)]⟩,
          [⟨.marketBuy, 10, 100, "M", "S1"⟩, ⟨.marketBuy, 2, 101, "M", "S2"⟩]⟩ ∧
      ∃ r, addOrder bookS1S2 marketTwelve = .ok r ∧
        (r.fills.map (fun f => f.price)).Pairwise (fun p q => p ≤ q) ∧
        ∀ fs1 f fs2, r.fills = fs1 ++ f :: fs2 →
          ∀ s ∈ sideOrders bookS1S2.sellOrders, s.price < f.price →
            s.orderId ∈ fs1.map (fun g => g.sellId) ∧ ¬ Rests r.book s.orderId := by
  obtain ⟨r, hr, h, _⟩ :=
    market_sweep_best_first bookS1S2 reachable_bookS1S2 marketTwelve rfl
  exact ⟨reachable_bookS1S2, rfl, rfl, r, hr, (h rfl).2⟩

/-! ## Bounded work -/

/-- A loop whose every evaluation that continues lowers a measure stops when given
more fuel than the measure: it exits, or it meets an undefined `front()`. -/
theorem iterate_stops {σ : Type} (step : σ → Step σ) (μ : σ → Nat)
    (hnext : ∀ s s1 f, step s = .next s1 f → μ s1 < μ s) :
    ∀ (n : Nat) (s : σ), μ s < n →
      (∃ r, iterate step n s = .ok r) ∨ iterate step n s = .error .emptyFront := by
  intro n
  induction n with
  | zero => intro s h; omega
  | succ n ih =>
    intro s hm
    unfold iterate
    cases hs : step s with
    | exit => exact Or.inl ⟨_, rfl⟩
    | undefined => simp
    | next s1 f =>
      have hlt := hnext s s1 f hs
      rcases ih s1 (by omega) with ⟨r, hr⟩ | hr
      · obtain ⟨s2, fs⟩ := r
        simp only [hr]
        exact Or.inl ⟨_, rfl⟩
      · simp [hr]

theorem length_settleFront_cons (nq : Int) (k : Int) (o : Order) (q : List Order)
    (rest : PriceMap) :
    (sideOrders (settleFront nq ((k, o :: q) :: rest))).length =
      if nq = 0 then (sideOrders ((k, o :: q) :: rest)).length - 1
      else (sideOrders ((k, o :: q) :: rest)).length := by
  by_cases h : nq = 0
  · by_cases hq : q = []
    · simp [settleFront, sideOrders, h, hq]
    · simp [settleFront, sideOrders, h, hq]
  · simp [settleFront, sideOrders, h]

/-- Every evaluation of the cross-matching loop that continues removes at least
one order from a price-level queue, in any book state. -/
theorem matchStep_fewer {b b1 : OrderBook} {f : Fill} (h : matchStep b = .next b1 f) :
    (restingOrders b1).length < (restingOrders b).length ∧ 2 ≤ (restingOrders b).length := by
  obtain ⟨bp, bo, bq, brest, sp, so, sq, srest, hb, hs, _, h1, _⟩ := matchStep_next h
  have hlb := length_sideOrders_pos hb
  have hls := length_sideOrders_pos hs
  rw [h1]
  simp only [restingOrders, settleSell, settleBuy, List.length_append]
  rw [hb, hs, length_settleFront_cons, length_settleFront_cons, ← hb, ← hs]
  refine ⟨?_, by omega⟩
  rcases min_settles bo.quantity so.quantity with h0 | h0
  · rw [if_pos h0]; split <;> omega
  · rw [if_pos h0]; split <;> omega

/-- An evaluation of the market-buy sweep that continues removes an order from a
queue of the ask side, or it leaves the queues as long as they were and the market
order without quantity, so that the next evaluation exits.  The bid side is not
touched. -/
theorem marketBuyStep_fewer {id : String} {s s1 : OrderBook × Int} {f : Fill}
    (h : marketBuyStep id s = .next s1 f) :
    0 < s.2 ∧ s1.1.buyOrders = s.1.buyOrders ∧ 1 ≤ (sideOrders s.1.sellOrders).length ∧
      ((sideOrders s1.1.sellOrders).length + 1 = (sideOrders s.1.sellOrders).length ∨
        ((sideOrders s1.1.sellOrders).length = (sideOrders s.1.sellOrders).length ∧ s1.2 = 0 ∧
          marketBuyStep id s1 = .exit)) := by
  obtain ⟨sp, so, sq, srest, hs, hpos, h1, _⟩ := marketBuyStep_next h
  have hls := length_sideOrders_pos hs
  have hlen : (sideOrders s1.1.sellOrders).length =
      (if wrap32 (so.quantity - min s.2 so.quantity) = 0 then (sideOrders s.1.sellOrders).length - 1
        else (sideOrders s.1.sellOrders).length) := by
    rw [h1]
    simp only [settleSell]
    rw [hs, length_settleFront_cons]
  refine ⟨hpos, by rw [h1]; rfl, by omega, ?_⟩
  by_cases hz : wrap32 (so.quantity - min s.2 so.quantity) = 0
  · rw [if_pos hz] at hlen
    left; omega
  · rw [if_neg hz] at hlen
    have hq0 : s1.2 = 0 := by rw [h1]; exact settle_cases hz
    right
    exact ⟨hlen, hq0, marketBuyStep_of_nonpos id s1.1 (le_of_eq hq0)⟩

/-- The same for the market-sell sweep and the bid side. -/
theorem marketSellStep_fewer {id : String} {s s1 : OrderBook × Int} {f : Fill}
    (h : marketSellStep id s = .next s1 f) :
    0 < s.2 ∧ s1.1.sellOrders = s.1.sellOrders ∧ 1 ≤ (sideOrders s.1.buyOrders).length ∧
      ((sideOrders s1.1.buyOrders).length + 1 = (sideOrders s.1.buyOrders).length ∨
        ((sideOrders s1.1.buyOrders).length = (sideOrders s.1.buyOrders).length ∧ s1.2 = 0 ∧
          marketSellStep id s1 = .exit)) := by
  obtain ⟨bp, bo, bq, brest, hb, hpos, h1, _⟩ := marketSellStep_next h
  have hlb := length_sideOrders_pos hb
  have hlen : (sideOrders s1.1.buyOrders).length =
      (if wrap32 (bo.quantity - min s.2 bo.quantity) = 0 then (sideOrders s.1.buyOrders).length - 1
        else (sideOrders s.1.buyOrders).length) := by
    rw [h1]
    simp only [settleBuy]
    rw [hb, length_settleFront_cons]
  refine ⟨hpos, by rw [h1]; rfl, by omega, ?_⟩
  by_cases hz : wrap32 (bo.quantity - min s.2 bo.quantity) = 0
  · rw [if_pos hz] at hlen
    left; omega
  · rw [if_neg hz] at hlen
    have hq0 : s1.2 = 0 := by rw [h1]; exact settle_cases hz
    right
    exact ⟨hlen, hq0, marketSellStep_of_nonpos id s1.1 (le_of_eq hq0)⟩

/-- The number of fills of a cross-matching pass: none, or fewer than the orders
resting at its start. -/
theorem Run.matchOrders_count {b b1 : OrderBook} {fs : List Fill} (h : Run matchStep b b1 fs) :
    fs = [] ∨ fs.length + 1 ≤ (restingOrders b).length := by
  induction h with
  | exit _ => exact Or.inl rfl
  | next hn _ ih =>
    obtain ⟨h1, h2⟩ := matchStep_fewer hn
    right
    rcases ih with h3 | h3
    · rw [h3]; simp only [List.length_cons, List.length_nil]; omega
    · simp only [List.length_cons]; omega

/-- The number of fills of a market-buy sweep, counted against the orders it
removes: one fill for each order removed, and at most one more, after which an
order still rests. -/
theorem Run.marketBuy_count {id : String} {s s1 : OrderBook × Int} {fs : List Fill}
    (h : Run (marketBuyStep id) s s1 fs) :
    s1.1.buyOrders = s.1.buyOrders ∧
      (fs.length + (sideOrders s1.1.sellOrders).length ≤ (sideOrders s.1.sellOrders).length ∨
        (fs.length + (sideOrders s1.1.sellOrders).length = (sideOrders s.1.sellOrders).length + 1 ∧
          1 ≤ (sideOrders s1.1.sellOrders).length)) := by
  induction h with
  | exit _ => exact ⟨rfl, Or.inl (by simp)⟩
  | next hn hr ih =>
    obtain ⟨_, hb, hpos, hc⟩ := marketBuyStep_fewer hn
    obtain ⟨ihb, ihc⟩ := ih
    refine ⟨ihb.trans hb, ?_⟩
    rcases hc with hc | ⟨hc, _, hexit⟩
    · rcases ihc with h1 | ⟨h1, h2⟩
      · left; simp only [List.length_cons]; omega
      · right; simp only [List.length_cons]; omega
    · obtain ⟨rfl, rfl⟩ := Run.of_exit hr hexit
      right
      simp only [List.length_cons, List.length_nil]
      omega

theorem Run.marketSell_count {id : String} {s s1 : OrderBook × Int} {fs : List Fill}
    (h : Run (marketSellStep id) s s1 fs) :
    s1.1.sellOrders = s.1.sellOrders ∧
      (fs.length + (sideOrders s1.1.buyOrders).length ≤ (sideOrders s.1.buyOrders).length ∨
        (fs.length + (sideOrders s1.1.buyOrders).length = (sideOrders s.1.buyOrders).length + 1 ∧
          1 ≤ (sideOrders s1.1.buyOrders).length)) := by
  induction h with
  | exit _ => exact ⟨rfl, Or.inl (by simp)⟩
  | next hn hr ih =>
    obtain ⟨_, hb, hpos, hc⟩ := marketSellStep_fewer hn
    obtain ⟨ihb, ihc⟩ := ih
    refine ⟨ihb.trans hb, ?_⟩
    rcases hc with hc | ⟨hc, _, hexit⟩
    · rcases ihc with h1 | ⟨h1, h2⟩
      · left; simp only [List.length_cons]; omega
      · right; simp only [List.length_cons]; omega
    · obtain ⟨rfl, rfl⟩ := Run.of_exit hr hexit
      right
      simp only [List.length_cons, List.length_nil]
      omega

/-- The fills of one call of `addOrder` are at most as many as the orders resting
in the book at the call. -/
theorem AddSpec.fills_le {b : OrderBook} {o : Order} {r : AddResult} (h : AddSpec b o r)
    (hsb : SortedKeys true b.buyOrders) (hss : SortedKeys false b.sellOrders) :
    r.fills.length ≤ (restingOrders b).length := by
  cases h with
  | duplicate _ => simp
  | @limitBuy b1 fs _ _ _ hm =>
    have hlen : (restingOrders
        { (registered b o) with buyOrders := pushOrder true o b.buyOrders }).length =
        (restingOrders b).length + 1 := by
      simp only [restingOrders, registered, List.length_append]
      rw [(sideOrders_pushOrder_perm o hsb).length_eq]
      simp only [List.length_cons]; omega
    rcases hm.matchOrders_count with h1 | h1
    · rw [h1]; simp
    · have h2 : fs.length + 1 ≤ (restingOrders b).length + 1 := hlen ▸ h1
      simp only at h2 ⊢; omega
  | @limitSell b1 fs _ _ _ hm =>
    have hlen : (restingOrders
        { (registered b o) with sellOrders := pushOrder false o b.sellOrders }).length =
        (restingOrders b).length + 1 := by
      simp only [restingOrders, registered, List.length_append]
      rw [(sideOrders_pushOrder_perm o hss).length_eq]
      simp only [List.length_cons]; omega
    rcases hm.matchOrders_count with h1 | h1
    · rw [h1]; simp
    · have h2 : fs.length + 1 ≤ (restingOrders b).length + 1 := hlen ▸ h1
      simp only at h2 ⊢; omega
  | @marketBuy s pre b1 fs _ _ _ hs hm =>
    obtain ⟨hb, hc⟩ := hs.marketBuy_count
    have hm1 := hm.matchOrders_count
    simp only [restingOrders, registered, List.length_append] at hb hc hm1 ⊢
    rw [hb] at hm1
    rcases hm1 with h1 | h1
    · rw [h1]; simp only [List.length_nil]
      rcases hc with h2 | h2 <;> omega
    · rcases hc with h2 | h2 <;> omega
  | @marketSell s pre b1 fs _ _ _ hs hm =>
    obtain ⟨hb, hc⟩ := hs.marketSell_count
    have hm1 := hm.matchOrders_count
    simp only [restingOrders, registered, List.length_append] at hb hc hm1 ⊢
    rw [hb] at hm1
    rcases hm1 with h1 | h1
    · rw [h1]; simp only [List.length_nil]
      rcases hc with h2 | h2 <;> omega
    · rcases hc with h2 | h2 <;> omega
  | invalidSide _ _ _ _ => simp
  | invalidType _ _ _ => simp

/-- Case analysis of `addOrder`: a property of its outcome holds if it holds of
every outcome without a loop and of the four outcomes with loops. -/
theorem addOrder_cases (P : Except Fault AddResult → Prop) (b : OrderBook) (o : Order)
    (hok : ∀ r, P (.ok r))
    (hlb : P (finishAdd { (registered b o) with buyOrders := pushOrder true o b.buyOrders } []))
    (hls : P (finishAdd { (registered b o) with sellOrders := pushOrder false o b.sellOrders } []))
    (hmb : P (sweepAdd (marketBuyStep o.orderId) (registered b o) o b.sellOrders))
    (hms : P (sweepAdd (marketSellStep o.orderId) (registered b o) o b.buyOrders)) :
    P (addOrder b o) := by
  unfold addOrder
  split
  · exact hok _
  · simp only
    split
    · split
      · exact hlb
      · split
        · exact hls
        · exact hok _
    · split
      · split
        · exact hmb
        · split
          · exact hms
          · exact hok _
      · exact hok _

theorem matchOrders_stops (b : OrderBook) :
    (∃ r, matchOrders b = .ok r) ∨ matchOrders b = .error .emptyFront :=
  iterate_stops matchStep (fun b => (restingOrders b).length)
    (fun _ _ _ h => (matchStep_fewer h).1) _ b (Nat.lt_succ_self _)

theorem finishAdd_stops (b : OrderBook) (pre : List Fill) :
    (∃ r, finishAdd b pre = .ok r) ∨ finishAdd b pre = .error .emptyFront := by
  unfold finishAdd
  rcases matchOrders_stops b with ⟨r, hr⟩ | hr
  · obtain ⟨b1, fs⟩ := r
    rw [hr]; exact Or.inl ⟨_, rfl⟩
  · rw [hr]; exact Or.inr rfl

theorem marketBuy_stops (id : String) (b : OrderBook) (q : Int) :
    (∃ r, iterate (marketBuyStep id) ((sideOrders b.sellOrders).length + 2) (b, q) = .ok r) ∨
      iterate (marketBuyStep id) ((sideOrders b.sellOrders).length + 2) (b, q) =
        .error .emptyFront := by
  refine iterate_stops (marketBuyStep id)
    (fun s => (sideOrders s.1.sellOrders).length + (if 0 < s.2 then 1 else 0)) ?_ _ (b, q)
    (by simp only; split <;> omega)
  intro s s1 f h
  obtain ⟨hpos, _, _, hc⟩ := marketBuyStep_fewer h
  simp only [if_pos hpos]
  rcases hc with hc | ⟨hc, h0, _⟩
  · split <;> omega
  · rw [h0]; simp only [lt_self_iff_false, if_false]; omega

theorem marketSell_stops (id : String) (b : OrderBook) (q : Int) :
    (∃ r, iterate (marketSellStep id) ((sideOrders b.buyOrders).length + 2) (b, q) = .ok r) ∨
      iterate (marketSellStep id) ((sideOrders b.buyOrders).length + 2) (b, q) =
        .error .emptyFront := by
  refine iterate_stops (marketSellStep id)
    (fun s => (sideOrders s.1.buyOrders).length + (if 0 < s.2 then 1 else 0)) ?_ _ (b, q)
    (by simp only; split <;> omega)
  intro s s1 f h
  obtain ⟨hpos, _, _, hc⟩ := marketSellStep_fewer h
  simp only [if_pos hpos]
  rcases hc with hc | ⟨hc, h0, _⟩
  · split <;> omega
  · rw [h0]; simp only [lt_self_iff_false, if_false]; omega

/-- In every book state `addOrder` stops within its fuel: it returns, or it meets
`front()` on an empty queue. -/
theorem addOrder_stops (b : OrderBook) (o : Order) :
    (∃ r, addOrder b o = .ok r) ∨ addOrder b o = .error .emptyFront := by
  refine addOrder_cases (fun x => (∃ r, x = .ok r) ∨ x = .error .emptyFront) b o
    (fun r => Or.inl ⟨r, rfl⟩) (finishAdd_stops _ _) (finishAdd_stops _ _) ?_ ?_
  · unfold sweepAdd
    rcases marketBuy_stops o.orderId (registered b o) o.quantity with ⟨r, hr⟩ | hr
    · obtain ⟨s, pre⟩ := r
      have hr1 : iterate (marketBuyStep o.orderId) ((sideOrders b.sellOrders).length + 2)
          (registered b o, o.quantity) = .ok (s, pre) := hr
      rw [hr1]; exact finishAdd_stops _ _
    · have hr1 : iterate (marketBuyStep o.orderId) ((sideOrders b.sellOrders).length + 2)
          (registered b o, o.quantity) = .error .emptyFront := hr
      rw [hr1]; exact Or.inr rfl
  · unfold sweepAdd
    rcases marketSell_stops o.orderId (registered b o) o.quantity with ⟨r, hr⟩ | hr
    · obtain ⟨s, pre⟩ := r
      have hr1 : iterate (marketSellStep o.orderId) ((sideOrders b.buyOrders).length + 2)
          (registered b o, o.quantity) = .ok (s, pre) := hr
      rw [hr1]; exact finishAdd_stops _ _
    · have hr1 : iterate (marketSellStep o.orderId) ((sideOrders b.buyOrders).length + 2)
          (registered b o, o.quantity) = .error .emptyFront := hr
      rw [hr1]; exact Or.inr rfl

theorem finishAdd_run {b : OrderBook} {pre : List Fill} {r : AddResult}
    (h : finishAdd b pre = .ok r) :
    ∃ b1 fs, r = ⟨.done, b1, pre ++ fs⟩ ∧ Run matchStep b b1 fs := by
  unfold finishAdd at h
  cases hm : matchOrders b with
  | error e => rw [hm] at h; cases h
  | ok x =>
    obtain ⟨b1, fs⟩ := x
    rw [hm] at h
    simp only [Except.ok.injEq] at h
    exact ⟨b1, fs, h.symm, iterate_run _ _ _ _ _ hm⟩

theorem sweepAdd_run {step : OrderBook × Int → Step (OrderBook × Int)} {b : OrderBook}
    {o : Order} {opposite : PriceMap} {r : AddResult} (h : sweepAdd step b o opposite = .ok r) :
    ∃ s pre b1 fs, Run step (b, o.quantity) s pre ∧ Run matchStep s.1 b1 fs ∧
      r = ⟨.done, b1, pre ++ fs⟩ := by
  unfold sweepAdd at h
  cases hi : iterate step ((sideOrders opposite).length + 2) (b, o.quantity) with
  | error e => rw [hi] at h; cases h
  | ok x =>
    obtain ⟨s, pre⟩ := x
    rw [hi] at h
    obtain ⟨b1, fs, h1, h2⟩ := finishAdd_run h
    exact ⟨s, pre, b1, fs, iterate_run _ _ _ _ _ hi, h2, h1⟩

/-- Every result of `addOrder` is one of the runs of `AddSpec`, in any book state. -/
theorem addOrder_run {b : OrderBook} {o : Order} {r : AddResult} (h : addOrder b o = .ok r) :
    AddSpec b o r := by
  unfold addOrder at h
  by_cases hid : indexHas o.orderId b.activeOrders = true
  · rw [if_pos hid] at h
    cases h
    exact .duplicate hid
  · rw [if_neg hid] at h
    have hid1 : indexHas o.orderId b.activeOrders = false := by simpa using hid
    by_cases ht : o.type = "limit"
    · simp only [if_pos ht] at h
      by_cases hs : o.side = "buy"
      · simp only [if_pos hs] at h
        obtain ⟨b1, fs, rfl, h2⟩ := finishAdd_run h
        exact .limitBuy hid1 ht hs h2
      · simp only [if_neg hs] at h
        by_cases hs2 : o.side = "sell"
        · simp only [if_pos hs2] at h
          obtain ⟨b1, fs, rfl, h2⟩ := finishAdd_run h
          exact .limitSell hid1 ht hs2 h2
        · simp only [if_neg hs2] at h
          cases h
          exact .invalidSide hid1 (Or.inl ht) hs hs2
    · simp only [if_neg ht] at h
      by_cases hm : o.type = "market"
      · simp only [if_pos hm] at h
        by_cases hs : o.side = "buy"
        · simp only [if_pos hs] at h
          obtain ⟨s, pre, b1, fs, h1, h2, rfl⟩ := sweepAdd_run h
          exact .marketBuy hid1 hm hs h1 h2
        · simp only [if_neg hs] at h
          by_cases hs2 : o.side = "sell"
          · simp only [if_pos hs2] at h
            obtain ⟨s, pre, b1, fs, h1, h2, rfl⟩ := sweepAdd_run h
            exact .marketSell hid1 hm hs2 h1 h2
          · simp only [if_neg hs2] at h
            cases h
            exact .invalidSide hid1 (Or.inr hm) hs hs2
      · simp only [if_neg hm] at h
        cases h
        exact .invalidType hid1 ht hm

theorem matchStep_defined_of {b : OrderBook} (h : QueuesNonEmpty b) :
    matchStep b ≠ .undefined := by
  intro hu
  unfold matchStep at hu
  split at hu
  · rename_i bp bq brest sp sq srest hb hs
    split at hu
    · split at hu
      · cases hu
      · rename_i hne
        have h1 : bq ≠ [] := h.1 (bp, bq) (by rw [hb]; exact List.mem_cons_self _ _)
        have h2 : sq ≠ [] := h.2 (sp, sq) (by rw [hs]; exact List.mem_cons_self _ _)
        cases bq with
        | nil => exact h1 rfl
        | cons bo bq1 =>
          cases sq with
          | nil => exact h2 rfl
          | cons so sq1 => exact hne bo bq1 so sq1 rfl rfl
    · cases hu
  · cases hu

theorem marketBuyStep_defined_of {id : String} {s : OrderBook × Int} (h : QueuesNonEmpty s.1) :
    marketBuyStep id s ≠ .undefined := by
  intro hu
  unfold marketBuyStep at hu
  split at hu
  · cases hu
  · rename_i sp sq srest hs
    split at hu
    · split at hu
      · cases hu
      · exact h.2 (sp, []) (by rw [hs]; exact List.mem_cons_self _ _) rfl
    · cases hu

theorem marketSellStep_defined_of {id : String} {s : OrderBook × Int} (h : QueuesNonEmpty s.1) :
    marketSellStep id s ≠ .undefined := by
  intro hu
  unfold marketSellStep at hu
  split at hu
  · cases hu
  · rename_i bp bq brest hb
    split at hu
    · split at hu
      · cases hu
      · exact h.1 (bp, []) (by rw [hb]; exact List.mem_cons_self _ _) rfl
    · cases hu

theorem matchStep_nonEmpty {b b1 : OrderBook} {f : Fill} (h : QueuesNonEmpty b)
    (hn : matchStep b = .next b1 f) : QueuesNonEmpty b1 := by
  obtain ⟨bp, bo, bq, brest, sp, so, sq, srest, _, _, _, rfl, _⟩ := matchStep_next hn
  exact ⟨noEmpty_settleFront _ h.1, noEmpty_settleFront _ h.2⟩

theorem marketBuyStep_nonEmpty {id : String} {s s1 : OrderBook × Int} {f : Fill}
    (h : QueuesNonEmpty s.1) (hn : marketBuyStep id s = .next s1 f) : QueuesNonEmpty s1.1 := by
  obtain ⟨sp, so, sq, srest, _, _, rfl, _⟩ := marketBuyStep_next hn
  exact ⟨h.1, noEmpty_settleFront _ h.2⟩

theorem marketSellStep_nonEmpty {id : String} {s s1 : OrderBook × Int} {f : Fill}
    (h : QueuesNonEmpty s.1) (hn : marketSellStep id s = .next s1 f) : QueuesNonEmpty s1.1 := by
  obtain ⟨bp, bo, bq, brest, _, _, rfl, _⟩ := marketSellStep_next hn
  exact ⟨noEmpty_settleFront _ h.1, h.2⟩

theorem not_emptyFront_of_run {σ : Type} {step : σ → Step σ} (Inv : σ → Prop)
    (hdef : ∀ s, Inv s → step s ≠ .undefined)
    (hnext : ∀ s s1 f, Inv s → step s = .next s1 f → Inv s1) :
    ∀ (n : Nat) (s : σ), Inv s → iterate step n s ≠ .error .emptyFront := by
  intro n
  induction n with
  | zero => intro s _ h; simp [iterate] at h
  | succ n ih =>
    intro s hi h
    unfold iterate at h
    cases hs : step s with
    | exit => rw [hs] at h; cases h
    | undefined => exact hdef s hi hs
    | next s1 f =>
      rw [hs] at h
      simp only at h
      cases hr : iterate step n s1 with
      | ok r => rw [hr] at h; cases h
      | error e =>
        rw [hr] at h
        simp only [Except.error.injEq] at h
        exact ih s1 (hnext s s1 f hi hs) (by rw [hr, h])

/-- In a book state without empty queues `addOrder` returns: no call of `front()`
meets an empty queue. -/
theorem addOrder_returns {b : OrderBook} (o : Order) (hsb : SortedKeys true b.buyOrders)
    (hss : SortedKeys false b.sellOrders) (hne : QueuesNonEmpty b) :
    ∃ r, addOrder b o = .ok r := by
  have hfin : ∀ (b1 : OrderBook) (pre : List Fill), QueuesNonEmpty b1 →
      ∃ r, finishAdd b1 pre = .ok r := by
    intro b1 pre h1
    rcases finishAdd_stops b1 pre with h | h
    · exact h
    · exfalso
      unfold finishAdd at h
      cases hm : matchOrders b1 with
      | ok x => rw [hm] at h; cases h
      | error e =>
        rw [hm] at h
        simp only [Except.error.injEq] at h
        rw [h] at hm
        exact not_emptyFront_of_run QueuesNonEmpty (fun s hs => matchStep_defined_of hs)
          (fun s s1 f hs hn => matchStep_nonEmpty hs hn) _ b1 h1 hm
  have hreg : QueuesNonEmpty (registered b o) := hne
  refine addOrder_cases (fun x => ∃ r, x = .ok r) b o (fun r => ⟨r, rfl⟩)
    (hfin _ _ ⟨noEmpty_pushOrder o hsb hne.1, hne.2⟩)
    (hfin _ _ ⟨hne.1, noEmpty_pushOrder o hss hne.2⟩) ?_ ?_
  · unfold sweepAdd
    cases hi : iterate (marketBuyStep o.orderId) ((sideOrders b.sellOrders).length + 2)
        (registered b o, o.quantity) with
    | ok x =>
      obtain ⟨s, pre⟩ := x
      simp only
      refine hfin _ _ ?_
      exact ((iterate_run _ _ _ _ _ hi).inv (fun t : OrderBook × Int => QueuesNonEmpty t.1)
        (fun s s1 f hs hn => marketBuyStep_nonEmpty hs hn) hreg).1
    | error e =>
      exfalso
      rcases marketBuy_stops o.orderId (registered b o) o.quantity with ⟨r, hr⟩ | hr
      · have hr1 : iterate (marketBuyStep o.orderId) ((sideOrders b.sellOrders).length + 2)
            (registered b o, o.quantity) = .ok r := hr
        rw [hr1] at hi; cases hi
      · exact not_emptyFront_of_run (fun t : OrderBook × Int => QueuesNonEmpty t.1)
          (fun s hs => marketBuyStep_defined_of hs)
          (fun s s1 f hs hn => marketBuyStep_nonEmpty hs hn) _ (registered b o, o.quantity)
          hreg hr
  · unfold sweepAdd
    cases hi : iterate (marketSellStep o.orderId) ((sideOrders b.buyOrders).length + 2)
        (registered b o, o.quantity) with
    | ok x =>
      obtain ⟨s, pre⟩ := x
      simp only
      refine hfin _ _ ?_
      exact ((iterate_run _ _ _ _ _ hi).inv (fun t : OrderBook × Int => QueuesNonEmpty t.1)
        (fun s s1 f hs hn => marketSellStep_nonEmpty hs hn) hreg).1
    | error e =>
      exfalso
      rcases marketSell_stops o.orderId (registered b o) o.quantity with ⟨r, hr⟩ | hr
      · have hr1 : iterate (marketSellStep o.orderId) ((sideOrders b.buyOrders).length + 2)
            (registered b o, o.quantity) = .ok r := hr
        rw [hr1] at hi; cases hi
      · exact not_emptyFront_of_run (fun t : OrderBook × Int => QueuesNonEmpty t.1)
          (fun s hs => marketSellStep_defined_of hs)
          (fun s s1 f hs hn => marketSellStep_nonEmpty hs hn) _ (registered b o, o.quantity)
          hreg hr

/-- C20 (amended): matching terminates with bounded work.  In every book state
(sorted price maps, any integer quantities) and for every order, `addOrder` stops:
it returns, or it meets `front()` on an empty queue; it returns whenever no level
holds an empty queue.  When it returns, its fills, one for each loop iteration
that does not exit, are at most as many as the orders resting in the book at the
call.  The reason: every iteration of the cross-matching loop that does not exit
removes at least one order from a queue, and every iteration of a market sweep
that does not exit removes an order from a queue or leaves the market order
without quantity, after which the sweep exits. -/
theorem matching_work_bounded (b : OrderBook) (o : Order)
    (hsb : SortedKeys true b.buyOrders) (hss : SortedKeys false b.sellOrders) :
    ((∃ r, addOrder b o = .ok r ∧ r.fills.length ≤ (restingOrders b).length) ∨
        addOrder b o = .error .emptyFront) ∧
      (QueuesNonEmpty b →
        ∃ r, addOrder b o = .ok r ∧ r.fills.length ≤ (restingOrders b).length) ∧
      (∀ b0 b1 f, matchStep b0 = .next b1 f →
        (restingOrders b1).length < (restingOrders b0).length) ∧
      (∀ id s s1 f, marketBuyStep id s = .next s1 f →
        (restingOrders s1.1).length < (restingOrders s.1).length ∨
          ((restingOrders s1.1).length = (restingOrders s.1).length ∧ s1.2 = 0 ∧
            marketBuyStep id s1 = .exit)) ∧
      (∀ id s s1 f, marketSellStep id s = .next s1 f →
        (restingOrders s1.1).length < (restingOrders s.1).length ∨
          ((restingOrders s1.1).length = (restingOrders s.1).length ∧ s1.2 = 0 ∧
            marketSellStep id s1 = .exit)) := by
  refine ⟨?_, ?_, fun _ _ _ h => (matchStep_fewer h).1, ?_, ?_⟩
  · rcases addOrder_stops b o with ⟨r, hr⟩ | hr
    · exact Or.inl ⟨r, hr, (addOrder_run hr).fills_le hsb hss⟩
    · exact Or.inr hr
  · intro hne
    obtain ⟨r, hr⟩ := addOrder_returns o hsb hss hne
    exact ⟨r, hr, (addOrder_run hr).fills_le hsb hss⟩
  · intro id s s1 f h
    obtain ⟨_, hb, _, hc⟩ := marketBuyStep_fewer h
    simp only [restingOrders, List.length_append, hb]
    rcases hc with hc | ⟨hc, h0, he⟩
    · left; omega
    · right; exact ⟨by omega, h0, he⟩
  · intro id s s1 f h
    obtain ⟨_, hb, _, hc⟩ := marketSellStep_fewer h
    simp only [restingOrders, List.length_append, hb]
    rcases hc with hc | ⟨hc, h0, he⟩
    · left; omega
    · right; exact ⟨by omega, h0, he⟩

/-- C20 fails as stated for the market sweeps: the market buy of 2 units against
the resting ask `askA` of 10 units runs one iteration of the sweep loop, which does
not exit and removes no order from any queue (the ask stays, with 8 units). -/
theorem sweep_iteration_counterexample :
    Reachable bookA ∧
      marketBuyStep "M" (registered bookA marketTwo, marketTwo.quantity) =
        .next (bookAfterMarket, 0) ⟨.marketBuy, 2, 100, "M", "A"⟩ ∧
      (restingOrders bookAfterMarket).length =
        (restingOrders (registered bookA marketTwo)).length ∧
      ¬ (∀ id s s1 f, marketBuyStep id s = .next s1 f →
          (restingOrders s1.1).length < (restingOrders s.1).length) := by
  have h1 : marketBuyStep "M" (registered bookA marketTwo, marketTwo.quantity) =
      .next (bookAfterMarket, 0) ⟨.marketBuy, 2, 100, "M", "A"⟩ := rfl
  refine ⟨reachable_bookA, h1, rfl, fun h => ?_⟩
  have h2 := h "M" _ _ _ h1
  exact absurd h2 (by decide)

/-- Instance of `matching_work_bounded` at the market buy of 12 units against the
two asks `S1` and `S2`: the call returns with 2 fills. -/
theorem matching_work_witness :
    SortedKeys true bookS1S2.buyOrders ∧ SortedKeys false bookS1S2.sellOrders ∧
      QueuesNonEmpty bookS1S2 ∧
      ∃ r, addOrder bookS1S2 marketTwelve = .ok r ∧
        r.fills.length ≤ (restingOrders bookS1S2).length := by
  have hw := reachable_bookS1S2.wf_uncrossed.1
  exact ⟨hw.buy.sorted, hw.sell.sorted, ⟨hw.buy.noEmpty, hw.sell.noEmpty⟩,
    (matching_work_bounded bookS1S2 marketTwelve hw.buy.sorted hw.sell.sorted).2.1
      ⟨hw.buy.noEmpty, hw.sell.noEmpty⟩⟩

end Orderbook
